import Mathlib

/-!
# Verification of the four graph programs

Shallow embeddings of `magazin.cpp`, `supercomputer.cpp`, `teleportare.cpp` and
`ferate.cpp`, and theorems about them. Vectors indexed by node are total maps from
indices to values, loops carry a bound on their iterations and return `none` when the
bound is exhausted. All definitions come first, the theorems follow.
-/

namespace Magazin

/-- The marker of a missing node, `#define NIL -1`. -/
def NIL : Int := -1

/-- Pointwise update of a vector modelled as a total map from indices to values. -/
def upd {α : Type} (f : Nat → α) (i : Nat) (v : α) : Nat → α :=
  fun j => if j = i then v else f j

/-- The mutable members of `Task` that `dfs` and `get_result` touch. -/
structure State where
  time : Int
  started : Nat → Int
  finished : Nat → Int
  path : List Nat
  position : Nat → Int
  parent : Nat → Int

/-- The loop of `read_input` that reads the edges: the `i`-th value `x` read (`i` from 1)
appends `i + 1` to `adj[x]`. `i` is the loop counter, the list holds the values still to read. -/
def read_edges : Nat → List Nat → (Nat → List Nat) → (Nat → List Nat)
  | _, [], adj => adj
  | i, x :: rest, adj => read_edges (i + 1) rest (upd adj x (adj x ++ [i + 1]))

/-- The adjacency lists after `read_input`, all lists empty before. -/
def read_input (xs : List Nat) : Nat → List Nat :=
  read_edges 1 xs (fun _ => [])

/-- The body of the neighbour loop of `dfs`: an unvisited neighbour gets `node` as its
parent and is traversed by `visit`. -/
def dfs_step (visit : Nat → State → Option State) (node : Nat) (s : State) (neigh : Nat) :
    Option State :=
  if s.parent neigh = NIL then
    visit neigh { s with parent := upd s.parent neigh (node : Int) }
  else some s

/-- `Task::dfs`, with a bound on the recursion depth as first argument; `none` when the
bound is exhausted. -/
def dfs (adj : Nat → List Nat) : Nat → Nat → State → Option State
  | 0, _, _ => none
  | fuel + 1, node, st =>
    let t := st.time + 1
    let path := st.path ++ [node]
    let st1 : State :=
      { st with
        time := t
        started := upd st.started node t
        path := path
        position := upd st.position node ((path.length : Int) - 1) }
    match (adj node).foldlM (dfs_step (dfs adj fuel) node) st1 with
    | none => none
    | some st2 => some { st2 with finished := upd st2.finished node st2.time }

/-- The members as `get_result` initialises them. -/
def init : State :=
  { time := 0
    started := fun _ => 0
    finished := fun _ => 0
    path := []
    position := fun _ => 0
    parent := fun _ => NIL }

/-- The body of the query loop of `get_result` for the query `(d, e)`: the value left in
`answers[i]`. -/
def answer (st : State) (d : Nat) (e : Int) : Int :=
  if e > st.finished d - st.started d then NIL
  else
    let start := st.position d
    if start + e < (st.path.length : Int) then
      ((st.path.getD (start + e).toNat 0 : Nat) : Int)
    else NIL

/-- `Task::get_result` on `n`, the parent values `xs` and the queries `qs`: the vector
`answers`, whose entry 0 belongs to the dummy query. -/
def get_result (fuel : Nat) (xs : List Nat) (qs : List (Nat × Int)) : Option (List Int) :=
  match dfs (read_input xs) fuel 1 init with
  | none => none
  | some st => some (NIL :: qs.map (fun q => answer st q.1 q.2))


/-- The parent of node `v` as the input gives it: node `i + 1` has the `i`-th value read
(`1 ≤ i < n`) as its parent; nodes below 2 and beyond the input have none (0). -/
def par (xs : List Nat) (v : Nat) : Nat :=
  if 2 ≤ v then xs.getD (v - 2) 0 else 0

/-- The children of `v` in increasing node number. -/
def children (xs : List Nat) (v : Nat) : List Nat :=
  (List.range' 2 xs.length).filter (fun c => xs.getD (c - 2) 0 = v)

/-- The DFS pre-order of the subtree of `v`, children in increasing node number, cut at
depth `f`. -/
def pre (xs : List Nat) : Nat → Nat → List Nat
  | 0, _ => []
  | f + 1, v => v :: (children xs v).flatMap (pre xs f)

/-- The input describes a tree on the nodes `1..n` rooted at node 1: it gives `n - 1`
parents and every node reaches node 1 by following parents. -/
def IsTree (n : Nat) (xs : List Nat) : Prop :=
  xs.length + 1 = n ∧ ∀ v, 2 ≤ v → v ≤ n → ∃ k, (par xs)^[k] v = 1

/-- Node `a` is `w` itself or an ancestor of `w` (`w` lies in the subtree of `a`). -/
def InSubtree (n : Nat) (xs : List Nat) (a w : Nat) : Prop :=
  ∃ k, k < n ∧ (par xs)^[k] w = a

instance (n : Nat) (xs : List Nat) (a w : Nat) : Decidable (InSubtree n xs a w) := by
  unfold InSubtree; infer_instance

/-- The number of proper descendants of `d` among the nodes `1..n`. -/
def descendants (n : Nat) (xs : List Nat) (d : Nat) : Nat :=
  ((List.range' 1 n).filter (fun w => decide (w ≠ d ∧ InSubtree n xs d w))).length

/-- The DFS pre-order of the whole tree. -/
def preorder (n : Nat) (xs : List Nat) : List Nat := pre xs n 1

/-- The node standing `e` positions after `d` in the pre-order of the tree when `e` is at
most the number of proper descendants of `d`, and -1 otherwise. -/
def expected (n : Nat) (xs : List Nat) (d : Nat) (e : Int) : Int :=
  if e ≤ (descendants n xs d : Int) then
    (((preorder n xs).getD ((preorder n xs).indexOf d + e.toNat) 0 : Nat) : Int)
  else -1

/-- What the traversal leaves for a visited node `w`: the pre-order of its subtree is a
block of `path` that starts at `position[w]`, and `finished[w] - started[w]` is the size
of that block less one. -/
def NodeOK (n : Nat) (xs : List Nat) (st : State) (w : Nat) : Prop :=
  ∃ a b : List Nat, st.path = a ++ pre xs n w ++ b ∧ st.position w = (a.length : Int) ∧
    st.finished w - st.started w = ((pre xs n w).length : Int) - 1

/-- The effect of a traversal that visits exactly the nodes `T`, in that order, from the
state `st` to the state `st2`. -/
def Post (n : Nat) (xs : List Nat) (T : List Nat) (st st2 : State) : Prop :=
  st2.path = st.path ++ T ∧ st2.time = st.time + (T.length : Int) ∧
  (∀ w, w ∉ T → st2.started w = st.started w ∧ st2.finished w = st.finished w ∧
    st2.position w = st.position w ∧ st2.parent w = st.parent w) ∧
  (∀ w, w ∈ T → NodeOK n xs st2 w)

end Magazin

namespace Supercomputer

/-- The modulus of `unsigned long`, the type of the entries of `vertices_cnt`: 2 to the
power 64. -/
def W : Nat := 18446744073709551616

/-- Pointwise update of a vector modelled as a total map from indices to values. -/
def upd {α : Type} (f : Nat → α) (i : Nat) (v : α) : Nat → α :=
  fun j => if j = i then v else f j

/-- The vector `data_set` after `read_input`: a dummy 0 at index 0, then the values read. -/
def data_set (sets : List Int) : Nat → Int :=
  fun i => (0 :: sets).getD i 0

/-- The increment `++c` of an `unsigned long`: the largest value wraps around to 0. -/
def inc (c : Nat) : Nat := if c + 1 = W then 0 else c + 1

/-- The decrement `--c` of an `unsigned long`: 0 wraps around to the largest value. -/
def dec (c : Nat) : Nat := if c = 0 then W - 1 else c - 1

/-- The loop of `read_input` that reads the edges: an arc `(x, y)` increments
`vertices_cnt[y]` and appends `y` to `adj[x]`. -/
def read_arcs : List (Nat × Nat) → (Nat → Nat) × (Nat → List Nat) →
    (Nat → Nat) × (Nat → List Nat)
  | [], s => s
  | (x, y) :: rest, (cnt, adj) =>
    read_arcs rest (upd cnt y (inc (cnt y)), upd adj x (adj x ++ [y]))

/-- The vector `vertices_cnt` after `read_input`. -/
def vertices_cnt (arcs : List (Nat × Nat)) : Nat → Nat :=
  (read_arcs arcs (fun _ => 0, fun _ => [])).1

/-- The adjacency lists after `read_input`. -/
def adj (arcs : List (Nat × Nat)) : Nat → List Nat :=
  (read_arcs arcs (fun _ => 0, fun _ => [])).2

/-- The local state of `topo_sort_cnt`: the two queues, the copy of `vertices_cnt` and the
counter, together with a record of the nodes popped so far, in the order of popping (the
record is not a variable of the program and no step reads it). -/
structure State where
  q1 : List Nat
  q2 : List Nat
  cnt : Nat → Nat
  context_switches : Int
  popped : List Nat

/-- The body of the first loop of `topo_sort_cnt` for node `i`. -/
def init_step (ds : Nat → Int) (d1 d2 : Int) (st : State) (i : Nat) : State :=
  { st with
    q1 := if st.cnt i = 0 ∧ ds i = d1 then st.q1 ++ [i] else st.q1
    q2 := if st.cnt i = 0 ∧ ds i = d2 then st.q2 ++ [i] else st.q2 }

/-- The body of the loop over the neighbours of a popped node: the count of `neigh` is
decremented (as an `unsigned long`), and `neigh` is pushed on the queue of its data set
when the count is 0. -/
def relax (ds : Nat → Int) (d1 d2 : Int) (st : State) (neigh : Nat) : State :=
  { st with
    cnt := upd st.cnt neigh (dec (st.cnt neigh))
    q1 := if dec (st.cnt neigh) = 0 ∧ ds neigh = d1 then st.q1 ++ [neigh] else st.q1
    q2 := if dec (st.cnt neigh) = 0 ∧ ds neigh = d2 then st.q2 ++ [neigh] else st.q2 }

/-- The loop `while (!q1.empty())`, with a bound on the number of iterations. -/
def drain_q1 (adj : Nat → List Nat) (ds : Nat → Int) (d1 d2 : Int) :
    Nat → State → Option State
  | 0, _ => none
  | fuel + 1, st =>
    match st.q1 with
    | [] => some st
    | node :: rest =>
      drain_q1 adj ds d1 d2 fuel
        ((adj node).foldl (relax ds d1 d2)
          { st with q1 := rest, popped := st.popped ++ [node] })

/-- The loop `while (!q2.empty())`, with a bound on the number of iterations. -/
def drain_q2 (adj : Nat → List Nat) (ds : Nat → Int) (d1 d2 : Int) :
    Nat → State → Option State
  | 0, _ => none
  | fuel + 1, st =>
    match st.q2 with
    | [] => some st
    | node :: rest =>
      drain_q2 adj ds d1 d2 fuel
        ((adj node).foldl (relax ds d1 d2)
          { st with q2 := rest, popped := st.popped ++ [node] })

/-- The statement `if (!q.empty()) ++context_switches;` for the queue `q`. -/
def count_switch (q : List Nat) (st : State) : State :=
  if q.isEmpty then st else { st with context_switches := st.context_switches + 1 }

/-- The loop `while (!q1.empty() || !q2.empty())`: `inner` bounds the iterations of each
inner loop, the next argument those of this loop. -/
def main_loop (adj : Nat → List Nat) (ds : Nat → Int) (d1 d2 : Int) (inner : Nat) :
    Nat → State → Option State
  | 0, _ => none
  | fuel + 1, st =>
    if st.q1.isEmpty ∧ st.q2.isEmpty then some st
    else
      match drain_q1 adj ds d1 d2 inner st with
      | none => none
      | some s1 =>
        match drain_q2 adj ds d1 d2 inner (count_switch s1.q2 s1) with
        | none => none
        | some s3 => main_loop adj ds d1 d2 inner fuel (count_switch s3.q1 s3)

/-- The state of `topo_sort_cnt` when the main loop starts. -/
def start (n : Nat) (sets : List Int) (arcs : List (Nat × Nat)) (switched : Bool) : State :=
  (List.range' 1 n).foldl
    (init_step (data_set sets) (if switched then 2 else 1) (if switched then 1 else 2))
    { q1 := [], q2 := [], cnt := vertices_cnt arcs, context_switches := 0, popped := [] }

/-- The state of `topo_sort_cnt` when the main loop has ended; `none` when `fuel`
iterations do not suffice for one of the loops. -/
def topo_sort_run (fuel n : Nat) (sets : List Int) (arcs : List (Nat × Nat))
    (switched : Bool) : Option State :=
  main_loop (adj arcs) (data_set sets) (if switched then 2 else 1)
    (if switched then 1 else 2) fuel fuel (start n sets arcs switched)

/-- `Task::topo_sort_cnt`. -/
def topo_sort_cnt (fuel n : Nat) (sets : List Int) (arcs : List (Nat × Nat))
    (switched : Bool) : Option Int :=
  (topo_sort_run fuel n sets arcs switched).map (fun st => st.context_switches)

/-- `Task::get_result`. -/
def get_result (fuel n : Nat) (sets : List Int) (arcs : List (Nat × Nat)) : Option Int :=
  match topo_sort_cnt fuel n sets arcs false, topo_sort_cnt fuel n sets arcs true with
  | some a, some b => some (min a b)
  | _, _ => none

/-- The number of context switches of a schedule: the adjacent positions whose tasks need
different data sets. -/
def switches (ds : Nat → Int) : List Nat → Nat
  | [] => 0
  | [_] => 0
  | a :: b :: rest => (if ds a ≠ ds b then 1 else 0) + switches ds (b :: rest)

/-- A topological ordering of the tasks `1..n`: every task exactly once, and the source
of every arc before its target. -/
def IsTopo (n : Nat) (arcs : List (Nat × Nat)) (ord : List Nat) : Prop :=
  ord.Nodup ∧ (∀ v, v ∈ ord ↔ 1 ≤ v ∧ v ≤ n) ∧
    ∀ a ∈ arcs, ord.indexOf a.1 < ord.indexOf a.2

instance (n : Nat) (arcs : List (Nat × Nat)) (ord : List Nat) : Decidable (IsTopo n arcs ord) := by
  unfold IsTopo
  have : Decidable (∀ v, v ∈ ord ↔ 1 ≤ v ∧ v ≤ n) :=
    decidable_of_iff ((∀ v ∈ ord, 1 ≤ v ∧ v ≤ n) ∧ ∀ v ∈ List.range' 1 n, v ∈ ord) (by
      constructor
      · rintro ⟨h1, h2⟩ v
        exact ⟨h1 v, fun h => h2 v (by rw [List.mem_range'_1]; omega)⟩
      · intro h
        exact ⟨fun v hv => (h v).1 hv, fun v hv => (h v).2 (by
          rw [List.mem_range'_1] at hv; omega)⟩)
  infer_instance

/-- A directed acyclic graph on the tasks `1..n`: the arcs join tasks of `1..n` and no
task reaches itself along one or more arcs. -/
def IsDAG (n : Nat) (arcs : List (Nat × Nat)) : Prop :=
  (∀ a ∈ arcs, (1 ≤ a.1 ∧ a.1 ≤ n) ∧ (1 ≤ a.2 ∧ a.2 ≤ n)) ∧
    ∀ v, ¬ Relation.TransGen (fun x y => (x, y) ∈ arcs) v v

/-- The number of arcs into `v` whose source is not in `popped`. -/
def pending (arcs : List (Nat × Nat)) (popped : List Nat) (v : Nat) : Nat :=
  arcs.countP (fun a => decide (a.2 = v ∧ a.1 ∉ popped))

/-- The order of `popped` respects the arcs into its members: the source of such an arc
is in `popped` too, before the target. -/
def Respects (arcs : List (Nat × Nat)) (popped : List Nat) : Prop :=
  ∀ a ∈ arcs, a.2 ∈ popped → a.1 ∈ popped ∧ popped.indexOf a.1 < popped.indexOf a.2

/-- The invariant of the two-queue traversal while the neighbours `rest` of the node
popped last are still to be relaxed (`rest = []` at the head of every loop). -/
structure Inv (n : Nat) (arcs : List (Nat × Nat)) (ds : Nat → Int) (d1 d2 : Int)
    (rest : List Nat) (st : State) : Prop where
  nodup : st.popped.Nodup
  range : ∀ v ∈ st.popped, 1 ≤ v ∧ v ≤ n
  cnt : ∀ v, st.cnt v = pending arcs st.popped v + rest.count v
  small : ∀ v, st.cnt v < W
  q1 : ∀ v, v ∈ st.q1 ↔ (1 ≤ v ∧ v ≤ n) ∧ v ∉ st.popped ∧ st.cnt v = 0 ∧ ds v = d1
  q2 : ∀ v, v ∈ st.q2 ↔ (1 ≤ v ∧ v ≤ n) ∧ v ∉ st.popped ∧ st.cnt v = 0 ∧ ds v = d2
  q1nd : st.q1.Nodup
  q2nd : st.q2.Nodup
  resp : Respects arcs st.popped
  succ : ∀ v ∈ rest, ∃ p node, st.popped = p ++ [node] ∧ (node, v) ∈ arcs

/-- The state with the two queues exchanged. -/
def swap (st : State) : State :=
  { st with q1 := st.q2, q2 := st.q1 }

/-- The number of changes of data set when the tasks of a list are run in order on a
machine that holds the data set `cur`. -/
def cost (ds : Nat → Int) : Int → List Nat → Nat
  | _, [] => 0
  | cur, v :: rest => if ds v = cur then cost ds cur rest else 1 + cost ds (ds v) rest

/-- The list `rest` can be run in order once the tasks of `done` have run: every arc into
a task of `rest` comes from `done` or from an earlier task of `rest`. -/
def Valid (arcs : List (Nat × Nat)) : List Nat → List Nat → Prop
  | _, [] => True
  | done, v :: rest => (∀ a ∈ arcs, a.2 = v → a.1 ∈ done) ∧ Valid arcs (v :: done) rest

/-- The assumptions on the input under which the traversal is analysed: fewer arcs than
`unsigned long` has values, two distinct data sets, arcs between tasks of `1..n`. -/
structure Ctx (n : Nat) (arcs : List (Nat × Nat)) (d1 d2 : Int) : Prop where
  few : arcs.length < W
  ne : d1 ≠ d2
  inr : ∀ a ∈ arcs, (1 ≤ a.1 ∧ a.1 ≤ n) ∧ (1 ≤ a.2 ∧ a.2 ≤ n)

/-- The change of data set, 0 or 1, when a task of data set `l` runs after the list `A`. -/
def jump (ds : Nat → Int) (A : List Nat) (l : Int) : Nat :=
  match A.getLast? with
  | none => 0
  | some a => if ds a = l then 0 else 1

/-- The state with the counter moved by `k`. -/
def shift (k : Int) (st : State) : State :=
  { st with context_switches := st.context_switches + k }

/-- The second half of an iteration of the main loop and the iterations after it: the
loop on `q2`, the test of `q1`, and the main loop again. -/
def second_half (adj : Nat → List Nat) (ds : Nat → Int) (d1 d2 : Int) (inner fuel : Nat)
    (st : State) : Option State :=
  match drain_q2 adj ds d1 d2 inner st with
  | none => none
  | some s3 => main_loop adj ds d1 d2 inner fuel (count_switch s3.q1 s3)

end Supercomputer

namespace Teleportare

/-- The constant `INF`, `1LL << 60`. -/
def INF : Nat := 1152921504606846976

/-- The constant `NMAX`, the first dimension of `P` and the size of the adjacency arrays. -/
def NMAX : Nat := 100005

/-- The constant `PMAX`, the second dimension of `P`. -/
def PMAX : Nat := 845

/-- Pointwise update of an array modelled as a total map from indices to values. -/
def upd {α : Type} (f : Nat → α) (i : Nat) (v : α) : Nat → α :=
  fun j => if j = i then v else f j

/-- Update of one entry of a two-dimensional array. -/
def upd2 (P : Nat → Nat → Nat) (i j : Nat) (v : Nat) : Nat → Nat → Nat :=
  fun a b => if a = i ∧ b = j then v else P a b

/-- `Task::gcd` with a bound on the recursion depth. -/
def gcd_aux : Nat → Nat → Nat → Nat
  | 0, a, _ => a
  | fuel + 1, a, b => if b = 0 then a else gcd_aux fuel b (a % b)

/-- `Task::gcd`: the second argument decreases at every call, so `b + 1` calls suffice. -/
def gcd (a b : Nat) : Nat := gcd_aux (b + 1) a b

/-- `Task::lcm`, on natural numbers. The code multiplies two `int`s: the two agree as long
as the product stays below 2 to the power 31, which is the case when `lcm_aux` stays below
`PMAX`, as the theorems about `get_result` assume. -/
def lcm (a b : Nat) : Nat := a * b / gcd a b

/-- The loop of `read_input` that reads the corridors: `(x, y, w)` appends `(y, w)` to
`adj[x]` and `(x, w)` to `adj[y]`. -/
def read_corridors : List (Nat × Nat × Nat) → (Nat → List (Nat × Nat)) →
    (Nat → List (Nat × Nat))
  | [], adj => adj
  | (x, y, w) :: rest, adj =>
    read_corridors rest
      (upd (upd adj x (adj x ++ [(y, w)])) y (upd adj x (adj x ++ [(y, w)]) y ++ [(x, w)]))

/-- The loop of `read_input` that reads the portals: `(x, y, period)` updates `lcm_aux`
and appends `(y, period)` to `portal_adj[x]` and `(x, period)` to `portal_adj[y]`. -/
def read_portals : List (Nat × Nat × Nat) → (Nat → List (Nat × Nat)) × Nat →
    (Nat → List (Nat × Nat)) × Nat
  | [], s => s
  | (x, y, p) :: rest, (padj, l) =>
    read_portals rest
      (upd (upd padj x (padj x ++ [(y, p)])) y (upd padj x (padj x ++ [(y, p)]) y ++ [(x, p)]),
        lcm l p)

/-- The array `adj` after `read_input`. -/
def adj (corridors : List (Nat × Nat × Nat)) : Nat → List (Nat × Nat) :=
  read_corridors corridors (fun _ => [])

/-- The array `portal_adj` after `read_input`. -/
def portal_adj (portals : List (Nat × Nat × Nat)) : Nat → List (Nat × Nat) :=
  (read_portals portals (fun _ => [], 1)).1

/-- The member `lcm_aux` after `read_input`. -/
def lcm_aux (portals : List (Nat × Nat × Nat)) : Nat :=
  (read_portals portals (fun _ => [], 1)).2

/-- The array `P` and the priority queue of `get_result`; the queue holds pairs
`(cost, node)`. -/
structure State where
  P : Nat → Nat → Nat
  pq : List (Nat × Nat)

/-- The order of the priority queue: pairs compared by cost, then by node. -/
def pair_le (a b : Nat × Nat) : Bool :=
  decide (a.1 < b.1) || (decide (a.1 = b.1) && decide (a.2 ≤ b.2))

/-- The element `pq.top()` of a non-empty min-queue: the least pair. -/
def top : List (Nat × Nat) → Option (Nat × Nat)
  | [] => none
  | a :: l => some (l.foldl (fun m b => if pair_le b m then b else m) a)

/-- The body of the loop over the corridors of the popped node. -/
def relax_corridor (L cost_node : Nat) (st : State) (e : Nat × Nat) : State :=
  if st.P e.1 ((cost_node + e.2) % L) ≤ cost_node + e.2 then st
  else
    { P := upd2 st.P e.1 ((cost_node + e.2) % L) (cost_node + e.2)
      pq := (cost_node + e.2, e.1) :: st.pq }

/-- The body of the loop over the portals of the popped node. -/
def relax_portal (L cost_node : Nat) (st : State) (e : Nat × Nat) : State :=
  if st.P e.1 ((cost_node + 1) % L) ≤ cost_node + 1 then st
  else if cost_node % e.2 = 0 then
    { P := upd2 st.P e.1 ((cost_node + 1) % L) (cost_node + 1)
      pq := (cost_node + 1, e.1) :: st.pq }
  else st

/-- The loop `while (!pq.empty())` of `get_result` with a bound on its iterations: the
value returned, -1 when the queue runs empty, `none` when the bound is exhausted. -/
def dijkstra (n L : Nat) (adj padj : Nat → List (Nat × Nat)) : Nat → State → Option Int
  | 0, _ => none
  | fuel + 1, st =>
    match top st.pq with
    | none => some (-1)
    | some (cost_node, node) =>
      if node = n then some (cost_node : Int)
      else if st.P node (cost_node % L) < cost_node then
        dijkstra n L adj padj fuel { st with pq := st.pq.erase (cost_node, node) }
      else
        dijkstra n L adj padj fuel
          ((padj node).foldl (relax_portal L cost_node)
            ((adj node).foldl (relax_corridor L cost_node)
              { st with pq := st.pq.erase (cost_node, node) }))

/-- One iteration of the loop `while (!pq.empty())`: the state at the head of the next
iteration, `none` when the loop is left (empty queue, or `return` on room `n`). -/
def step (n L : Nat) (adj padj : Nat → List (Nat × Nat)) (st : State) : Option State :=
  match top st.pq with
  | none => none
  | some (cost_node, node) =>
    if node = n then none
    else if st.P node (cost_node % L) < cost_node then
      some { st with pq := st.pq.erase (cost_node, node) }
    else
      some ((padj node).foldl (relax_portal L cost_node)
        ((adj node).foldl (relax_corridor L cost_node)
          { st with pq := st.pq.erase (cost_node, node) }))

/-- The state at the head of the iteration number `k` (from 0) of the loop, `none` when
the loop is left earlier. -/
def iterate (n L : Nat) (adj padj : Nat → List (Nat × Nat)) : Nat → State → Option State
  | 0, st => some st
  | k + 1, st =>
    match step n L adj padj st with
    | none => none
    | some st2 => iterate n L adj padj k st2

/-- The value returned when the loop is left in the state `st`: -1 on an empty queue, the
cost on top of the queue otherwise. -/
def exit_value (st : State) : Int :=
  match top st.pq with
  | none => -1
  | some (cost_node, _) => (cost_node : Int)

/-- The state of `get_result` when the loop starts: the entries `P[1..n][0..lcm_aux]` are
`INF`, the other entries of the array are 0 as the object was allocated, and the queue
holds `(0, 1)`. -/
def init (n L : Nat) : State :=
  { P := fun i j => if 1 ≤ i ∧ i ≤ n ∧ j ≤ L then INF else 0
    pq := [(0, 1)] }

/-- `Task::get_result` on the input `n`, the corridors and the portals. -/
def get_result (fuel n : Nat) (corridors portals : List (Nat × Nat × Nat)) : Option Int :=
  dijkstra n (lcm_aux portals) (adj corridors) (portal_adj portals) fuel
    (init n (lcm_aux portals))

/-- A corridor or portal `(x, y, c)` of the list joins `u` and `v` in one of its two
directions. -/
def Joins (es : List (Nat × Nat × Nat)) (u v c : Nat) : Prop :=
  ∃ e ∈ es, e.2.2 = c ∧ ((e.1 = u ∧ e.2.1 = v) ∨ (e.1 = v ∧ e.2.1 = u))

/-- A valid walk ends in room `v` at time `t`: it starts in room 1 at time 0, a corridor
of weight `w` takes `w`, a portal of period `p` can be taken at the multiples of `p` only
and takes 1. -/
inductive Walk (corridors portals : List (Nat × Nat × Nat)) : Nat → Nat → Prop
  | start : Walk corridors portals 1 0
  | corridor {u v w t : Nat} : Walk corridors portals u t → Joins corridors u v w →
      Walk corridors portals v (t + w)
  | portal {u v p t : Nat} : Walk corridors portals u t → Joins portals u v p →
      t % p = 0 → Walk corridors portals v (t + 1)

/-- The assumptions on the input: corridors and portals join rooms of `1..n` and every
period is at least 1. -/
structure Valid (n : Nat) (cs ps : List (Nat × Nat × Nat)) : Prop where
  cin : ∀ e ∈ cs, (1 ≤ e.1 ∧ e.1 ≤ n) ∧ (1 ≤ e.2.1 ∧ e.2.1 ≤ n)
  pin : ∀ e ∈ ps, (1 ≤ e.1 ∧ e.1 ≤ n) ∧ (1 ≤ e.2.1 ∧ e.2.1 ≤ n)
  ppos : ∀ e ∈ ps, 1 ≤ e.2.2

/-- The invariant of the loop of `get_result`. `El` and `Ec` are sets of pairs
`(node, cost)` that were popped and not skipped: every finite entry of `P` is the time of
a valid walk with the right remainder and is in the queue or in `El`; the relaxations of
the pairs of `Ec` are complete; room `n` is never expanded. At the head of the loop the
two sets agree. -/
structure TInv (n L : Nat) (cs ps : List (Nat × Nat × Nat)) (El Ec : Set (Nat × Nat))
    (st : State) : Prop where
  sound_pq : ∀ c v, (c, v) ∈ st.pq → Walk cs ps v c
  sound_P : ∀ v r, 1 ≤ v → v ≤ n → r < L → st.P v r < INF →
    Walk cs ps v (st.P v r) ∧ st.P v r % L = r
  start : (0, 1) ∈ st.pq ∨ (1, 0) ∈ El
  live : ∀ v r, 1 ≤ v → v ≤ n → r < L → st.P v r < INF →
    (st.P v r, v) ∈ st.pq ∨ (v, st.P v r) ∈ El
  closed_c : ∀ u x, (u, x) ∈ Ec → ∀ e ∈ adj cs u, st.P e.1 ((x + e.2) % L) ≤ x + e.2
  closed_p : ∀ u x, (u, x) ∈ Ec → ∀ e ∈ portal_adj ps u, x % e.2 = 0 →
    st.P e.1 ((x + 1) % L) ≤ x + 1
  no_n : ∀ x, (n, x) ∉ El

/-- The quantity that decreases at every iteration of the loop: twice the sum of the
entries `P[1..n][0..L-1]`, plus the size of the queue. -/
def measure (n L : Nat) (st : State) : Nat :=
  2 * (∑ p in (Finset.Icc 1 n) ×ˢ (Finset.range L), st.P p.1 p.2) + st.pq.length

/-- A valid walk together with the list of the pairs `(room, time)` it went through before
its end, the most recent first: `Trail cs ps l v t` ends in room `v` at time `t`. -/
inductive Trail (corridors portals : List (Nat × Nat × Nat)) :
    List (Nat × Nat) → Nat → Nat → Prop
  | start : Trail corridors portals [] 1 0
  | corridor {l : List (Nat × Nat)} {u v w t : Nat} : Trail corridors portals l u t →
      Joins corridors u v w → Trail corridors portals ((u, t) :: l) v (t + w)
  | portal {l : List (Nat × Nat)} {u v p t : Nat} : Trail corridors portals l u t →
      Joins portals u v p → t % p = 0 → Trail corridors portals ((u, t) :: l) v (t + 1)

end Teleportare

namespace Ferate

/-- The constant `INF`, `1LL << 30`, the value of `found` for a node not yet discovered. -/
def INF : Nat := 1073741824

/-- The constant `NMAX`, the size of the array of adjacency lists. -/
def NMAX : Nat := 100005

/-- Pointwise update of a vector modelled as a total map from indices to values. -/
def upd {α : Type} (f : Nat → α) (i : Nat) (v : α) : Nat → α :=
  fun j => if j = i then v else f j

/-- The loop of `read_input` that reads the arcs: an arc `(x, y)` appends `y` to `adj[x]`. -/
def read_arcs : List (Nat × Nat) → (Nat → List Nat) → (Nat → List Nat)
  | [], adj => adj
  | (x, y) :: rest, adj => read_arcs rest (upd adj x (adj x ++ [y]))

/-- The adjacency lists after `read_input`. -/
def read_input (arcs : List (Nat × Nat)) : Nat → List Nat :=
  read_arcs arcs (fun _ => [])

/-- The vector `redirect` after `read_input`: `resize(n + 1)` fills it with 0, the loop
sets `redirect[i] = i` for `i` in `1..n`. -/
def init_redirect (n : Nat) : Nat → Nat :=
  (List.range' 1 n).foldl (fun r i => upd r i i) (fun _ => 0)

/-- The members that `dfs` writes. -/
structure Rails where
  has_rail : Nat → Bool
  has_edge : Nat → Bool
  cnt : Int

/-- The body of the neighbour loop of `dfs`: a pseudonode without a rail is traversed by
`visit`; a pseudonode with a rail that has an edge and is not the source of the traversal
loses its edge and the counter is decremented. -/
def dfs_step (visit : Nat → Rails → Option Rails) (redirect : Nat → Nat) (source_dfs : Nat)
    (r : Rails) (aux_neigh : Nat) : Option Rails :=
  if r.has_rail (redirect aux_neigh) = false then visit (redirect aux_neigh) r
  else if r.has_edge (redirect aux_neigh) = true ∧ source_dfs ≠ redirect aux_neigh then
    some { r with has_edge := upd r.has_edge (redirect aux_neigh) false, cnt := r.cnt - 1 }
  else some r

/-- `Task::dfs`, with a bound on the recursion depth as fourth argument; `none` when the
bound is exhausted. -/
def dfs (adj : Nat → List Nat) (redirect : Nat → Nat) (source_dfs : Nat) :
    Nat → Nat → Rails → Option Rails
  | 0, _, _ => none
  | fuel + 1, node, r =>
    (adj node).foldlM (dfs_step (dfs adj redirect source_dfs fuel) redirect source_dfs)
      { r with has_rail := upd r.has_rail node true }

/-- The members that `tarjan` writes, and the vector `all_sccs` it receives by reference. -/
structure Tarj where
  time : Nat
  found : Nat → Nat
  low_link : Nat → Nat
  in_stack : Nat → Bool
  st : List Nat
  all_sccs : List (List Nat)

/-- The loop `do ... while (aux != u)` of `tarjan` on the stack (top first), the vector
`in_stack` and the vector `scc`: the rest of the stack, the new `in_stack` and the new
`scc`; `none` when the stack runs empty before `u` is met. -/
def pop_scc (u : Nat) : List Nat → (Nat → Bool) → List Nat →
    Option (List Nat × (Nat → Bool) × List Nat)
  | [], _, _ => none
  | aux :: rest, in_stack, scc =>
    if aux ≠ u then pop_scc u rest (upd in_stack aux false) (scc ++ [aux])
    else some (rest, upd in_stack aux false, scc ++ [aux])

/-- The body of the neighbour loop of `tarjan` for the node `u` and its neighbour `v`. -/
def tarjan_step (visit : Nat → Tarj → Option Tarj) (has_rail : Nat → Bool) (u : Nat)
    (s : Tarj) (v : Nat) : Option Tarj :=
  if s.found v = INF ∧ has_rail v = false then
    match visit v s with
    | none => none
    | some s2 =>
      some { s2 with low_link := upd s2.low_link u (min (s2.low_link u) (s2.low_link v)) }
  else if s.in_stack v = true then
    some { s with low_link := upd s.low_link u (min (s.low_link u) (s.low_link v)) }
  else some s

/-- The end of `tarjan`: when `found[u] == low_link[u]` the nodes down to `u` are popped
and pushed as a new list on `all_sccs`. -/
def tarjan_finish (u : Nat) (s : Tarj) : Option Tarj :=
  if s.found u = s.low_link u then
    match pop_scc u s.st s.in_stack [] with
    | none => none
    | some (rest, in_stack, scc) =>
      some { s with st := rest, in_stack := in_stack, all_sccs := s.all_sccs ++ [scc] }
  else some s

/-- The beginning of `tarjan`: the discovery time and the low link of `u` are set, `u` is
pushed on the stack. -/
def tarjan_enter (u : Nat) (s : Tarj) : Tarj :=
  { time := s.time + 1
    found := upd s.found u (s.time + 1)
    low_link := upd s.low_link u (s.time + 1)
    in_stack := upd s.in_stack u true
    st := u :: s.st
    all_sccs := s.all_sccs }

/-- `Task::tarjan`, with a bound on the recursion depth as third argument; `none` when the
bound is exhausted. -/
def tarjan (adj : Nat → List Nat) (has_rail : Nat → Bool) : Nat → Nat → Tarj → Option Tarj
  | 0, _, _ => none
  | fuel + 1, u, s =>
    match (adj u).foldlM (tarjan_step (tarjan adj has_rail fuel) has_rail u)
        (tarjan_enter u s) with
    | none => none
    | some s2 => tarjan_finish u s2

/-- The members of `Task` that `tarjan` uses as `get_result` initialises them (`time` is 0
from the value-initialisation of the object by `new Task()`), with an empty `all_sccs`. -/
def tarj_init : Tarj :=
  { time := 0
    found := fun _ => INF
    low_link := fun _ => 0
    in_stack := fun _ => false
    st := []
    all_sccs := [] }

/-- The body of the loop of `get_result` that calls `tarjan`. -/
def tarjan_loop_step (adj : Nat → List Nat) (has_rail : Nat → Bool) (fuel : Nat)
    (s : Tarj) (i : Nat) : Option Tarj :=
  if s.found i = INF ∧ has_rail i = false then tarjan adj has_rail fuel i s else some s

/-- The loop of `get_result` that calls `tarjan` for `i` in `1..n`. -/
def tarjan_loop (adj : Nat → List Nat) (has_rail : Nat → Bool) (fuel n : Nat) : Option Tarj :=
  (List.range' 1 n).foldlM (tarjan_loop_step adj has_rail fuel) tarj_init

/-- The members that the redirection loop of `get_result` writes. -/
structure Merged where
  adj : Nat → List Nat
  redirect : Nat → Nat
  has_rail : Nat → Bool

/-- The body of the inner loop of the redirection for `node`, `scc0` being `scc[0]`. -/
def merge_node (scc0 : Nat) (m : Merged) (node : Nat) : Merged :=
  if node = scc0 then { m with redirect := upd m.redirect node scc0 }
  else
    { adj := (m.adj node).foldl (fun a neigh => upd a scc0 (a scc0 ++ [neigh])) m.adj
      redirect := upd m.redirect node scc0
      has_rail := upd m.has_rail node true }

/-- The body of the outer loop of the redirection for the list `scc`. -/
def merge_scc (m : Merged) (scc : List Nat) : Merged :=
  scc.foldl (merge_node (scc.headD 0)) m

/-- The body of the loop of `get_result` that counts the rails. -/
def count_step (adj : Nat → List Nat) (redirect : Nat → Nat) (fuel : Nat) (r : Rails)
    (i : Nat) : Option Rails :=
  if r.has_rail i = true then some r
  else dfs adj redirect i fuel i { r with cnt := r.cnt + 1, has_edge := upd r.has_edge i true }

/-- The members that `dfs` writes as `get_result` initialises them. -/
def rails_init : Rails :=
  { has_rail := fun _ => false
    has_edge := fun _ => false
    cnt := 0 }

/-- The vector `all_sccs` after the loop of `get_result` that calls `tarjan`. -/
def all_sccs (fuel n : Nat) (arcs : List (Nat × Nat)) (s : Nat) : Option (List (List Nat)) :=
  match dfs (read_input arcs) (init_redirect n) 0 fuel s rails_init with
  | none => none
  | some r1 =>
    match tarjan_loop (read_input arcs) r1.has_rail fuel n with
    | none => none
    | some ts => some ts.all_sccs

/-- The loop of `get_result` that redirects the nodes to the pseudonodes, over the lists
of `all_sccs`. -/
def redirect_loop (adj : Nat → List Nat) (redirect : Nat → Nat) (has_rail : Nat → Bool)
    (sccs : List (List Nat)) : Merged :=
  sccs.foldl merge_scc { adj := adj, redirect := redirect, has_rail := has_rail }

/-- The loop of `get_result` that counts the rails, for `i` in `1..n`. -/
def count_loop (m : Merged) (fuel n : Nat) (r : Rails) : Option Rails :=
  (List.range' 1 n).foldlM (count_step m.adj m.redirect fuel)
    { r with has_rail := m.has_rail }

/-- `Task::get_result` on the input `n`, the arcs and the source `s`. -/
def get_result (fuel n : Nat) (arcs : List (Nat × Nat)) (s : Nat) : Option Int :=
  match dfs (read_input arcs) (init_redirect n) 0 fuel s rails_init with
  | none => none
  | some r1 =>
    match tarjan_loop (read_input arcs) r1.has_rail fuel n with
    | none => none
    | some ts =>
      match count_loop
          (redirect_loop (read_input arcs) (init_redirect n) r1.has_rail ts.all_sccs)
          fuel n r1 with
      | none => none
      | some r2 => some r2.cnt

/-- The graph has the arc `(a, b)`. -/
def Arc (arcs : List (Nat × Nat)) (a b : Nat) : Prop := (a, b) ∈ arcs

/-- Node `b` is reachable from node `a` along arcs (every node is reachable from itself). -/
def Reach (arcs : List (Nat × Nat)) (a b : Nat) : Prop :=
  Relation.ReflTransGen (Arc arcs) a b

/-- The assumptions on the input: the arcs join nodes of `1..n`, the source is one of
`1..n` and `n` is below `NMAX`. -/
structure Valid (n : Nat) (arcs : List (Nat × Nat)) (s : Nat) : Prop where
  arcs_in : ∀ e ∈ arcs, (1 ≤ e.1 ∧ e.1 ≤ n) ∧ (1 ≤ e.2 ∧ e.2 ≤ n)
  s_in : 1 ≤ s ∧ s ≤ n
  n_lt : n < NMAX

/-- The arcs that `dfs` follows: from `a` to the pseudonode of a neighbour of `a`. -/
def Edge (adj : Nat → List Nat) (redirect : Nat → Nat) (a b : Nat) : Prop :=
  ∃ x ∈ adj a, redirect x = b

/-- The number of nodes of `1..n` without a rail. -/
def white (n : Nat) (has_rail : Nat → Bool) : Nat :=
  (List.range' 1 n).countP (fun v => !(has_rail v))

/-- The counter is the number of nodes of `1..n` that have an edge, and no other node has
an edge. -/
def CntInv (n : Nat) (r : Rails) : Prop :=
  r.cnt = (((List.range' 1 n).countP r.has_edge : Nat) : Int) ∧
  ∀ b, r.has_edge b = true → 1 ≤ b ∧ b ≤ n

/-- What a traversal by `dfs` from `node` changes between the states `r` and `r2`, the
nodes `a` with `C a` being those whose neighbour loop is over: rails are only added and
edges only removed; a node that got a rail is reachable from `node` and is `node` or was
entered from another node that got a rail; the neighbours of a node that got a rail have
rails; an edge is removed exactly at the nodes other than `src` that had a rail and are
neighbours of a node that got a rail. -/
structure Grow (adj : Nat → List Nat) (redirect : Nat → Nat) (src : Nat) (n : Nat)
    (node : Nat) (C : Nat → Prop) (r r2 : Rails) : Prop where
  mono : ∀ v, r.has_rail v = true → r2.has_rail v = true
  edge_mono : ∀ b, r2.has_edge b = true → r.has_edge b = true
  self : r2.has_rail node = true
  reach : ∀ v, r.has_rail v = false → r2.has_rail v = true →
    Relation.ReflTransGen (Edge adj redirect) node v
  entered : ∀ v, r.has_rail v = false → r2.has_rail v = true →
    v = node ∨ ∃ a, a ≠ v ∧ r.has_rail a = false ∧ r2.has_rail a = true ∧ Edge adj redirect a v
  closed : ∀ a, r.has_rail a = false → r2.has_rail a = true → C a →
    ∀ b, Edge adj redirect a b → r2.has_rail b = true
  clears : ∀ a b, r.has_rail a = false → r2.has_rail a = true → C a →
    Edge adj redirect a b → r.has_rail b = true → b ≠ src → r2.has_edge b = false
  cleared : ∀ b, r.has_edge b = true → r2.has_edge b = false →
    b ≠ src ∧ ∃ a, r.has_rail a = false ∧ r2.has_rail a = true ∧ Edge adj redirect a b
  in_range : ∀ v, r.has_rail v = false → r2.has_rail v = true → 1 ≤ v ∧ v ≤ n
  cnt : CntInv n r → CntInv n r2

/-- The arcs that `tarjan` follows: the arcs to the nodes without a rail. -/
def TEdge (adj : Nat → List Nat) (has_rail : Nat → Bool) (a b : Nat) : Prop :=
  b ∈ adj a ∧ has_rail b = false

/-- Reachability along the arcs that `tarjan` follows. -/
def TReach (adj : Nat → List Nat) (has_rail : Nat → Bool) (a b : Nat) : Prop :=
  Relation.ReflTransGen (TEdge adj has_rail) a b

/-- The number of nodes of `1..n` that `tarjan` has still to discover. -/
def twhite (n : Nat) (has_rail : Nat → Bool) (found : Nat → Nat) : Nat :=
  (List.range' 1 n).countP (fun v => decide (found v = INF) && !(has_rail v))

/-- The invariant of the state of `tarjan`: the stack is sorted by discovery time and
agrees with `in_stack`; the discovered nodes are those of the stack and of the lists of
`all_sccs`, have no rail and are nodes of `1..n`; the low link of a node of the stack is
the discovery time of a node of the stack that it reaches and that was discovered no
later; every list of `all_sccs` is a strongly connected component, the lists share no
node and no arc leaves their union. -/
structure SInv (adj : Nat → List Nat) (has_rail : Nat → Bool) (n : Nat) (s : Tarj) :
    Prop where
  sorted : s.st.Pairwise (fun a b => s.found b < s.found a)
  instack : ∀ v, s.in_stack v = true ↔ v ∈ s.st
  vis : ∀ v, s.found v ≠ INF ↔ (v ∈ s.st ∨ v ∈ s.all_sccs.flatten)
  disj : ∀ v, v ∈ s.st → v ∉ s.all_sccs.flatten
  ok : ∀ v, s.found v ≠ INF → has_rail v = false ∧ 1 ≤ v ∧ v ≤ n ∧ s.found v ≤ s.time
  budget : s.time + twhite n has_rail s.found ≤ n
  low : ∀ v ∈ s.st, ∃ w ∈ s.st, s.low_link v = s.found w ∧ TReach adj has_rail v w ∧
    s.found w ≤ s.found v
  scc : ∀ c ∈ s.all_sccs, c ≠ [] ∧
    ∀ a ∈ c, ∀ b, b ∈ c ↔ (TReach adj has_rail a b ∧ TReach adj has_rail b a)
  nodup : s.all_sccs.flatten.Nodup
  closed : ∀ a ∈ s.all_sccs.flatten, ∀ b, TEdge adj has_rail a b → b ∈ s.all_sccs.flatten

/-- What a call `tarjan(u)` does between the states `s` and `s2`: the invariant holds
again; the nodes discovered before keep their discovery time and low link; the nodes newly
discovered, `u` among them, are discovered later than all others, are reachable from `u`
and have only discovered neighbours; the stack grew by a segment `seg` of newly discovered
nodes, each of which reaches a node of the old stack, and `low_link[u]` is at most the
discovery time of every node of the old stack that has an arc from the segment; either the
segment is empty and `low_link[u] = found[u]`, or `u` is in it; `all_sccs` grew at its
end. -/
structure SPost (adj : Nat → List Nat) (has_rail : Nat → Bool) (n : Nat) (u : Nat)
    (s s2 : Tarj) : Prop where
  inv : SInv adj has_rail n s2
  frame : ∀ v, s.found v ≠ INF → s2.found v = s.found v ∧ s2.low_link v = s.low_link v
  vis_u : s2.found u ≠ INF
  newer : ∀ v, s.found v = INF → s2.found v ≠ INF → s.time < s2.found v ∧ TReach adj has_rail u v
  closed_new : ∀ a, s.found a = INF → s2.found a ≠ INF →
    ∀ b, TEdge adj has_rail a b → s2.found b ≠ INF
  stack : ∃ seg, s2.st = seg ++ s.st ∧
    (∀ y ∈ seg, s.found y = INF ∧ ∃ w ∈ s.st, TReach adj has_rail y w) ∧
    (∀ a ∈ seg, ∀ b ∈ s.st, TEdge adj has_rail a b → s2.low_link u ≤ s.found b) ∧
    ((seg = [] ∧ s2.low_link u = s2.found u) ∨ u ∈ seg)
  sccs : ∃ l, s2.all_sccs = s.all_sccs ++ l

/-- The invariant of the neighbour loop of `tarjan(u)`, `s` being the state at the call and
`s2` the current one: as `SPost`, with `u` on the stack below the segment, every node of
the segment reaching `u`, and the neighbours of `u` left aside. -/
structure SLoop (adj : Nat → List Nat) (has_rail : Nat → Bool) (n : Nat) (u : Nat)
    (s s2 : Tarj) : Prop where
  inv : SInv adj has_rail n s2
  frame : ∀ v, s.found v ≠ INF → s2.found v = s.found v ∧ s2.low_link v = s.low_link v
  found_u : s2.found u = s.time + 1
  newer : ∀ v, s.found v = INF → s2.found v ≠ INF → s.time < s2.found v ∧ TReach adj has_rail u v
  closed_new : ∀ a, a ≠ u → s.found a = INF → s2.found a ≠ INF →
    ∀ b, TEdge adj has_rail a b → s2.found b ≠ INF
  stack : ∃ seg, s2.st = seg ++ u :: s.st ∧
    (∀ y ∈ seg, s.found y = INF ∧ y ≠ u ∧ TReach adj has_rail y u) ∧
    (∀ a ∈ seg, ∀ b ∈ s.st, TEdge adj has_rail a b → s2.low_link u ≤ s.found b)
  sccs : ∃ l, s2.all_sccs = s.all_sccs ++ l

/-- What the redirection loop has done after the lists `P`, from the adjacency lists
`adj0`, the redirections `red0` and the rails `hr0`: a node of no list is untouched; a node
of a list is redirected to the first node of the list, has a rail if it had one or is not
the first node, and keeps its adjacency list if it is not the first node; the adjacency
list of the first node of a list holds the neighbours of all nodes of the list. -/
structure MSpec (adj0 : Nat → List Nat) (red0 : Nat → Nat) (hr0 : Nat → Bool)
    (P : List (List Nat)) (m : Merged) : Prop where
  out : ∀ v, (∀ c ∈ P, v ∉ c) →
    m.adj v = adj0 v ∧ m.redirect v = red0 v ∧ m.has_rail v = hr0 v
  inn : ∀ c ∈ P, ∀ v ∈ c, m.redirect v = c.headD 0 ∧
    (m.has_rail v = true ↔ (hr0 v = true ∨ v ≠ c.headD 0)) ∧
    (v ≠ c.headD 0 → m.adj v = adj0 v)
  head : ∀ c ∈ P, ∀ x, x ∈ m.adj (c.headD 0) ↔ ∃ a ∈ c, x ∈ adj0 a

/-- The strongly connected component of node `a`: the nodes mutually reachable with `a`. -/
def SCC (arcs : List (Nat × Nat)) (a : Nat) : Set Nat :=
  {b | Reach arcs a b ∧ Reach arcs b a}

/-- The strongly connected components `C` of the graph on `1..n` such that no node of `C`
is reachable from `s` and no arc enters `C` from outside. -/
def SourceComponents (n : Nat) (arcs : List (Nat × Nat)) (s : Nat) : Set (Set Nat) :=
  {C | (∃ a, 1 ≤ a ∧ a ≤ n ∧ C = SCC arcs a) ∧ (∀ v ∈ C, ¬ Reach arcs s v) ∧
    ∀ u v, Arc arcs u v → v ∈ C → u ∈ C}

/-- The invariant of the loop of `get_result` that counts the rails, `hr1` being the rails
before the loop and `r` the current state: the counter is the number of nodes with an
edge; rails are only added; the nodes that got a rail in the loop are nodes of `1..n`,
their neighbours have rails, and each of them is reached from a node with an edge; the
nodes with an edge are the nodes that got a rail in the loop and that no other such node
has as a neighbour. -/
structure CInv (adj : Nat → List Nat) (redirect : Nat → Nat) (n : Nat) (hr1 : Nat → Bool)
    (r : Rails) : Prop where
  cnt : CntInv n r
  mono : ∀ v, hr1 v = true → r.has_rail v = true
  in_range : ∀ v, hr1 v = false → r.has_rail v = true → 1 ≤ v ∧ v ≤ n
  closed : ∀ a, hr1 a = false → r.has_rail a = true →
    ∀ b, Edge adj redirect a b → r.has_rail b = true
  rooted : ∀ v, hr1 v = false → r.has_rail v = true →
    ∃ b, r.has_edge b = true ∧ Relation.ReflTransGen (Edge adj redirect) b v
  edge : ∀ b, r.has_edge b = true ↔ (hr1 b = false ∧ r.has_rail b = true ∧
    ∀ a, hr1 a = false → r.has_rail a = true → Edge adj redirect a b → a = b)

/-- The situation after the redirection loop: `hr0` marks the nodes reachable from `s`, the
lists `L` are the strongly connected components of the other nodes of `1..n`, and `m` is
what the redirection loop made of them. -/
structure Condensed (n : Nat) (arcs : List (Nat × Nat)) (s : Nat) (hr0 : Nat → Bool)
    (L : List (List Nat)) (m : Merged) : Prop where
  valid : Valid n arcs s
  hR : ∀ v, hr0 v = true ↔ Reach arcs s v
  nd : L.flatten.Nodup
  mem : ∀ v, v ∈ L.flatten ↔ (1 ≤ v ∧ v ≤ n ∧ ¬ Reach arcs s v)
  scc : ∀ c ∈ L, c ≠ [] ∧ ∀ a ∈ c, ∀ b, b ∈ c ↔ (Reach arcs a b ∧ Reach arcs b a)
  spec : MSpec (read_input arcs) (init_redirect n) hr0 L m

end Ferate

namespace Magazin

theorem mag_read_edges_eq (xs : List Nat) : ∀ (i : Nat) (adj : Nat → List Nat) (v : Nat),
    read_edges i xs adj v
      = adj v ++ (List.range' (i + 1) xs.length).filter (fun c => xs.getD (c - (i + 1)) 0 = v) := by
  induction xs with
  | nil => intro i adj v; simp [read_edges]
  | cons x rest ih =>
    intro i adj v
    rw [read_edges, ih]
    have hfil : (List.range' (i + 1 + 1) rest.length).filter
          (fun c => (x :: rest).getD (c - (i + 1)) 0 = v)
        = (List.range' (i + 1 + 1) rest.length).filter
          (fun c => rest.getD (c - (i + 1 + 1)) 0 = v) := by
      apply List.filter_congr
      intro c hc
      rw [List.mem_range'_1] at hc
      obtain ⟨m, hm⟩ : ∃ m, c - (i + 1) = m + 1 := ⟨c - (i + 1) - 1, by omega⟩
      have hm2 : c - (i + 1 + 1) = m := by omega
      rw [hm, hm2]; simp
    simp only [List.length_cons, List.range'_succ, List.filter_cons, Nat.sub_self,
      List.getD_cons_zero, hfil]
    by_cases hx : x = v
    · subst hx; simp [upd]
    · have hvx : ¬ v = x := fun h => hx h.symm
      simp [upd, hx, hvx]

theorem mag_read_input_eq (xs : List Nat) (v : Nat) : read_input xs v = children xs v := by
  unfold read_input children
  rw [mag_read_edges_eq]; simp

theorem mag_par_zero (xs : List Nat) : par xs 0 = 0 := by simp [par]

theorem mag_par_one (xs : List Nat) : par xs 1 = 0 := by simp [par]

theorem mag_par_big (xs : List Nat) (v : Nat) (h : xs.length + 1 < v) : par xs v = 0 := by
  unfold par
  split
  · rw [List.getD_eq_default]; omega
  · rfl

theorem mag_iter_zero (xs : List Nat) (k : Nat) : (par xs)^[k] 0 = 0 := by
  induction k with
  | zero => rfl
  | succ k ih => rw [Function.iterate_succ_apply, mag_par_zero, ih]

/-- A node whose parent is a real node is one of `2..n`. -/
theorem mag_range_of_par (xs : List Nat) (c : Nat) (h : par xs c ≠ 0) :
    2 ≤ c ∧ c ≤ xs.length + 1 := by
  constructor
  · by_contra hc
    apply h; unfold par; simp [hc]
  · by_contra hc
    exact h (mag_par_big xs c (by omega))

theorem mag_mem_children (xs : List Nat) (v c : Nat) :
    c ∈ children xs v ↔ 2 ≤ c ∧ c ≤ xs.length + 1 ∧ par xs c = v := by
  unfold children par
  simp only [List.mem_filter, List.mem_range'_1, decide_eq_true_eq]
  constructor
  · rintro ⟨⟨h1, h2⟩, h3⟩
    refine ⟨h1, by omega, ?_⟩
    rw [if_pos h1]; exact h3
  · rintro ⟨h1, h2, h3⟩
    refine ⟨⟨h1, by omega⟩, ?_⟩
    rw [if_pos h1] at h3; exact h3

theorem mag_children_nodup (xs : List Nat) (v : Nat) : (children xs v).Nodup := by
  unfold children
  exact List.Nodup.filter _ (List.nodup_range' _ _)

/-- A node that reaches node 1 is one of `1..n`. -/
theorem mag_range_of_reach (xs : List Nat) (v k : Nat) (h : (par xs)^[k] v = 1) :
    1 ≤ v ∧ v ≤ xs.length + 1 := by
  cases k with
  | zero => simp at h; subst h; simp
  | succ k =>
    rw [Function.iterate_succ_apply] at h
    have hne : par xs v ≠ 0 := by
      intro h0; rw [h0, mag_iter_zero] at h; exact absurd h (by decide)
    have := mag_range_of_par xs v hne
    omega

/-- The depth of a node is unique. -/
theorem mag_depth_unique (xs : List Nat) : ∀ (k k2 v : Nat),
    (par xs)^[k] v = 1 → (par xs)^[k2] v = 1 → k = k2 := by
  intro k
  induction k with
  | zero =>
    intro k2 v h1 h2
    simp at h1; subst h1
    cases k2 with
    | zero => rfl
    | succ k2 =>
      rw [Function.iterate_succ_apply, mag_par_one, mag_iter_zero] at h2
      exact absurd h2 (by decide)
  | succ k ih =>
    intro k2 v h1 h2
    cases k2 with
    | zero =>
      simp at h2; subst h2
      rw [Function.iterate_succ_apply, mag_par_one, mag_iter_zero] at h1
      exact absurd h1 (by decide)
    | succ k2 =>
      rw [Function.iterate_succ_apply] at h1 h2
      rw [ih k2 _ h1 h2]

/-- A node at depth `k` of a tree on `n` nodes has `k < n`. -/
theorem mag_depth_lt (xs : List Nat) (v k : Nat) (h : (par xs)^[k] v = 1) :
    k < xs.length + 1 := by
  have hinj : Set.InjOn (fun i => (par xs)^[i] v) (Finset.range (k + 1) : Set Nat) := by
    intro i hi j hj hij
    simp only [Finset.coe_range, Set.mem_Iio] at hi hj
    simp only at hij
    have hi2 : (par xs)^[k - i] ((par xs)^[i] v) = 1 := by
      rw [← Function.iterate_add_apply]; rw [show k - i + i = k by omega]; exact h
    have hj2 : (par xs)^[k - j] ((par xs)^[i] v) = 1 := by
      rw [hij, ← Function.iterate_add_apply]; rw [show k - j + j = k by omega]; exact h
    have := mag_depth_unique xs _ _ _ hi2 hj2
    omega
  have hmaps : ∀ i ∈ Finset.range (k + 1), (fun i => (par xs)^[i] v) i ∈ Finset.Icc 1 (xs.length + 1) := by
    intro i hi
    simp only [Finset.mem_range] at hi
    have hi2 : (par xs)^[k - i] ((par xs)^[i] v) = 1 := by
      rw [← Function.iterate_add_apply]; rw [show k - i + i = k by omega]; exact h
    have := mag_range_of_reach xs _ _ hi2
    simp only [Finset.mem_Icc]; exact this
  have := Finset.card_le_card_of_injOn _ hmaps hinj
  simp at this
  omega

end Magazin

namespace Magazin

theorem mag_mem_pre (xs : List Nat) : ∀ (f v w : Nat), w ∈ pre xs f v →
    ∃ j, j < f ∧ (par xs)^[j] w = v := by
  intro f
  induction f with
  | zero => intro v w h; simp [pre] at h
  | succ f ih =>
    intro v w h
    rw [pre, List.mem_cons, List.mem_flatMap] at h
    rcases h with h | ⟨c, hc, hw⟩
    · exact ⟨0, by omega, by simp [h]⟩
    · obtain ⟨j, hj, hjc⟩ := ih c w hw
      refine ⟨j + 1, by omega, ?_⟩
      rw [Function.iterate_succ_apply', hjc]
      exact ((mag_mem_children xs v c).1 hc).2.2

theorem mag_pre_mem_of_iter (xs : List Nat) : ∀ (j f v w : Nat), v ≠ 0 →
    (par xs)^[j] w = v → j < f → w ∈ pre xs f v := by
  intro j
  induction j with
  | zero =>
    intro f v w _ h hf
    simp at h; subst h
    obtain ⟨g, rfl⟩ : ∃ g, f = g + 1 := ⟨f - 1, by omega⟩
    simp [pre]
  | succ j ih =>
    intro f v w hv h hf
    obtain ⟨g, rfl⟩ : ∃ g, f = g + 1 := ⟨f - 1, by omega⟩
    rw [Function.iterate_succ_apply'] at h
    have hc : (par xs)^[j] w ∈ children xs v := by
      rw [mag_mem_children]
      have := mag_range_of_par xs ((par xs)^[j] w) (by rw [h]; exact hv)
      exact ⟨this.1, this.2, h⟩
    have hc0 : (par xs)^[j] w ≠ 0 := by
      have := ((mag_mem_children xs v _).1 hc).1; omega
    rw [pre, List.mem_cons, List.mem_flatMap]
    exact Or.inr ⟨_, hc, ih g _ w hc0 rfl (by omega)⟩

theorem mag_child_depth (xs : List Nat) (v c k : Nat) (hv : (par xs)^[k] v = 1)
    (hc : c ∈ children xs v) : (par xs)^[k + 1] c = 1 := by
  rw [Function.iterate_succ_apply, ((mag_mem_children xs v c).1 hc).2.2]; exact hv

theorem mag_pre_fuel_step (xs : List Nat) : ∀ (f v k : Nat), (par xs)^[k] v = 1 →
    xs.length + 1 ≤ f + k → pre xs f v = pre xs (f + 1) v := by
  intro f
  induction f with
  | zero =>
    intro v k hv hf
    have := mag_depth_lt xs v k hv
    omega
  | succ f ih =>
    intro v k hv hf
    rw [pre, pre]
    congr 1
    have : ∀ cs : List Nat, (∀ c ∈ cs, c ∈ children xs v) →
        cs.flatMap (pre xs f) = cs.flatMap (pre xs (f + 1)) := by
      intro cs
      induction cs with
      | nil => intro _; rfl
      | cons c cs ihc =>
        intro hcs
        rw [List.flatMap_cons, List.flatMap_cons,
          ih c (k + 1) (mag_child_depth xs v c k hv (hcs c (List.mem_cons_self _ _))) (by omega),
          ihc (fun c2 h2 => hcs c2 (List.mem_cons_of_mem _ h2))]
    exact this _ (fun c h => h)

theorem mag_pre_fuel (xs : List Nat) (f g v k : Nat) (hv : (par xs)^[k] v = 1)
    (hf : xs.length + 1 ≤ f + k) (hg : xs.length + 1 ≤ g + k) : pre xs f v = pre xs g v := by
  have key : ∀ (d f : Nat), xs.length + 1 ≤ f + k → pre xs f v = pre xs (f + d) v := by
    intro d
    induction d with
    | zero => intro f _; rfl
    | succ d ih =>
      intro f hf
      rw [ih f hf, mag_pre_fuel_step xs (f + d) v k hv (by omega)]
      rfl
  rw [key g f hf, key f g hg, Nat.add_comm]

theorem mag_pre_disjoint (xs : List Nat) (f v k c1 c2 : Nat) (hv : (par xs)^[k] v = 1)
    (h1 : c1 ∈ children xs v) (h2 : c2 ∈ children xs v) (hne : c1 ≠ c2) :
    List.Disjoint (pre xs f c1) (pre xs f c2) := by
  intro w hw1 hw2
  obtain ⟨j1, _, hj1⟩ := mag_mem_pre xs f c1 w hw1
  obtain ⟨j2, _, hj2⟩ := mag_mem_pre xs f c2 w hw2
  have d1 : (par xs)^[k + 1 + j1] w = 1 := by
    rw [Function.iterate_add_apply, hj1]; exact mag_child_depth xs v c1 k hv h1
  have d2 : (par xs)^[k + 1 + j2] w = 1 := by
    rw [Function.iterate_add_apply, hj2]; exact mag_child_depth xs v c2 k hv h2
  have := mag_depth_unique xs _ _ _ d1 d2
  have hj : j1 = j2 := by omega
  subst hj
  exact hne (hj1.symm.trans hj2)

theorem mag_not_mem_child_pre (xs : List Nat) (f v k c : Nat) (hv : (par xs)^[k] v = 1)
    (hc : c ∈ children xs v) : v ∉ pre xs f c := by
  intro hmem
  obtain ⟨j, _, hj⟩ := mag_mem_pre xs f c v hmem
  have d1 : (par xs)^[k + 1 + j] v = 1 := by
    rw [Function.iterate_add_apply, hj]; exact mag_child_depth xs v c k hv hc
  have := mag_depth_unique xs _ _ _ d1 hv
  omega

theorem mag_not_mem_flatMap (xs : List Nat) (f v k : Nat) (hv : (par xs)^[k] v = 1) :
    v ∉ (children xs v).flatMap (pre xs f) := by
  rw [List.mem_flatMap]
  rintro ⟨c, hc, hmem⟩
  exact mag_not_mem_child_pre xs f v k c hv hc hmem

theorem mag_pre_nodup (xs : List Nat) : ∀ (f v k : Nat), (par xs)^[k] v = 1 →
    (pre xs f v).Nodup := by
  intro f
  induction f with
  | zero => intro v k _; simp [pre]
  | succ f ih =>
    intro v k hv
    rw [pre, List.nodup_cons]
    refine ⟨mag_not_mem_flatMap xs f v k hv, ?_⟩
    rw [List.nodup_flatMap]
    refine ⟨fun c hc => ih c (k + 1) (mag_child_depth xs v c k hv hc), ?_⟩
    have hnd := mag_children_nodup xs v
    refine List.Pairwise.imp_of_mem ?_ hnd
    intro a b ha hb hab
    exact mag_pre_disjoint xs f v k a b hv ha hb hab

end Magazin

namespace Magazin

theorem mag_nodeOK_mono (n : Nat) (xs : List Nat) (st st2 : State) (w : Nat) (more : List Nat)
    (h : NodeOK n xs st w) (hpath : st2.path = st.path ++ more)
    (hs : st2.started w = st.started w) (hf : st2.finished w = st.finished w)
    (hp : st2.position w = st.position w) : NodeOK n xs st2 w := by
  obtain ⟨a, b, h1, h2, h3⟩ := h
  refine ⟨a, b ++ more, ?_, ?_, ?_⟩
  · rw [hpath, h1]; simp
  · rw [hp, h2]
  · rw [hs, hf, h3]

theorem mag_post_nil (n : Nat) (xs : List Nat) (st : State) : Post n xs [] st st := by
  refine ⟨by simp, by simp, fun w _ => ⟨rfl, rfl, rfl, rfl⟩, ?_⟩
  intro w hw; simp at hw

theorem mag_post_trans (n : Nat) (xs : List Nat) (T1 T2 : List Nat) (s1 s2 s3 : State)
    (h12 : Post n xs T1 s1 s2) (h23 : Post n xs T2 s2 s3) (hd : List.Disjoint T1 T2) :
    Post n xs (T1 ++ T2) s1 s3 := by
  obtain ⟨p1, t1, f1, o1⟩ := h12
  obtain ⟨p2, t2, f2, o2⟩ := h23
  refine ⟨?_, ?_, ?_, ?_⟩
  · rw [p2, p1]; simp
  · rw [t2, t1]; simp; omega
  · intro w hw
    rw [List.mem_append, not_or] at hw
    obtain ⟨a1, a2, a3, a4⟩ := f1 w hw.1
    obtain ⟨b1, b2, b3, b4⟩ := f2 w hw.2
    exact ⟨b1.trans a1, b2.trans a2, b3.trans a3, b4.trans a4⟩
  · intro w hw
    rw [List.mem_append] at hw
    rcases hw with hw | hw
    · have hw2 : w ∉ T2 := fun h => hd hw h
      obtain ⟨b1, b2, b3, _⟩ := f2 w hw2
      exact mag_nodeOK_mono n xs s2 s3 w T2 (o1 w hw) p2 b1 b2 b3
    · exact o2 w hw

theorem mag_fold_spec (n : Nat) (xs : List Nat) (hn : xs.length + 1 = n) (f v k : Nat)
    (hv : (par xs)^[k] v = 1) (hfuel : n ≤ f + (k + 1))
    (IH : ∀ (c : Nat) (st : State), (par xs)^[k + 1] c = 1 →
      (∀ w ∈ pre xs f c, w ≠ c → st.parent w = NIL) →
      ∃ st2, dfs (read_input xs) f c st = some st2 ∧ Post n xs (pre xs f c) st st2) :
    ∀ (cs : List Nat) (st : State), (∀ c ∈ cs, c ∈ children xs v) → cs.Nodup →
      (∀ c ∈ cs, ∀ w ∈ pre xs f c, st.parent w = NIL) →
      ∃ st2, cs.foldlM (dfs_step (dfs (read_input xs) f) v) st = some st2 ∧
        Post n xs (cs.flatMap (pre xs f)) st st2 := by
  intro cs
  induction cs with
  | nil =>
    intro st _ _ _
    exact ⟨st, rfl, mag_post_nil n xs st⟩
  | cons c cs ih =>
    intro st hcs hnd hnil
    have hcch : c ∈ children xs v := hcs c (List.mem_cons_self _ _)
    have hcd := mag_child_depth xs v c k hv hcch
    have hlt := mag_depth_lt xs c (k + 1) hcd
    obtain ⟨g, hg⟩ : ∃ g, f = g + 1 := ⟨f - 1, by omega⟩
    have hcmem : c ∈ pre xs f c := by rw [hg, pre]; exact List.mem_cons_self _ _
    have hpc : st.parent c = NIL := hnil c (List.mem_cons_self _ _) c hcmem
    obtain ⟨s2, hs2, post2⟩ := IH c { st with parent := upd st.parent c (v : Int) } hcd
      (by
        intro w hw hwc
        show upd st.parent c (v : Int) w = NIL
        unfold upd; rw [if_neg hwc]
        exact hnil c (List.mem_cons_self _ _) w hw)
    rw [List.nodup_cons] at hnd
    have hnil2 : ∀ c2 ∈ cs, ∀ w ∈ pre xs f c2, s2.parent w = NIL := by
      intro c2 hc2 w hw
      have hne : c ≠ c2 := fun h => hnd.1 (h ▸ hc2)
      have hdis := mag_pre_disjoint xs f v k c c2 hv hcch
        (hcs c2 (List.mem_cons_of_mem _ hc2)) hne
      have hwc : w ∉ pre xs f c := fun h => hdis h hw
      have hwne : w ≠ c := fun h => hwc (h ▸ hcmem)
      rw [(post2.2.2.1 w hwc).2.2.2]
      show upd st.parent c (v : Int) w = NIL
      unfold upd; rw [if_neg hwne]
      exact hnil c2 (List.mem_cons_of_mem _ hc2) w hw
    obtain ⟨s3, hs3, post3⟩ := ih s2 (fun c2 h2 => hcs c2 (List.mem_cons_of_mem _ h2))
      hnd.2 hnil2
    refine ⟨s3, ?_, ?_⟩
    · rw [List.foldlM_cons]
      show (dfs_step (dfs (read_input xs) f) v st c).bind _ = _
      unfold dfs_step
      rw [if_pos hpc, hs2]
      exact hs3
    · rw [List.flatMap_cons]
      have post1 : Post n xs (pre xs f c) st s2 := by
        obtain ⟨p1, t1, f1, o1⟩ := post2
        refine ⟨p1, t1, ?_, o1⟩
        intro w hw
        obtain ⟨a1, a2, a3, a4⟩ := f1 w hw
        refine ⟨a1, a2, a3, ?_⟩
        rw [a4]
        have hwne : w ≠ c := fun h => hw (h ▸ hcmem)
        show upd st.parent c (v : Int) w = st.parent w
        unfold upd; rw [if_neg hwne]
      apply mag_post_trans n xs _ _ st s2 s3 post1 post3
      intro w hw1 hw2
      rw [List.mem_flatMap] at hw2
      obtain ⟨c2, hc2, hw2⟩ := hw2
      have hne : c ≠ c2 := fun h => hnd.1 (h ▸ hc2)
      exact mag_pre_disjoint xs f v k c c2 hv hcch
        (hcs c2 (List.mem_cons_of_mem _ hc2)) hne hw1 hw2

theorem mag_dfs_spec (n : Nat) (xs : List Nat) (hn : xs.length + 1 = n) :
    ∀ (f v k : Nat) (st : State), (par xs)^[k] v = 1 → n ≤ f + k →
      (∀ w ∈ pre xs f v, w ≠ v → st.parent w = NIL) →
      ∃ st2, dfs (read_input xs) f v st = some st2 ∧ Post n xs (pre xs f v) st st2 := by
  intro f
  induction f with
  | zero =>
    intro v k st hv hf _
    have := mag_depth_lt xs v k hv
    omega
  | succ f ih =>
    intro v k st hv hf hnil
    have hvF := mag_not_mem_flatMap xs f v k hv
    obtain ⟨s2, hs2, p2, t2, f2, o2⟩ := mag_fold_spec n xs hn f v k hv (by omega)
      (fun c st hc hp => ih c (k + 1) st hc (by omega) hp)
      (children xs v)
      { st with
        time := st.time + 1
        started := upd st.started v (st.time + 1)
        path := st.path ++ [v]
        position := upd st.position v (((st.path ++ [v]).length : Int) - 1) }
      (fun c h => h) (mag_children_nodup xs v)
      (by
        intro c hc w hw
        have hmem : w ∈ pre xs (f + 1) v := by
          rw [pre, List.mem_cons, List.mem_flatMap]; exact Or.inr ⟨c, hc, hw⟩
        have hne : w ≠ v := by
          intro h; subst h
          exact mag_not_mem_child_pre xs f w k c hv hc hw
        exact hnil w hmem hne)
    refine ⟨{ s2 with finished := upd s2.finished v s2.time }, ?_, ?_, ?_, ?_, ?_⟩
    · rw [dfs, mag_read_input_eq]
      rw [hs2]
    · show s2.path = st.path ++ pre xs (f + 1) v
      rw [p2, pre]; simp
    · show s2.time = st.time + ((pre xs (f + 1) v).length : Int)
      rw [t2, pre]; simp; omega
    · intro w hw
      rw [pre, List.mem_cons, not_or] at hw
      obtain ⟨a1, a2, a3, a4⟩ := f2 w hw.2
      refine ⟨?_, ?_, ?_, ?_⟩
      · show s2.started w = _
        rw [a1]; show upd st.started v (st.time + 1) w = _
        unfold upd; rw [if_neg hw.1]
      · show upd s2.finished v s2.time w = _
        unfold upd; rw [if_neg hw.1, a2]
      · show s2.position w = _
        rw [a3]; show upd st.position v _ w = _
        unfold upd; rw [if_neg hw.1]
      · show s2.parent w = _
        rw [a4]
    · intro w hw
      rw [pre, List.mem_cons] at hw
      rcases hw with hw | hw
      · subst hw
        obtain ⟨a1, a2, a3, a4⟩ := f2 w hvF
        refine ⟨st.path, [], ?_, ?_, ?_⟩
        · show s2.path = _
          rw [p2, mag_pre_fuel xs n (f + 1) w k hv (by omega) (by omega), pre]; simp
        · show s2.position w = _
          rw [a3]; show upd st.position w _ w = _
          unfold upd; rw [if_pos rfl]; simp
        · show upd s2.finished w s2.time w - s2.started w = _
          rw [a1, mag_pre_fuel xs n (f + 1) w k hv (by omega) (by omega), pre, t2]
          show upd s2.finished w _ w - upd st.started w (st.time + 1) w = _
          unfold upd; rw [if_pos rfl, if_pos rfl]; simp
      · have hne : w ≠ v := fun h => hvF (h ▸ hw)
        have hok := o2 w hw
        refine mag_nodeOK_mono n xs s2 _ w [] hok (by simp) rfl ?_ rfl
        show upd s2.finished v s2.time w = _
        unfold upd; rw [if_neg hne]

end Magazin

namespace Magazin

/-- The members of the pre-order of `d` are the nodes of `1..n` in the subtree of `d`. -/
theorem mag_mem_pre_iff (n : Nat) (xs : List Nat) (hn : xs.length + 1 = n) (d k w : Nat)
    (hd : (par xs)^[k] d = 1) :
    w ∈ pre xs n d ↔ (1 ≤ w ∧ w ≤ n) ∧ InSubtree n xs d w := by
  constructor
  · intro h
    obtain ⟨j, hj, hjd⟩ := mag_mem_pre xs n d w h
    have hw : (par xs)^[k + j] w = 1 := by rw [Function.iterate_add_apply, hjd]; exact hd
    have := mag_range_of_reach xs w _ hw
    exact ⟨⟨this.1, by omega⟩, j, hj, hjd⟩
  · rintro ⟨_, j, hj, hjd⟩
    have hd0 : d ≠ 0 := by
      have := (mag_range_of_reach xs d k hd).1; omega
    exact mag_pre_mem_of_iter xs j n d w hd0 hjd hj

theorem mag_pre_cons (n : Nat) (xs : List Nat) (hn : xs.length + 1 = n) (d : Nat) :
    ∃ tl, pre xs n d = d :: tl := by
  obtain ⟨g, rfl⟩ : ∃ g, n = g + 1 := ⟨n - 1, by omega⟩
  exact ⟨_, by rw [pre]⟩

/-- The number of proper descendants of `d` is the size of its pre-order less one. -/
theorem mag_descendants_eq (n : Nat) (xs : List Nat) (hn : xs.length + 1 = n) (d k : Nat)
    (hd : (par xs)^[k] d = 1) : descendants n xs d + 1 = (pre xs n d).length := by
  obtain ⟨tl, htl⟩ := mag_pre_cons n xs hn d
  have hnd := mag_pre_nodup xs n d k hd
  rw [htl, List.nodup_cons] at hnd
  have hperm : List.Perm
      ((List.range' 1 n).filter (fun w => decide (w ≠ d ∧ InSubtree n xs d w))) tl := by
    rw [List.perm_ext_iff_of_nodup (List.Nodup.filter _ (List.nodup_range' _ _)) hnd.2]
    intro w
    simp only [List.mem_filter, List.mem_range'_1, decide_eq_true_eq]
    have hiff := mag_mem_pre_iff n xs hn d k w hd
    rw [htl, List.mem_cons] at hiff
    constructor
    · rintro ⟨⟨h1, h2⟩, h3, h4⟩
      rcases hiff.2 ⟨⟨h1, by omega⟩, h4⟩ with h | h
      · exact absurd h h3
      · exact h
    · intro h
      have := hiff.1 (Or.inr h)
      refine ⟨⟨this.1.1, by omega⟩, ?_, this.2⟩
      intro hwd; subst hwd; exact hnd.1 h
  unfold descendants
  rw [hperm.length_eq, htl]; simp

/-- The state after `dfs(1)` on a tree: `path` is the pre-order and every node is in it
with its block. -/
theorem mag_final_state (n : Nat) (xs : List Nat) (fuel : Nat) (htree : IsTree n xs)
    (hfuel : n ≤ fuel) :
    ∃ st, dfs (read_input xs) fuel 1 init = some st ∧ st.path = preorder n xs ∧
      ∀ d, 1 ≤ d → d ≤ n → NodeOK n xs st d := by
  obtain ⟨hn, hreach⟩ := htree
  have h1 : (par xs)^[0] 1 = 1 := rfl
  obtain ⟨st, hst, p, _, _, o⟩ := mag_dfs_spec n xs hn fuel 1 0 init h1 (by omega)
    (fun w _ _ => rfl)
  have hpre : pre xs fuel 1 = pre xs n 1 := mag_pre_fuel xs fuel n 1 0 h1 (by omega) (by omega)
  refine ⟨st, hst, ?_, ?_⟩
  · rw [p, hpre]; rfl
  · intro d hd1 hdn
    apply o
    rw [hpre]
    by_cases hd : d = 1
    · subst hd
      obtain ⟨tl, htl⟩ := mag_pre_cons n xs hn 1
      rw [htl]; exact List.mem_cons_self _ _
    · obtain ⟨k, hk⟩ := hreach d (by omega) hdn
      have := mag_depth_lt xs d k hk
      exact mag_pre_mem_of_iter xs k n 1 d (by decide) hk (by omega)

/-- The value of one query on a state in which `d` has its block of `path`. -/
theorem mag_answer_spec (n : Nat) (xs : List Nat) (hn : xs.length + 1 = n) (st : State)
    (d k : Nat) (e : Int) (hd : (par xs)^[k] d = 1) (hpath : st.path = preorder n xs)
    (hok : NodeOK n xs st d) (he : 0 ≤ e) :
    answer st d e = expected n xs d e ∧
      (e ≤ (descendants n xs d : Int) →
        answer st d e = (((pre xs n d).getD e.toNat 0 : Nat) : Int) ∧
          (pre xs n d).getD e.toNat 0 ∈ pre xs n d) := by
  obtain ⟨a, b, h1, h2, h3⟩ := hok
  have hdesc := mag_descendants_eq n xs hn d k hd
  obtain ⟨tl, htl⟩ := mag_pre_cons n xs hn d
  have hnd : (preorder n xs).Nodup := mag_pre_nodup xs n 1 0 rfl
  rw [← hpath, h1] at hnd
  have hda : d ∉ a := by
    intro hmem
    have h := List.disjoint_of_nodup_append (List.nodup_append.1 hnd).1
    exact h hmem (by rw [htl]; exact List.mem_cons_self _ _)
  have hidx : (preorder n xs).indexOf d = a.length := by
    rw [← hpath, h1, List.append_assoc, List.indexOf_append_of_not_mem hda, htl]
    simp
  by_cases hle : e ≤ (descendants n xs d : Int)
  · obtain ⟨m, rfl⟩ : ∃ m : Nat, e = (m : Int) := ⟨e.toNat, by omega⟩
    have hm : m < (pre xs n d).length := by omega
    have hval : st.path.getD (a.length + m) 0 = (pre xs n d).getD m 0 := by
      rw [h1, List.append_assoc, List.getD_append_right _ _ _ _ (by omega),
        List.getD_append _ _ _ _ (by omega)]
      congr 1; omega
    have hans : answer st d (m : Int) = (((pre xs n d).getD m 0 : Nat) : Int) := by
      unfold answer
      rw [h3, h2]
      rw [if_neg (by omega)]
      simp only
      rw [if_pos (by rw [h1]; simp; omega)]
      rw [show ((a.length : Int) + (m : Int)).toNat = a.length + m by omega, hval]
    refine ⟨?_, fun _ => ⟨by simpa using hans, ?_⟩⟩
    · rw [hans]
      unfold expected
      rw [if_pos hle, hidx, ← hpath]
      simp only [Int.toNat_ofNat]
      rw [hval]
    · simp only [Int.toNat_ofNat]
      rw [List.getD_eq_getElem _ _ hm]
      exact List.getElem_mem _
  · refine ⟨?_, fun h => absurd h hle⟩
    unfold answer expected
    rw [h3, if_neg hle, if_pos (by omega)]
    rfl

end Magazin

namespace Magazin

theorem mag_get_result_eq (n : Nat) (xs : List Nat) (qs : List (Nat × Int)) (fuel : Nat)
    (htree : IsTree n xs) (hfuel : n ≤ fuel) :
    ∃ st, get_result fuel xs qs = some (NIL :: qs.map (fun q => answer st q.1 q.2)) ∧
      st.path = preorder n xs ∧ ∀ d, 1 ≤ d → d ≤ n → NodeOK n xs st d := by
  obtain ⟨st, hst, hp, hok⟩ := mag_final_state n xs fuel htree hfuel
  refine ⟨st, ?_, hp, hok⟩
  unfold get_result
  rw [hst]

theorem mag_depth_exists (n : Nat) (xs : List Nat) (htree : IsTree n xs) (d : Nat)
    (hd1 : 1 ≤ d) (hdn : d ≤ n) : ∃ k, (par xs)^[k] d = 1 := by
  by_cases hd : d = 1
  · exact ⟨0, by simp [hd]⟩
  · exact htree.2 d (by omega) hdn

/-- C4 (magazin): on a tree on the nodes `1..n` rooted at node 1, the answer that
`Task::get_result` computes for a query `(d, e)` with `1 ≤ d ≤ n` and `0 ≤ e` is the node
standing `e` positions after `d` in the DFS pre-order (children in increasing node
number) when `e` is at most the number of proper descendants of `d`, and -1 otherwise;
`e = 0` answers `d` itself, and every answer other than -1 is a node of the subtree of
`d`. -/
theorem magazin_answer_is_preorder_successor (n : Nat) (xs : List Nat) (qs : List (Nat × Int))
    (fuel i d : Nat) (e : Int) (htree : IsTree n xs) (hfuel : n ≤ fuel)
    (hq : qs[i]? = some (d, e)) (hd1 : 1 ≤ d) (hdn : d ≤ n) (he : 0 ≤ e) :
    ∃ ans, get_result fuel xs qs = some ans ∧ ans[i + 1]? = some (expected n xs d e) ∧
      (e = 0 → expected n xs d e = (d : Int)) ∧
      (expected n xs d e ≠ -1 →
        ∃ w : Nat, expected n xs d e = (w : Int) ∧ 1 ≤ w ∧ w ≤ n ∧ InSubtree n xs d w) := by
  obtain ⟨st, hres, hp, hok⟩ := mag_get_result_eq n xs qs fuel htree hfuel
  obtain ⟨k, hk⟩ := mag_depth_exists n xs htree d hd1 hdn
  obtain ⟨hexp, hin⟩ := mag_answer_spec n xs htree.1 st d k e hk hp (hok d hd1 hdn) he
  refine ⟨_, hres, ?_, ?_, ?_⟩
  · rw [List.getElem?_cons_succ, List.getElem?_map, hq]
    simp [hexp]
  · intro h0
    subst h0
    obtain ⟨h1, _⟩ := hin (by simp)
    obtain ⟨tl, htl⟩ := mag_pre_cons n xs htree.1 d
    rw [← hexp, h1, htl]; simp
  · intro hne
    have hle : e ≤ (descendants n xs d : Int) := by
      by_contra hgt
      apply hne
      unfold expected; rw [if_neg hgt]
    obtain ⟨h1, h2⟩ := hin hle
    have := (mag_mem_pre_iff n xs htree.1 d k _ hk).1 h2
    exact ⟨_, by rw [← hexp, h1], this.1.1, this.1.2, this.2⟩

theorem mag_tree_five : IsTree 5 [1, 1, 2, 2] := by
  refine ⟨rfl, ?_⟩
  intro v h2 h5
  interval_cases v
  · exact ⟨1, rfl⟩
  · exact ⟨1, rfl⟩
  · exact ⟨2, rfl⟩
  · exact ⟨2, rfl⟩

/-- Witness for C4: the tree with parents 1, 1, 2, 2 (pre-order 1, 2, 4, 5, 3) and the
query `(1, 2)`. -/
theorem magazin_answer_is_preorder_successor_witness :
    IsTree 5 [1, 1, 2, 2] ∧ expected 5 [1, 1, 2, 2] 1 2 = 4 ∧
    ∃ ans, get_result 5 [1, 1, 2, 2] [(1, 2)] = some ans ∧
      ans[0 + 1]? = some (expected 5 [1, 1, 2, 2] 1 2) ∧
      ((2 : Int) = 0 → expected 5 [1, 1, 2, 2] 1 2 = ((1 : Nat) : Int)) ∧
      (expected 5 [1, 1, 2, 2] 1 2 ≠ -1 →
        ∃ w : Nat, expected 5 [1, 1, 2, 2] 1 2 = (w : Int) ∧ 1 ≤ w ∧ w ≤ 5 ∧
          InSubtree 5 [1, 1, 2, 2] 1 w) :=
  ⟨mag_tree_five, by decide,
    magazin_answer_is_preorder_successor 5 [1, 1, 2, 2] [(1, 2)] 5 0 1 2 mag_tree_five
      (by decide) rfl (by decide) (by decide) (by decide)⟩

theorem mag_tree_two : IsTree 2 [1] := by
  refine ⟨rfl, ?_⟩
  intro v h2 h5
  interval_cases v
  exact ⟨1, rfl⟩

/-- C5 as stated fails: on the tree with the two nodes 1 and 2 (2 a child of 1) the query
`(1, 1)` is answered 2, and 2 is not on the path from the root to node 1: no number of
parent steps from node 1 reaches node 2. -/
theorem magazin_answer_not_ancestor :
    IsTree 2 [1] ∧ get_result 2 [1] [(1, 1)] = some [-1, 2] ∧
      ¬ ∃ k, (par [1])^[k] 1 = 2 := by
  refine ⟨mag_tree_two, by decide, ?_⟩
  rintro ⟨k, hk⟩
  cases k with
  | zero => simp at hk
  | succ k =>
    rw [Function.iterate_succ_apply, mag_par_one, mag_iter_zero] at hk
    exact absurd hk (by decide)

/-- C5 (magazin), amended: on a tree on the nodes `1..n` rooted at node 1, an answer of
`Task::get_result` to a query `(d, e)` with `1 ≤ d ≤ n` and `0 ≤ e` that is not -1 is a
node `w` of `1..n` that is `d` itself or a descendant of `d`: following parents from `w`
reaches `d`. -/
theorem magazin_answer_is_descendant (n : Nat) (xs : List Nat) (qs : List (Nat × Int))
    (fuel i d : Nat) (e : Int) (htree : IsTree n xs) (hfuel : n ≤ fuel)
    (hq : qs[i]? = some (d, e)) (hd1 : 1 ≤ d) (hdn : d ≤ n) (he : 0 ≤ e) :
    ∃ ans, get_result fuel xs qs = some ans ∧
      ∀ a : Int, ans[i + 1]? = some a → a ≠ -1 →
        ∃ w : Nat, a = (w : Int) ∧ 1 ≤ w ∧ w ≤ n ∧ ∃ k, (par xs)^[k] w = d := by
  obtain ⟨st, hres, hp, hok⟩ := mag_get_result_eq n xs qs fuel htree hfuel
  obtain ⟨k, hk⟩ := mag_depth_exists n xs htree d hd1 hdn
  obtain ⟨hexp, hin⟩ := mag_answer_spec n xs htree.1 st d k e hk hp (hok d hd1 hdn) he
  refine ⟨_, hres, ?_⟩
  intro a ha hne
  rw [List.getElem?_cons_succ, List.getElem?_map, hq] at ha
  simp only [Option.map_some', Option.some.injEq] at ha
  subst ha
  have hle : e ≤ (descendants n xs d : Int) := by
    by_contra hgt
    apply hne
    rw [hexp]; unfold expected; rw [if_neg hgt]
  obtain ⟨h1, h2⟩ := hin hle
  obtain ⟨hr, j, _, hj⟩ := (mag_mem_pre_iff n xs htree.1 d k _ hk).1 h2
  exact ⟨_, h1, hr.1, hr.2, j, hj⟩

/-- Witness for the amended C5: the tree with parents 1, 1, 2, 2 and the query `(2, 1)`,
answered 4, a child of 2. -/
theorem magazin_answer_is_descendant_witness :
    IsTree 5 [1, 1, 2, 2] ∧ get_result 5 [1, 1, 2, 2] [(2, 1)] = some [-1, 4] ∧
    ∃ ans, get_result 5 [1, 1, 2, 2] [(2, 1)] = some ans ∧
      ∀ a : Int, ans[0 + 1]? = some a → a ≠ -1 →
        ∃ w : Nat, a = (w : Int) ∧ 1 ≤ w ∧ w ≤ 5 ∧ ∃ k, (par [1, 1, 2, 2])^[k] w = 2 :=
  ⟨mag_tree_five, by decide,
    magazin_answer_is_descendant 5 [1, 1, 2, 2] [(2, 1)] 5 0 2 1 mag_tree_five
      (by decide) rfl (by decide) (by decide) (by decide)⟩

/-- C7 (magazin) fails on the code: with `n = 3` and the parent values 3, 2 (node 2 under
node 3, node 3 under node 2) the traversal from node 1 visits node 1 only; node 2 is not
visited (it is not in `path`, its parent is still `NIL`, its times are 0), and yet the
query `(2, 0)` is answered 1, not -1. -/
theorem magazin_unvisited_node_answered :
    ∃ st, dfs (read_input [3, 2]) 3 1 init = some st ∧ st.path = [1] ∧
      st.parent 2 = NIL ∧ st.started 2 = 0 ∧ st.finished 2 = 0 ∧
      answer st 2 0 = 1 ∧ get_result 3 [3, 2] [(2, 0)] = some [-1, 1] :=
  ⟨_, rfl, by decide, by decide, by decide, by decide, by decide, by decide⟩

/-- The part of C7 that the code keeps, on every input and every state: a query whose
`e` exceeds `finished[d] - started[d]` is answered -1. -/
theorem magazin_large_step_answered_nil (st : State) (d : Nat) (e : Int)
    (h : e > st.finished d - st.started d) : answer st d e = -1 := by
  unfold answer
  rw [if_pos h]; rfl

theorem magazin_large_step_answered_nil_witness :
    (5 : Int) > init.finished 2 - init.started 2 ∧ answer init 2 5 = -1 :=
  ⟨by decide, magazin_large_step_answered_nil init 2 5 (by decide)⟩

end Magazin

namespace Magazin

/-- C12 (magazin): on a tree on the nodes `1..n` rooted at node 1, `dfs(1)` ends and leaves
in `path` a permutation of `1..n`; for every node `v` the entries
`path[position[v]], ..., path[position[v] + finished[v] - started[v]]` are exactly `v`
and its descendants, and `finished[v] - started[v]` is the number of proper descendants
of `v`. -/
theorem magazin_dfs_blocks (n : Nat) (xs : List Nat) (fuel : Nat) (htree : IsTree n xs)
    (hfuel : n ≤ fuel) :
    ∃ st, dfs (read_input xs) fuel 1 init = some st ∧
      st.path.Perm (List.range' 1 n) ∧
      ∀ v, 1 ≤ v → v ≤ n →
        st.finished v - st.started v = (descendants n xs v : Int) ∧
        0 ≤ st.position v ∧
        (st.position v).toNat + descendants n xs v < st.path.length ∧
        st.path[(st.position v).toNat]? = some v ∧
        ∀ w, w ∈ (st.path.drop (st.position v).toNat).take (descendants n xs v + 1) ↔
          (1 ≤ w ∧ w ≤ n) ∧ InSubtree n xs v w := by
  obtain ⟨st, hst, hp, hok⟩ := mag_final_state n xs fuel htree hfuel
  have hn := htree.1
  refine ⟨st, hst, ?_, ?_⟩
  · rw [hp]
    unfold preorder
    rw [List.perm_ext_iff_of_nodup (mag_pre_nodup xs n 1 0 rfl) (List.nodup_range' _ _)]
    intro w
    rw [List.mem_range'_1]
    constructor
    · intro hw
      have := (mag_mem_pre_iff n xs hn 1 0 w rfl).1 hw
      omega
    · intro hw
      obtain ⟨k, hk⟩ := mag_depth_exists n xs htree w hw.1 (by omega)
      have := mag_depth_lt xs w k hk
      exact mag_pre_mem_of_iter xs k n 1 w (by decide) hk (by omega)
  · intro v hv1 hvn
    obtain ⟨k, hk⟩ := mag_depth_exists n xs htree v hv1 hvn
    obtain ⟨a, b, h1, h2, h3⟩ := hok v hv1 hvn
    have hdesc := mag_descendants_eq n xs hn v k hk
    obtain ⟨tl, htl⟩ := mag_pre_cons n xs hn v
    have hpos : (st.position v).toNat = a.length := by rw [h2]; simp
    refine ⟨?_, ?_, ?_, ?_, ?_⟩
    · rw [h3]; omega
    · rw [h2]; omega
    · rw [hpos, h1]
      simp only [List.length_append]
      omega
    · rw [hpos, h1, htl, List.append_assoc,
        List.getElem?_append_right (le_refl _)]
      simp
    · intro w
      rw [hpos, h1, hdesc, List.append_assoc, List.drop_left, List.take_left]
      exact mag_mem_pre_iff n xs hn v k w hk

/-- Witness for C12: the tree with parents 1, 1, 2, 2, whose `path` is 1, 2, 4, 5, 3. -/
theorem magazin_dfs_blocks_witness :
    IsTree 5 [1, 1, 2, 2] ∧
    (dfs (read_input [1, 1, 2, 2]) 5 1 init).map (fun st => st.path) = some [1, 2, 4, 5, 3] ∧
    ∃ st, dfs (read_input [1, 1, 2, 2]) 5 1 init = some st ∧
      st.path.Perm (List.range' 1 5) ∧
      ∀ v, 1 ≤ v → v ≤ 5 →
        st.finished v - st.started v = (descendants 5 [1, 1, 2, 2] v : Int) ∧
        0 ≤ st.position v ∧
        (st.position v).toNat + descendants 5 [1, 1, 2, 2] v < st.path.length ∧
        st.path[(st.position v).toNat]? = some v ∧
        ∀ w, w ∈ (st.path.drop (st.position v).toNat).take
            (descendants 5 [1, 1, 2, 2] v + 1) ↔
          (1 ≤ w ∧ w ≤ 5) ∧ InSubtree 5 [1, 1, 2, 2] v w :=
  ⟨mag_tree_five, by decide,
    magazin_dfs_blocks 5 [1, 1, 2, 2] 5 mag_tree_five (by decide)⟩

end Magazin

namespace Supercomputer

theorem sup_inc {c : Nat} (h : c + 1 < W) : inc c = c + 1 := by
  unfold inc
  rw [if_neg (by omega)]

theorem sup_read_arcs_cnt : ∀ (arcs : List (Nat × Nat)) (s : (Nat → Nat) × (Nat → List Nat))
    (y : Nat), (∀ v, s.1 v + arcs.length < W) →
    (read_arcs arcs s).1 y = s.1 y + arcs.countP (fun a => decide (a.2 = y)) := by
  intro arcs
  induction arcs with
  | nil => intro s y _; simp [read_arcs]
  | cons a rest ih =>
    intro s y hs
    obtain ⟨x, y2⟩ := a
    obtain ⟨cnt, adj⟩ := s
    rw [read_arcs, ih]
    · simp only [List.countP_cons]
      have h := hs y2
      simp only [List.length_cons] at h
      by_cases hy : y2 = y
      · subst hy
        simp only [upd, if_pos rfl, decide_True, if_true]
        rw [sup_inc (by omega)]; omega
      · have hy2 : ¬ y = y2 := fun h => hy h.symm
        simp [upd, hy, hy2]
    · intro v
      have h := hs v
      have h2 := hs y2
      simp only [List.length_cons] at h h2
      simp only [upd]
      split
      · rw [sup_inc (by omega)]; omega
      · omega

theorem sup_read_arcs_adj : ∀ (arcs : List (Nat × Nat)) (s : (Nat → Nat) × (Nat → List Nat))
    (x : Nat),
    (read_arcs arcs s).2 x = s.2 x ++ (arcs.filter (fun a => decide (a.1 = x))).map (fun a => a.2) := by
  intro arcs
  induction arcs with
  | nil => intro s x; simp [read_arcs]
  | cons a rest ih =>
    intro s x
    obtain ⟨x2, y⟩ := a
    obtain ⟨cnt, adj⟩ := s
    rw [read_arcs, ih]
    by_cases hx : x2 = x
    · subst hx; simp [upd]
    · have hx2 : ¬ x = x2 := fun h => hx h.symm
      simp [upd, hx, hx2]

theorem sup_vertices_cnt_eq (arcs : List (Nat × Nat)) (hW : arcs.length < W) (y : Nat) :
    vertices_cnt arcs y = arcs.countP (fun a => decide (a.2 = y)) := by
  unfold vertices_cnt
  rw [sup_read_arcs_cnt arcs _ y (by intro v; simpa using hW)]
  simp

theorem sup_adj_eq (arcs : List (Nat × Nat)) (x : Nat) :
    adj arcs x = (arcs.filter (fun a => decide (a.1 = x))).map (fun a => a.2) := by
  unfold adj
  rw [sup_read_arcs_adj]; simp

theorem sup_mem_adj (arcs : List (Nat × Nat)) (x y : Nat) :
    y ∈ adj arcs x ↔ (x, y) ∈ arcs := by
  rw [sup_adj_eq]
  simp only [List.mem_map, List.mem_filter, decide_eq_true_eq]
  constructor
  · rintro ⟨a, ⟨ha, h1⟩, h2⟩
    obtain ⟨a1, a2⟩ := a
    simp only at h1 h2
    subst h1; subst h2; exact ha
  · intro h
    exact ⟨(x, y), ⟨h, rfl⟩, rfl⟩

theorem sup_count_adj (arcs : List (Nat × Nat)) (x y : Nat) :
    (adj arcs x).count y = arcs.countP (fun a => decide (a.2 = y ∧ a.1 = x)) := by
  rw [sup_adj_eq]
  induction arcs with
  | nil => simp
  | cons a rest ih =>
    obtain ⟨a1, a2⟩ := a
    by_cases h1 : a1 = x
    · by_cases h2 : a2 = y
      · simp [List.filter_cons, List.countP_cons, h1, h2, ih]
      · simp [List.filter_cons, List.countP_cons, h1, h2, ih, List.count_cons]
    · simp [List.filter_cons, List.countP_cons, h1, ih]

/-- Popping `node` moves the arcs out of `node` from the pending count to the neighbour
list still to be relaxed. -/
theorem sup_pending_append (arcs : List (Nat × Nat)) (popped : List Nat) (node v : Nat)
    (hnode : node ∉ popped) :
    pending arcs popped v = pending arcs (popped ++ [node]) v + (adj arcs node).count v := by
  rw [sup_count_adj]
  unfold pending
  induction arcs with
  | nil => simp
  | cons a rest ih =>
    obtain ⟨a1, a2⟩ := a
    simp only [List.countP_cons, ih]
    by_cases h2 : a2 = v
    · by_cases h1 : a1 = node
      · subst h1; simp [h2, hnode]; omega
      · by_cases h3 : a1 ∈ popped
        · simp [h2, h1, h3]
        · simp [h2, h1, h3]; omega
    · simp [h2]

theorem sup_pending_le (arcs : List (Nat × Nat)) (popped : List Nat) (v : Nat) :
    pending arcs popped v ≤ arcs.length := by
  unfold pending
  exact List.countP_le_length _

theorem sup_pending_zero (arcs : List (Nat × Nat)) (popped : List Nat) (v : Nat) :
    pending arcs popped v = 0 ↔ ∀ a ∈ arcs, a.2 = v → a.1 ∈ popped := by
  unfold pending
  rw [List.countP_eq_zero]
  simp only [decide_eq_true_eq, not_and, not_not]

end Supercomputer

namespace Supercomputer

theorem sup_dec (c : Nat) (h1 : 1 ≤ c) : dec c = c - 1 := by
  unfold dec
  rw [if_neg (by omega)]

theorem sup_relax_popped (ds : Nat → Int) (d1 d2 : Int) (st : State) (v : Nat) :
    (relax ds d1 d2 st v).popped = st.popped := by
  rfl

theorem sup_relax_cs (ds : Nat → Int) (d1 d2 : Int) (st : State) (v : Nat) :
    (relax ds d1 d2 st v).context_switches = st.context_switches := by
  rfl

theorem sup_relax_cnt (ds : Nat → Int) (d1 d2 : Int) (st : State) (v : Nat) :
    (relax ds d1 d2 st v).cnt = upd st.cnt v (dec (st.cnt v)) := by
  rfl

theorem sup_relax_q1 (ds : Nat → Int) (d1 d2 : Int) (st : State) (v : Nat) :
    (relax ds d1 d2 st v).q1 =
      if dec (st.cnt v) = 0 ∧ ds v = d1 then st.q1 ++ [v] else st.q1 := by
  rfl

theorem sup_relax_q2 (ds : Nat → Int) (d1 d2 : Int) (st : State) (v : Nat) :
    (relax ds d1 d2 st v).q2 =
      if dec (st.cnt v) = 0 ∧ ds v = d2 then st.q2 ++ [v] else st.q2 := by
  rfl

theorem sup_popped_length {n : Nat} {arcs : List (Nat × Nat)} {ds : Nat → Int} {d1 d2 : Int}
    {rest : List Nat} {st : State} (h : Inv n arcs ds d1 d2 rest st) :
    st.popped.length ≤ n := by
  have hsub : st.popped ⊆ List.range' 1 n := by
    intro v hv
    have := h.range v hv
    rw [List.mem_range'_1]; omega
  have := (h.nodup.subperm hsub).length_le
  simpa using this

/-- A neighbour still to be relaxed has not been popped. -/
theorem sup_succ_not_popped {n : Nat} {arcs : List (Nat × Nat)} {ds : Nat → Int}
    {d1 d2 : Int} {rest : List Nat} {st : State} (h : Inv n arcs ds d1 d2 rest st)
    (v : Nat) (hv : v ∈ rest) : v ∉ st.popped := by
  intro hmem
  obtain ⟨p, node, hp, harc⟩ := h.succ v hv
  obtain ⟨h1, h2⟩ := h.resp (node, v) harc hmem
  simp only at h1 h2
  have hnd := h.nodup
  rw [hp] at hnd h2 hmem
  have hnp : node ∉ p := by
    intro hn
    have := List.disjoint_of_nodup_append hnd
    exact this hn (List.mem_singleton_self _)
  have hi1 : List.indexOf node (p ++ [node]) = p.length := by
    rw [List.indexOf_append_of_not_mem hnp]; simp
  have hi2 : List.indexOf v (p ++ [node]) < (p ++ [node]).length :=
    List.indexOf_lt_length.2 hmem
  simp only [List.length_append, List.length_singleton] at hi2
  omega

theorem sup_relax_inv {n : Nat} {arcs : List (Nat × Nat)} {ds : Nat → Int} {d1 d2 : Int}
    (ctx : Ctx n arcs d1 d2) (neigh : Nat) (rest : List Nat) (st : State)
    (h : Inv n arcs ds d1 d2 (neigh :: rest) st) :
    Inv n arcs ds d1 d2 rest (relax ds d1 d2 st neigh) := by
  have hnp : neigh ∉ st.popped := sup_succ_not_popped h neigh (List.mem_cons_self _ _)
  have hc0 := h.cnt neigh
  rw [List.count_cons_self] at hc0
  have hge : 1 ≤ st.cnt neigh := by omega
  have hdec := sup_dec (st.cnt neigh) hge
  have hrange : 1 ≤ neigh ∧ neigh ≤ n := by
    obtain ⟨p, node, _, harc⟩ := h.succ neigh (List.mem_cons_self _ _)
    exact (ctx.inr _ harc).2
  have hnq1 : neigh ∉ st.q1 := by
    intro hq; have := ((h.q1 neigh).1 hq).2.2.1; omega
  have hnq2 : neigh ∉ st.q2 := by
    intro hq; have := ((h.q2 neigh).1 hq).2.2.1; omega
  have hcnt : ∀ v, (relax ds d1 d2 st neigh).cnt v
      = if v = neigh then st.cnt neigh - 1 else st.cnt v := by
    intro v; rw [sup_relax_cnt, hdec]; rfl
  have hq : ∀ (d : Int) (q : List Nat),
      (∀ v, v ∈ q ↔ (1 ≤ v ∧ v ≤ n) ∧ v ∉ st.popped ∧ st.cnt v = 0 ∧ ds v = d) →
      ∀ v, v ∈ (if st.cnt neigh - 1 = 0 ∧ ds neigh = d then q ++ [neigh] else q) ↔
        (1 ≤ v ∧ v ≤ n) ∧ v ∉ st.popped ∧
          (if v = neigh then st.cnt neigh - 1 else st.cnt v) = 0 ∧ ds v = d := by
    intro d q hqiff v
    by_cases hv : v = neigh
    · subst hv
      have hnq : v ∉ q := by
        intro hq; have := ((hqiff v).1 hq).2.2.1; omega
      simp only [if_pos rfl]
      split_ifs with hc
      · simp [hrange, hnp, hc.1, hc.2]
      · constructor
        · intro hq; exact absurd hq hnq
        · rintro ⟨_, _, h3, h4⟩; exact absurd ⟨h3, h4⟩ hc
    · simp only [if_neg hv]
      split_ifs with hc
      · rw [List.mem_append, List.mem_singleton, hqiff v]
        constructor
        · rintro (h1 | h1)
          · exact h1
          · exact absurd h1 hv
        · intro h1; exact Or.inl h1
      · exact hqiff v
  refine
    { nodup := by rw [sup_relax_popped]; exact h.nodup
      range := by rw [sup_relax_popped]; exact h.range
      cnt := ?_
      small := ?_
      q1 := ?_
      q2 := ?_
      q1nd := ?_
      q2nd := ?_
      resp := by rw [sup_relax_popped]; exact h.resp
      succ := ?_ }
  · intro v
    rw [hcnt, sup_relax_popped]
    by_cases hv : v = neigh
    · subst hv; rw [if_pos rfl]; omega
    · rw [if_neg hv, h.cnt v, List.count_cons_of_ne hv]
  · intro v
    rw [hcnt]
    split
    · have := h.small neigh; omega
    · exact h.small v
  · intro v
    rw [sup_relax_q1, hdec, sup_relax_popped, hcnt]
    exact hq d1 st.q1 h.q1 v
  · intro v
    rw [sup_relax_q2, hdec, sup_relax_popped, hcnt]
    exact hq d2 st.q2 h.q2 v
  · rw [sup_relax_q1]
    split_ifs
    · rw [List.nodup_append]
      exact ⟨h.q1nd, List.nodup_singleton _, by
        intro a ha hb; rw [List.mem_singleton] at hb; subst hb; exact hnq1 ha⟩
    · exact h.q1nd
  · rw [sup_relax_q2]
    split_ifs
    · rw [List.nodup_append]
      exact ⟨h.q2nd, List.nodup_singleton _, by
        intro a ha hb; rw [List.mem_singleton] at hb; subst hb; exact hnq2 ha⟩
    · exact h.q2nd
  · intro v hv
    rw [sup_relax_popped]
    exact h.succ v (List.mem_cons_of_mem _ hv)

theorem sup_fold_inv {n : Nat} {arcs : List (Nat × Nat)} {ds : Nat → Int} {d1 d2 : Int}
    (ctx : Ctx n arcs d1 d2) : ∀ (l : List Nat) (st : State),
    Inv n arcs ds d1 d2 l st →
    Inv n arcs ds d1 d2 [] (l.foldl (relax ds d1 d2) st) ∧
      (l.foldl (relax ds d1 d2) st).popped = st.popped ∧
      (l.foldl (relax ds d1 d2) st).context_switches = st.context_switches := by
  intro l
  induction l with
  | nil => intro st h; exact ⟨h, rfl, rfl⟩
  | cons v l ih =>
    intro st h
    rw [List.foldl_cons]
    obtain ⟨h1, h2, h3⟩ := ih _ (sup_relax_inv ctx v l st h)
    exact ⟨h1, by rw [h2, sup_relax_popped], by rw [h3, sup_relax_cs]⟩

theorem sup_respects_append (arcs : List (Nat × Nat)) (popped : List Nat) (node : Nat)
    (hr : Respects arcs popped) (hn : node ∉ popped)
    (hp : ∀ a ∈ arcs, a.2 = node → a.1 ∈ popped) : Respects arcs (popped ++ [node]) := by
  intro a ha hmem
  rw [List.mem_append, List.mem_singleton] at hmem
  rcases hmem with hmem | hmem
  · obtain ⟨h1, h2⟩ := hr a ha hmem
    refine ⟨List.mem_append_left _ h1, ?_⟩
    rw [List.indexOf_append_of_mem h1, List.indexOf_append_of_mem hmem]; exact h2
  · have h1 := hp a ha hmem
    refine ⟨List.mem_append_left _ h1, ?_⟩
    rw [List.indexOf_append_of_mem h1, hmem, List.indexOf_append_of_not_mem hn]
    have := List.indexOf_lt_length.2 h1
    simp; omega

theorem sup_pop_inv {n : Nat} {arcs : List (Nat × Nat)} {ds : Nat → Int} {d1 d2 : Int}
    (ctx : Ctx n arcs d1 d2) (st : State) (node : Nat) (r : List Nat)
    (h : Inv n arcs ds d1 d2 [] st) (hq : st.q1 = node :: r) :
    Inv n arcs ds d1 d2 (adj arcs node)
      { st with q1 := r, popped := st.popped ++ [node] } ∧ ds node = d1 := by
  have hnode := (h.q1 node).1 (by rw [hq]; exact List.mem_cons_self _ _)
  obtain ⟨hr, hnp, hc, hd⟩ := hnode
  have hnd := h.q1nd
  rw [hq, List.nodup_cons] at hnd
  have hpend : pending arcs st.popped node = 0 := by
    have := h.cnt node; simp at this; omega
  refine ⟨?_, hd⟩
  refine
    { nodup := ?_
      range := ?_
      cnt := ?_
      small := h.small
      q1 := ?_
      q2 := ?_
      q1nd := hnd.2
      q2nd := h.q2nd
      resp := ?_
      succ := ?_ }
  · show (st.popped ++ [node]).Nodup
    rw [List.nodup_append]
    exact ⟨h.nodup, List.nodup_singleton _, by
      intro a ha hb; rw [List.mem_singleton] at hb; subst hb; exact hnp ha⟩
  · intro v hv
    change v ∈ st.popped ++ [node] at hv
    rw [List.mem_append, List.mem_singleton] at hv
    rcases hv with hv | hv
    · exact h.range v hv
    · subst hv; exact hr
  · intro v
    show st.cnt v = pending arcs (st.popped ++ [node]) v + (adj arcs node).count v
    rw [← sup_pending_append arcs st.popped node v hnp]
    have := h.cnt v; simpa using this
  · intro v
    show v ∈ r ↔ (1 ≤ v ∧ v ≤ n) ∧ v ∉ st.popped ++ [node] ∧ st.cnt v = 0 ∧ ds v = d1
    have hiff := h.q1 v
    rw [hq, List.mem_cons] at hiff
    rw [List.mem_append, List.mem_singleton]
    constructor
    · intro hv
      have hne : v ≠ node := fun e => hnd.1 (e ▸ hv)
      obtain ⟨a1, a2, a3, a4⟩ := hiff.1 (Or.inr hv)
      exact ⟨a1, fun hh => hh.elim a2 hne, a3, a4⟩
    · rintro ⟨a1, a2, a3, a4⟩
      rcases hiff.2 ⟨a1, fun hh => a2 (Or.inl hh), a3, a4⟩ with hh | hh
      · exact absurd (Or.inr hh) a2
      · exact hh
  · intro v
    show v ∈ st.q2 ↔ (1 ≤ v ∧ v ≤ n) ∧ v ∉ st.popped ++ [node] ∧ st.cnt v = 0 ∧ ds v = d2
    rw [h.q2 v, List.mem_append, List.mem_singleton]
    constructor
    · rintro ⟨a1, a2, a3, a4⟩
      refine ⟨a1, fun hh => hh.elim a2 ?_, a3, a4⟩
      intro e; subst e; exact ctx.ne (hd.symm.trans a4)
    · rintro ⟨a1, a2, a3, a4⟩
      exact ⟨a1, fun hh => a2 (Or.inl hh), a3, a4⟩
  · exact sup_respects_append arcs st.popped node h.resp hnp
      ((sup_pending_zero arcs st.popped node).1 hpend)
  · intro v hv
    exact ⟨st.popped, node, rfl, (sup_mem_adj arcs node v).1 hv⟩

/-- The loop on `q1` ends within the bound, empties `q1`, keeps the invariant and the
counter, and pops tasks of data set `d1` only. -/
theorem sup_drain_q1 {n : Nat} {arcs : List (Nat × Nat)} {ds : Nat → Int} {d1 d2 : Int}
    (ctx : Ctx n arcs d1 d2) : ∀ (fuel : Nat) (st : State),
    Inv n arcs ds d1 d2 [] st → n < fuel + st.popped.length →
    ∃ st2 B, drain_q1 (adj arcs) ds d1 d2 fuel st = some st2 ∧
      Inv n arcs ds d1 d2 [] st2 ∧ st2.q1 = [] ∧
      st2.context_switches = st.context_switches ∧ st2.popped = st.popped ++ B ∧
      (∀ v ∈ B, ds v = d1) ∧ (st.q1 = [] → st2 = st) ∧ (st.q1 ≠ [] → B ≠ []) := by
  intro fuel
  induction fuel with
  | zero =>
    intro st h hf
    have := sup_popped_length h
    omega
  | succ fuel ih =>
    intro st h hf
    rw [drain_q1]
    cases hq : st.q1 with
    | nil =>
      exact ⟨st, [], rfl, h, hq, rfl, by simp, by simp, fun _ => rfl, fun hh => absurd rfl hh⟩
    | cons node r =>
      obtain ⟨hpop, hd⟩ := sup_pop_inv ctx st node r h hq
      obtain ⟨hf1, hf2, hf3⟩ := sup_fold_inv ctx _ _ hpop
      obtain ⟨st2, B, g1, g2, g3, g4, g5, g6, _, _⟩ := ih _ hf1 (by
        rw [hf2]; simp only [List.length_append, List.length_singleton]; omega)
      refine ⟨st2, node :: B, g1, g2, g3, by rw [g4, hf3], ?_, ?_, ?_, ?_⟩
      · rw [g5, hf2]; simp
      · intro v hv
        rw [List.mem_cons] at hv
        rcases hv with hv | hv
        · subst hv; exact hd
        · exact g6 v hv
      · intro hh; exact absurd hh (by simp)
      · intro _; simp

end Supercomputer

namespace Supercomputer

theorem sup_swap_swap (st : State) : swap (swap st) = st := rfl

theorem sup_relax_swap (ds : Nat → Int) (d1 d2 : Int) (st : State) (v : Nat) :
    relax ds d2 d1 (swap st) v = swap (relax ds d1 d2 st v) := by
  rfl

theorem sup_fold_swap (ds : Nat → Int) (d1 d2 : Int) : ∀ (l : List Nat) (st : State),
    l.foldl (relax ds d2 d1) (swap st) = swap (l.foldl (relax ds d1 d2) st) := by
  intro l
  induction l with
  | nil => intro st; rfl
  | cons v l ih =>
    intro st
    rw [List.foldl_cons, List.foldl_cons, sup_relax_swap, ih]

theorem sup_drain_q2_eq (adj : Nat → List Nat) (ds : Nat → Int) (d1 d2 : Int) :
    ∀ (fuel : Nat) (st : State),
    drain_q2 adj ds d1 d2 fuel st = (drain_q1 adj ds d2 d1 fuel (swap st)).map swap := by
  intro fuel
  induction fuel with
  | zero => intro st; rfl
  | succ fuel ih =>
    intro st
    rw [drain_q2, drain_q1]
    show (match st.q2 with
      | [] => some st
      | node :: rest => _) = Option.map swap (match st.q2 with
      | [] => some (swap st)
      | node :: rest => _)
    cases st.q2 with
    | nil => rfl
    | cons node rest =>
      simp only
      rw [ih, ← sup_fold_swap]
      rfl

theorem sup_ctx_swap {n : Nat} {arcs : List (Nat × Nat)} {d1 d2 : Int}
    (ctx : Ctx n arcs d1 d2) : Ctx n arcs d2 d1 :=
  { few := ctx.few, ne := fun h => ctx.ne h.symm, inr := ctx.inr }

theorem sup_inv_swap {n : Nat} {arcs : List (Nat × Nat)} {ds : Nat → Int} {d1 d2 : Int}
    {rest : List Nat} {st : State} (h : Inv n arcs ds d1 d2 rest st) :
    Inv n arcs ds d2 d1 rest (swap st) :=
  { nodup := h.nodup, range := h.range, cnt := h.cnt, small := h.small, q1 := h.q2,
    q2 := h.q1, q1nd := h.q2nd, q2nd := h.q1nd, resp := h.resp, succ := h.succ }

/-- The loop on `q2` ends within the bound, empties `q2`, keeps the invariant and the
counter, and pops tasks of data set `d2` only. -/
theorem sup_drain_q2 {n : Nat} {arcs : List (Nat × Nat)} {ds : Nat → Int} {d1 d2 : Int}
    (ctx : Ctx n arcs d1 d2) (fuel : Nat) (st : State)
    (h : Inv n arcs ds d1 d2 [] st) (hf : n < fuel + st.popped.length) :
    ∃ st2 B, drain_q2 (adj arcs) ds d1 d2 fuel st = some st2 ∧
      Inv n arcs ds d1 d2 [] st2 ∧ st2.q2 = [] ∧
      st2.context_switches = st.context_switches ∧ st2.popped = st.popped ++ B ∧
      (∀ v ∈ B, ds v = d2) ∧ (st.q2 = [] → st2 = st) ∧ (st.q2 ≠ [] → B ≠ []) := by
  obtain ⟨s2, B, g1, g2, g3, g4, g5, g6, g7, g8⟩ :=
    sup_drain_q1 (sup_ctx_swap ctx) fuel (swap st) (sup_inv_swap h) hf
  refine ⟨swap s2, B, ?_, sup_inv_swap g2, g3, g4, g5, g6, ?_, g8⟩
  · rw [sup_drain_q2_eq, g1]; rfl
  · intro hq
    rw [g7 hq]; rfl

theorem sup_init_fold (ds : Nat → Int) (d1 d2 : Int) (hne : d1 ≠ d2) :
    ∀ (l : List Nat) (st : State),
    l.foldl (init_step ds d1 d2) st =
      { st with
        q1 := st.q1 ++ l.filter (fun i => decide (st.cnt i = 0 ∧ ds i = d1))
        q2 := st.q2 ++ l.filter (fun i => decide (st.cnt i = 0 ∧ ds i = d2)) } := by
  intro l
  induction l with
  | nil => intro st; simp
  | cons i l ih =>
    intro st
    rw [List.foldl_cons, ih]
    simp only [init_step]
    by_cases h1 : st.cnt i = 0 ∧ ds i = d1
    · have h2 : ¬ (st.cnt i = 0 ∧ ds i = d2) := fun h => hne (h1.2.symm.trans h.2)
      have hne2 : ¬ d2 = d1 := fun h => hne h.symm
      simp [h1, h2, List.filter_cons, hne, hne2]
    · have hne2 : ¬ d2 = d1 := fun h => hne h.symm
      by_cases h2 : st.cnt i = 0 ∧ ds i = d2
      · simp [h1, h2, List.filter_cons, hne, hne2]
      · simp [h1, h2, List.filter_cons]

theorem sup_pending_nil (arcs : List (Nat × Nat)) (v : Nat) :
    pending arcs [] v = arcs.countP (fun a => decide (a.2 = v)) := by
  unfold pending; simp

/-- The state built by the first loop of `topo_sort_cnt` satisfies the invariant. -/
theorem sup_start_inv {n : Nat} {arcs : List (Nat × Nat)} (sets : List Int)
    (switched : Bool)
    (ctx : Ctx n arcs (if switched then 2 else 1) (if switched then 1 else 2)) :
    Inv n arcs (data_set sets) (if switched then 2 else 1) (if switched then 1 else 2) []
      (start n sets arcs switched) ∧
    (start n sets arcs switched).popped = [] ∧
    (start n sets arcs switched).context_switches = 0 := by
  unfold start
  rw [sup_init_fold _ _ _ ctx.ne]
  refine ⟨?_, rfl, rfl⟩
  have hq : ∀ (d : Int) (v : Nat),
      v ∈ ([] : List Nat) ++ (List.range' 1 n).filter
          (fun i => decide (vertices_cnt arcs i = 0 ∧ data_set sets i = d)) ↔
        (1 ≤ v ∧ v ≤ n) ∧ v ∉ ([] : List Nat) ∧ vertices_cnt arcs v = 0 ∧
          data_set sets v = d := by
    intro d v
    simp only [List.nil_append, List.mem_filter, List.mem_range'_1, decide_eq_true_eq,
      List.not_mem_nil, not_false_eq_true, true_and]
    constructor
    · rintro ⟨⟨a, b⟩, c⟩; exact ⟨⟨a, by omega⟩, c⟩
    · rintro ⟨⟨a, b⟩, c⟩; exact ⟨⟨a, by omega⟩, c⟩
  refine
    { nodup := List.nodup_nil
      range := by intro v hv; simp at hv
      cnt := ?_
      small := ?_
      q1 := hq _
      q2 := hq _
      q1nd := ?_
      q2nd := ?_
      resp := by intro a _ hm; simp at hm
      succ := by intro v hv; simp at hv }
  · intro v
    show vertices_cnt arcs v = _
    rw [sup_vertices_cnt_eq arcs ctx.few, sup_pending_nil]; simp
  · intro v
    show vertices_cnt arcs v < W
    rw [sup_vertices_cnt_eq arcs ctx.few]
    exact lt_of_le_of_lt (List.countP_le_length _) ctx.few
  · show (([] : List Nat) ++ _).Nodup
    rw [List.nil_append]
    exact List.Nodup.filter _ (List.nodup_range' _ _)
  · show (([] : List Nat) ++ _).Nodup
    rw [List.nil_append]
    exact List.Nodup.filter _ (List.nodup_range' _ _)

end Supercomputer

namespace Supercomputer

theorem sup_switches_uniform (ds : Nat → Int) (l : Int) : ∀ (B : List Nat),
    (∀ v ∈ B, ds v = l) → switches ds B = 0 := by
  intro B
  induction B with
  | nil => intro _; rfl
  | cons a B ih =>
    intro h
    cases B with
    | nil => rfl
    | cons b B =>
      rw [switches, ih (fun v hv => h v (List.mem_cons_of_mem _ hv))]
      have ha := h a (List.mem_cons_self _ _)
      have hb := h b (List.mem_cons_of_mem _ (List.mem_cons_self _ _))
      simp [ha, hb]

theorem sup_jump_le (ds : Nat → Int) (A : List Nat) (l : Int) : jump ds A l ≤ 1 := by
  unfold jump
  split
  · omega
  · split <;> omega

theorem sup_jump_nil (ds : Nat → Int) (l : Int) : jump ds [] l = 0 := rfl

/-- Running a non-empty list of tasks of one data set after `A` adds one switch exactly
when `A` ends with a task of the other data set. -/
theorem sup_switches_append (ds : Nat → Int) (l : Int) (B : List Nat) (hB : B ≠ [])
    (hu : ∀ v ∈ B, ds v = l) : ∀ (A : List Nat),
    switches ds (A ++ B) = switches ds A + jump ds A l := by
  intro A
  induction A with
  | nil => simp [sup_switches_uniform ds l B hu, jump, switches]
  | cons a A ih =>
    cases A with
    | nil =>
      obtain ⟨b, B2, rfl⟩ : ∃ b B2, B = b :: B2 := by
        cases B with
        | nil => exact absurd rfl hB
        | cons b B2 => exact ⟨b, B2, rfl⟩
      have hb := hu b (List.mem_cons_self _ _)
      have e : switches ds (a :: b :: B2)
          = (if ds a ≠ ds b then 1 else 0) + switches ds (b :: B2) := rfl
      have e2 : switches ds [a] = 0 := rfl
      show switches ds (a :: b :: B2) = switches ds [a] + jump ds [a] l
      rw [e, e2, sup_switches_uniform ds l (b :: B2) hu]
      simp only [jump, List.getLast?_singleton, hb]
      by_cases h : ds a = l
      · simp [h]
      · simp [h]
    | cons a2 A =>
      show switches ds (a :: a2 :: (A ++ B)) = switches ds (a :: a2 :: A) + jump ds (a :: a2 :: A) l
      rw [switches, switches]
      have := ih
      simp only [List.cons_append] at this
      rw [this]
      have hj : jump ds (a :: a2 :: A) l = jump ds (a2 :: A) l := by
        unfold jump
        rw [List.getLast?_cons_cons]
      rw [hj]; omega

theorem sup_cost_le_succ (ds : Nat → Int) : ∀ (l : List Nat) (c c2 : Int),
    cost ds c l ≤ 1 + cost ds c2 l := by
  intro l
  induction l with
  | nil => intro c c2; simp [cost]
  | cons v l ih =>
    intro c c2
    simp only [cost]
    split_ifs with h1 h2 h2
    · exact ih c c2
    · subst h1; omega
    · subst h2; omega
    · omega

theorem sup_cost_filter_le (ds : Nat → Int) (p : Nat → Bool) : ∀ (l : List Nat) (c : Int),
    cost ds c (l.filter p) ≤ cost ds c l := by
  intro l
  induction l with
  | nil => intro c; simp [cost]
  | cons v l ih =>
    intro c
    by_cases hp : p v = true
    · rw [List.filter_cons_of_pos hp]
      simp only [cost]
      split
      · exact ih c
      · have := ih (ds v); omega
    · rw [List.filter_cons_of_neg hp]
      simp only [cost]
      split
      · exact ih c
      · have h1 := ih c
        have h2 := sup_cost_le_succ ds l c (ds v)
        omega

theorem sup_cost_head (ds : Nat → Int) (c : Int) (v : Nat) (r : List Nat) (h : ds v ≠ c) :
    cost ds c (v :: r) = 1 + cost ds (ds v) (v :: r) := by
  simp [cost, h]

theorem sup_cost_tail (ds : Nat → Int) : ∀ (r : List Nat) (a : Nat),
    cost ds (ds a) r = switches ds (a :: r) := by
  intro r
  induction r with
  | nil => intro a; rfl
  | cons b r ih =>
    intro a
    have e : switches ds (a :: b :: r)
        = (if ds a ≠ ds b then 1 else 0) + switches ds (b :: r) := rfl
    have e2 : cost ds (ds a) (b :: r)
        = if ds b = ds a then cost ds (ds a) r else 1 + cost ds (ds b) r := rfl
    rw [e, e2, ← ih b]
    by_cases h : ds b = ds a
    · have h2 : ds a = ds b := h.symm
      rw [if_pos h, if_neg (by simpa using h2), h2]; omega
    · have h2 : ds a ≠ ds b := fun e => h e.symm
      rw [if_neg h, if_pos h2]

theorem sup_cost_eq_switches (ds : Nat → Int) (r : List Nat) (a : Nat) :
    cost ds (ds a) (a :: r) = switches ds (a :: r) := by
  have e : cost ds (ds a) (a :: r) = if ds a = ds a then cost ds (ds a) r
      else 1 + cost ds (ds a) r := rfl
  rw [e, if_pos rfl, sup_cost_tail]

theorem sup_valid_mono (arcs : List (Nat × Nat)) (p : Nat → Bool) : ∀ (rest done done2 : List Nat),
    Valid arcs done rest → (∀ x ∈ done, x ∈ done2) →
    (∀ v ∈ rest, p v = false → v ∈ done2) → Valid arcs done2 (rest.filter p) := by
  intro rest
  induction rest with
  | nil => intro done done2 _ _ _; simp [Valid]
  | cons v rest ih =>
    intro done done2 hv hsub hdrop
    obtain ⟨hv1, hv2⟩ := hv
    by_cases hp : p v = true
    · rw [List.filter_cons_of_pos hp]
      refine ⟨fun a ha hav => hsub _ (hv1 a ha hav), ?_⟩
      apply ih (v :: done) (v :: done2) hv2
      · intro x hx
        rw [List.mem_cons] at hx ⊢
        exact hx.imp id (hsub x)
      · intro u hu hpu
        exact List.mem_cons_of_mem _ (hdrop u (List.mem_cons_of_mem _ hu) hpu)
    · rw [List.filter_cons_of_neg hp]
      have hvd : v ∈ done2 := hdrop v (List.mem_cons_self _ _) (by simpa using hp)
      apply ih (v :: done) done2 hv2
      · intro x hx
        rw [List.mem_cons] at hx
        rcases hx with hx | hx
        · subst hx; exact hvd
        · exact hsub x hx
      · intro u hu hpu
        exact hdrop u (List.mem_cons_of_mem _ hu) hpu

theorem sup_valid_of_order (arcs : List (Nat × Nat)) : ∀ (rest done : List Nat),
    (∀ a ∈ arcs, a.2 ∈ rest →
      a.1 ∈ done ∨ (a.1 ∈ rest ∧ rest.indexOf a.1 < rest.indexOf a.2)) →
    Valid arcs done rest := by
  intro rest
  induction rest with
  | nil => intro done _; trivial
  | cons v rest ih =>
    intro done h
    refine ⟨?_, ?_⟩
    · intro a ha hav
      rcases h a ha (by rw [hav]; exact List.mem_cons_self _ _) with h1 | ⟨_, h2⟩
      · exact h1
      · rw [hav, List.indexOf_cons_self] at h2; omega
    · apply ih
      intro a ha hmem
      rcases h a ha (List.mem_cons_of_mem _ hmem) with h1 | ⟨h1, h2⟩
      · exact Or.inl (List.mem_cons_of_mem _ h1)
      · by_cases e1 : a.1 = v
        · exact Or.inl (by rw [e1]; exact List.mem_cons_self _ _)
        · have e2 : a.2 ≠ v := by
            intro e2
            rw [e2, List.indexOf_cons_self] at h2; omega
          rw [List.mem_cons] at h1
          rcases h1 with h1 | h1
          · exact absurd h1 e1
          · refine Or.inr ⟨h1, ?_⟩
            rw [List.indexOf_cons_ne _ (fun e => e1 e.symm),
              List.indexOf_cons_ne _ (fun e => e2 e.symm)] at h2
            omega

/-- A topological ordering can be run from the start. -/
theorem sup_valid_of_topo (n : Nat) (arcs : List (Nat × Nat)) (ord : List Nat)
    (ctx : ∀ a ∈ arcs, (1 ≤ a.1 ∧ a.1 ≤ n) ∧ (1 ≤ a.2 ∧ a.2 ≤ n))
    (h : IsTopo n arcs ord) : Valid arcs [] ord := by
  apply sup_valid_of_order
  intro a ha _
  exact Or.inr ⟨(h.2.1 a.1).2 (ctx a ha).1, h.2.2 a ha⟩

end Supercomputer

namespace Supercomputer

theorem sup_count_switch_popped (q : List Nat) (st : State) :
    (count_switch q st).popped = st.popped := by
  unfold count_switch; split <;> rfl

theorem sup_count_switch_q1 (q : List Nat) (st : State) :
    (count_switch q st).q1 = st.q1 := by
  unfold count_switch; split <;> rfl

theorem sup_count_switch_q2 (q : List Nat) (st : State) :
    (count_switch q st).q2 = st.q2 := by
  unfold count_switch; split <;> rfl

theorem sup_count_switch_cs (q : List Nat) (st : State) :
    (count_switch q st).context_switches
      = st.context_switches + (if q = [] then 0 else 1) := by
  unfold count_switch
  cases q with
  | nil => simp
  | cons a q => simp

theorem sup_count_switch_inv {n : Nat} {arcs : List (Nat × Nat)} {ds : Nat → Int}
    {d1 d2 : Int} {rest : List Nat} {st : State} (q : List Nat)
    (h : Inv n arcs ds d1 d2 rest st) : Inv n arcs ds d1 d2 rest (count_switch q st) := by
  unfold count_switch
  split
  · exact h
  · exact
      { nodup := h.nodup, range := h.range, cnt := h.cnt, small := h.small, q1 := h.q1,
        q2 := h.q2, q1nd := h.q1nd, q2nd := h.q2nd, resp := h.resp, succ := h.succ }

/-- At a loop head with `q1` empty, what is left of a runnable list `rest` once the popped
tasks are struck out is runnable, covers the tasks not popped, is non-empty when `q2`
is, and starts with a task of data set `d2`. -/
theorem sup_rest_after {n : Nat} {arcs : List (Nat × Nat)} {ds : Nat → Int} {d1 d2 : Int}
    (hlab : ∀ v, 1 ≤ v → v ≤ n → ds v = d1 ∨ ds v = d2)
    (s1 : State) (h : Inv n arcs ds d1 d2 [] s1) (hq : s1.q1 = [])
    (popped rest : List Nat) (hsub : ∀ x ∈ popped, x ∈ s1.popped)
    (hval : Valid arcs popped rest)
    (hcov : ∀ v, 1 ≤ v → v ≤ n → v ∈ popped ∨ v ∈ rest)
    (hin : ∀ v ∈ rest, 1 ≤ v ∧ v ≤ n) :
    Valid arcs s1.popped (rest.filter (fun v => decide (v ∉ s1.popped))) ∧
    (∀ v, 1 ≤ v → v ≤ n →
      v ∈ s1.popped ∨ v ∈ rest.filter (fun v => decide (v ∉ s1.popped))) ∧
    (∀ v ∈ rest.filter (fun v => decide (v ∉ s1.popped)), 1 ≤ v ∧ v ≤ n) ∧
    (s1.q2 ≠ [] → rest.filter (fun v => decide (v ∉ s1.popped)) ≠ []) ∧
    (∀ v r, rest.filter (fun v => decide (v ∉ s1.popped)) = v :: r → ds v = d2) := by
  have hval2 : Valid arcs s1.popped (rest.filter (fun v => decide (v ∉ s1.popped))) := by
    apply sup_valid_mono arcs _ rest popped s1.popped hval hsub
    intro v _ hp
    simpa using hp
  have hcov2 : ∀ v, 1 ≤ v → v ≤ n →
      v ∈ s1.popped ∨ v ∈ rest.filter (fun v => decide (v ∉ s1.popped)) := by
    intro v h1 h2
    by_cases hv : v ∈ s1.popped
    · exact Or.inl hv
    · rcases hcov v h1 h2 with h3 | h3
      · exact Or.inl (hsub v h3)
      · exact Or.inr (List.mem_filter.2 ⟨h3, by simpa using hv⟩)
  refine ⟨hval2, hcov2, ?_, ?_, ?_⟩
  · intro v hv
    exact hin v (List.mem_filter.1 hv).1
  · intro hq2
    obtain ⟨v, hv⟩ := List.exists_mem_of_ne_nil _ hq2
    obtain ⟨hr, hnp, _, _⟩ := (h.q2 v).1 hv
    rcases hcov2 v hr.1 hr.2 with h3 | h3
    · exact absurd h3 hnp
    · exact List.ne_nil_of_mem h3
  · intro v r hvr
    have hmem : v ∈ rest.filter (fun v => decide (v ∉ s1.popped)) := by
      rw [hvr]; exact List.mem_cons_self _ _
    obtain ⟨hm1, hm2⟩ := List.mem_filter.1 hmem
    have hnp : v ∉ s1.popped := by simpa using hm2
    have hr := hin v hm1
    rw [hvr] at hval2
    have hpend : pending arcs s1.popped v = 0 :=
      (sup_pending_zero arcs s1.popped v).2 hval2.1
    have hc : s1.cnt v = 0 := by
      have := h.cnt v; simp at this; omega
    rcases hlab v hr.1 hr.2 with hl | hl
    · have : v ∈ s1.q1 := (h.q1 v).2 ⟨hr, hnp, hc, hl⟩
      rw [hq] at this
      exact absurd this (List.not_mem_nil _)
    · exact hl

/-- When both queues are empty in an acyclic graph, every task has been popped. -/
theorem sup_all_popped {n : Nat} {arcs : List (Nat × Nat)} {ds : Nat → Int} {d1 d2 : Int}
    (ctx : Ctx n arcs d1 d2)
    (hlab : ∀ v, 1 ≤ v → v ≤ n → ds v = d1 ∨ ds v = d2)
    (hacyc : ∀ v, ¬ Relation.TransGen (fun x y => (x, y) ∈ arcs) v v)
    (st : State) (h : Inv n arcs ds d1 d2 [] st) (hq1 : st.q1 = []) (hq2 : st.q2 = []) :
    ∀ v, 1 ≤ v → v ≤ n → v ∈ st.popped := by
  by_contra hcon
  push_neg at hcon
  obtain ⟨v0, hv1, hv2, hv3⟩ := hcon
  let r : Fin (n + 1) → Fin (n + 1) → Prop :=
    fun a b => Relation.TransGen (fun x y => (x, y) ∈ arcs) a.val b.val
  haveI : IsTrans (Fin (n + 1)) r := ⟨fun a b c hab hbc => Relation.TransGen.trans hab hbc⟩
  haveI : IsIrrefl (Fin (n + 1)) r := ⟨fun a => hacyc a.val⟩
  have wf : WellFounded r := Finite.wellFounded_of_trans_of_irrefl r
  let S : Set (Fin (n + 1)) := {a | 1 ≤ a.val ∧ a.val ∉ st.popped}
  have hS : S.Nonempty := ⟨⟨v0, by omega⟩, hv1, hv3⟩
  obtain ⟨m, hm, hmin⟩ := wf.has_min S hS
  obtain ⟨hm1, hm2⟩ := hm
  have hmn : m.val ≤ n := by have := m.isLt; omega
  have hc : st.cnt m.val ≠ 0 := by
    intro hc
    rcases hlab m.val hm1 hmn with hl | hl
    · have : m.val ∈ st.q1 := (h.q1 m.val).2 ⟨⟨hm1, hmn⟩, hm2, hc, hl⟩
      rw [hq1] at this; exact absurd this (List.not_mem_nil _)
    · have : m.val ∈ st.q2 := (h.q2 m.val).2 ⟨⟨hm1, hmn⟩, hm2, hc, hl⟩
      rw [hq2] at this; exact absurd this (List.not_mem_nil _)
  have hpend : pending arcs st.popped m.val ≠ 0 := by
    have := h.cnt m.val; simp at this; omega
  rw [Ne, sup_pending_zero] at hpend
  push_neg at hpend
  obtain ⟨a, ha, ha2, ha1⟩ := hpend
  have har := ctx.inr a ha
  have hu : (⟨a.1, by omega⟩ : Fin (n + 1)) ∈ S := ⟨har.1.1, ha1⟩
  apply hmin _ hu
  show Relation.TransGen (fun x y => (x, y) ∈ arcs) a.1 m.val
  apply Relation.TransGen.single
  show (a.1, m.val) ∈ arcs
  rw [← ha2]; exact ha

end Supercomputer

namespace Supercomputer

theorem sup_append_eq_self {α : Type} (A B : List α) (h : A = A ++ B) : B = [] := by
  have := congrArg List.length h
  simp at this
  exact this

/-- The bound on the counter across one iteration of the main loop, in terms of what is
left of a runnable list after each of the two inner loops. -/
theorem sup_cost_step (ds : Nat → Int) (d1 d2 : Int) (hne : d1 ≠ d2)
    (rest rest1 rest2 : List Nat) (b2 b1 : Nat)
    (h1 : cost ds d1 rest1 ≤ cost ds d1 rest) (h2 : cost ds d2 rest2 ≤ cost ds d2 rest1)
    (hh1 : ∀ v r, rest1 = v :: r → ds v = d2) (hh2 : ∀ v r, rest2 = v :: r → ds v = d1)
    (e1 : rest1 = [] → b2 = 0 ∧ b1 = 0 ∧ rest2 = []) (e2 : rest2 = [] → b1 = 0)
    (hb2 : b2 ≤ 1) (hb1 : b1 ≤ 1) :
    b2 + b1 + cost ds d1 rest2 ≤ cost ds d1 rest := by
  cases hr1 : rest1 with
  | nil =>
    obtain ⟨a, b, c⟩ := e1 hr1
    rw [a, b, c]; simp [cost]
  | cons v r =>
    have hv := hh1 v r hr1
    have hc1 : cost ds d1 rest1 = 1 + cost ds d2 rest1 := by
      rw [hr1, sup_cost_head ds d1 v r (by rw [hv]; exact fun e => hne e.symm), hv]
    cases hr2 : rest2 with
    | nil =>
      have := e2 hr2
      rw [this]; simp only [cost]; omega
    | cons u r2 =>
      have hu := hh2 u r2 hr2
      have hc2 : cost ds d2 rest2 = 1 + cost ds d1 rest2 := by
        rw [hr2, sup_cost_head ds d2 u r2 (by rw [hu]; exact hne), hu]
      rw [← hr2]; omega

/-- The main loop ends within the bounds with both queues empty; the tasks it popped
start with one of data set `d1` when `q1` was not empty; the switches of the popping order
are at most the counter, and the counter grew by at most the cost of any runnable list
of the tasks that were left. -/
theorem sup_main_loop_spec {n : Nat} {arcs : List (Nat × Nat)} {ds : Nat → Int}
    {d1 d2 : Int} (ctx : Ctx n arcs d1 d2)
    (hlab : ∀ v, 1 ≤ v → v ≤ n → ds v = d1 ∨ ds v = d2) (inner : Nat) :
    ∀ (fuel : Nat) (st : State), Inv n arcs ds d1 d2 [] st →
      n < inner + st.popped.length → n < fuel + st.popped.length →
      ((switches ds st.popped + (if st.q1 = [] then 0 else jump ds st.popped d1) : Nat) : Int)
        ≤ st.context_switches →
      ∃ st2, main_loop (adj arcs) ds d1 d2 inner fuel st = some st2 ∧
        Inv n arcs ds d1 d2 [] st2 ∧ st2.q1 = [] ∧ st2.q2 = [] ∧
        (∃ B, st2.popped = st.popped ++ B ∧
          (st.q1 ≠ [] → ∃ b B2, B = b :: B2 ∧ ds b = d1)) ∧
        ((switches ds st2.popped : Nat) : Int) ≤ st2.context_switches ∧
        (∀ rest, Valid arcs st.popped rest →
          (∀ v, 1 ≤ v → v ≤ n → v ∈ st.popped ∨ v ∈ rest) →
          (∀ v ∈ rest, 1 ≤ v ∧ v ≤ n) →
          st2.context_switches ≤ st.context_switches + ((cost ds d1 rest : Nat) : Int)) := by
  intro fuel
  induction fuel with
  | zero =>
    intro st h _ hf _
    have := sup_popped_length h
    omega
  | succ fuel ih =>
    intro st h hin hf hpsi
    rw [main_loop]
    by_cases hemp : st.q1 = [] ∧ st.q2 = []
    · have hcond : st.q1.isEmpty = true ∧ st.q2.isEmpty = true := by
        simp [hemp.1, hemp.2]
      rw [if_pos hcond]
      refine ⟨st, rfl, h, hemp.1, hemp.2, ⟨[], by simp, fun hne => absurd hemp.1 hne⟩, ?_, ?_⟩
      · rw [if_pos hemp.1] at hpsi; simpa using hpsi
      · intro rest _ _ _; omega
    · have hcond : ¬ (st.q1.isEmpty = true ∧ st.q2.isEmpty = true) := by
        simpa [List.isEmpty_iff] using hemp
      rw [if_neg hcond]
      obtain ⟨s1, B1, e1, i1, q1e, c1, p1, u1, same1, ne1⟩ := sup_drain_q1 ctx inner st h hin
      rw [e1]
      simp only
      have i2 : Inv n arcs ds d1 d2 [] (count_switch s1.q2 s1) := sup_count_switch_inv _ i1
      obtain ⟨s3, B2, e3, i3, q3e, c3, p3, u3, same3, ne3⟩ :=
        sup_drain_q2 ctx inner (count_switch s1.q2 s1) i2 (by
          rw [sup_count_switch_popped, p1]; simp only [List.length_append]; omega)
      rw [e3]
      simp only
      rw [sup_count_switch_popped] at p3
      rw [sup_count_switch_q2] at same3 ne3
      rw [sup_count_switch_cs, c1] at c3
      have hB1 : st.q1 = [] → B1 = [] := by
        intro hq
        have := same1 hq
        rw [this] at p1
        exact sup_append_eq_self _ _ p1
      have hB2 : s1.q2 = [] → B2 = [] := by
        intro hq
        have := same3 hq
        rw [this, sup_count_switch_popped] at p3
        exact sup_append_eq_self _ _ p3
      have hq13 : s1.q2 = [] → s3.q1 = [] := by
        intro hq
        rw [same3 hq, sup_count_switch_q1]; exact q1e
      have hlen : st.popped.length + 1 ≤ s3.popped.length := by
        rw [p3, p1]
        simp only [List.length_append]
        by_cases hq1 : st.q1 = []
        · have hq2 : st.q2 ≠ [] := fun e => hemp ⟨hq1, e⟩
          have hs : s1 = st := same1 hq1
          have := ne3 (by rw [hs]; exact hq2)
          have := List.length_pos.2 this
          omega
        · have := List.length_pos.2 (ne1 hq1)
          omega
      have hsw1 : ((switches ds s1.popped : Nat) : Int) ≤ st.context_switches := by
        by_cases hq1 : st.q1 = []
        · rw [p1, hB1 hq1, List.append_nil]
          rw [if_pos hq1] at hpsi; simpa using hpsi
        · rw [p1, sup_switches_append ds d1 B1 (ne1 hq1) u1]
          rw [if_neg hq1] at hpsi; exact hpsi
      have hsw3 : ((switches ds s3.popped : Nat) : Int)
          ≤ st.context_switches + (if s1.q2 = [] then 0 else 1) := by
        by_cases hq2 : s1.q2 = []
        · rw [p3, hB2 hq2, List.append_nil, if_pos hq2]; simpa using hsw1
        · rw [p3, sup_switches_append ds d2 B2 (ne3 hq2) u3, if_neg hq2]
          have := sup_jump_le ds s1.popped d2
          push_cast
          omega
      have hpsi4 : ((switches ds (count_switch s3.q1 s3).popped +
          (if (count_switch s3.q1 s3).q1 = [] then 0
            else jump ds (count_switch s3.q1 s3).popped d1) : Nat) : Int)
          ≤ (count_switch s3.q1 s3).context_switches := by
        rw [sup_count_switch_popped, sup_count_switch_q1, sup_count_switch_cs, c3]
        have := sup_jump_le ds s3.popped d1
        by_cases hq : s3.q1 = []
        · rw [if_pos hq, if_pos hq]; simpa using hsw3
        · rw [if_neg hq, if_neg hq]; push_cast; omega
      obtain ⟨st2, r1, r2, r3, r4, ⟨B3, r5, _⟩, r6, r7⟩ :=
        ih (count_switch s3.q1 s3) (sup_count_switch_inv _ i3)
          (by rw [sup_count_switch_popped]; omega) (by rw [sup_count_switch_popped]; omega)
          hpsi4
      refine ⟨st2, r1, r2, r3, r4, ⟨B1 ++ B2 ++ B3, ?_, ?_⟩, r6, ?_⟩
      · rw [r5, sup_count_switch_popped, p3, p1]; simp
      · intro hq1
        have hne := ne1 hq1
        cases B1 with
        | nil => exact absurd rfl hne
        | cons b B1 => exact ⟨b, B1 ++ B2 ++ B3, by simp, u1 b (List.mem_cons_self _ _)⟩
      · intro rest hval hcov hrange
        obtain ⟨v1, cov1, rng1, ne1r, hd1⟩ := sup_rest_after hlab s1 i1 q1e st.popped rest
          (by intro x hx; rw [p1]; exact List.mem_append_left _ hx) hval hcov hrange
        obtain ⟨v2, cov2, rng2, ne2r, hd2⟩ := sup_rest_after
          (fun v a b => (hlab v a b).symm) (swap s3) (sup_inv_swap i3) q3e s1.popped _
          (by intro x hx; show x ∈ s3.popped; rw [p3]; exact List.mem_append_left _ hx)
          v1 cov1 rng1
        have hfin := r7 _ (by rw [sup_count_switch_popped]; exact v2)
          (by rw [sup_count_switch_popped]; exact cov2) rng2
        rw [sup_count_switch_cs, c3] at hfin
        have hstep := sup_cost_step ds d1 d2 ctx.ne rest _ _
          (if s1.q2 = [] then 0 else 1) (if s3.q1 = [] then 0 else 1)
          (sup_cost_filter_le ds _ rest d1) (sup_cost_filter_le ds _ _ d2) hd1 hd2
          (by
            intro hr1
            have hq2 : s1.q2 = [] := by
              by_contra hq2; exact ne1r hq2 hr1
            refine ⟨by rw [if_pos hq2], by rw [if_pos (hq13 hq2)], ?_⟩
            rw [hr1]; rfl)
          (by
            intro hr2
            have hq1 : s3.q1 = [] := by
              by_contra hq1; exact ne2r hq1 hr2
            rw [if_pos hq1])
          (by split <;> omega) (by split <;> omega)
        have hcast : (((if s1.q2 = [] then 0 else 1 : Nat) : Int)
            = (if s1.q2 = [] then (0 : Int) else 1)) := by split <;> rfl
        have hcast2 : (((if s3.q1 = [] then 0 else 1 : Nat) : Int)
            = (if s3.q1 = [] then (0 : Int) else 1)) := by split <;> rfl
        have hstep2 : (((if s1.q2 = [] then 0 else 1 : Nat) : Int)
            + ((if s3.q1 = [] then 0 else 1 : Nat) : Int)
            + ((cost ds d1 ((rest.filter (fun v => decide (v ∉ s1.popped))).filter
                (fun v => decide (v ∉ (swap s3).popped))) : Nat) : Int))
            ≤ ((cost ds d1 rest : Nat) : Int) := by
          exact_mod_cast hstep
        rw [hcast, hcast2] at hstep2
        linarith

end Supercomputer

namespace Supercomputer

theorem sup_ctx_of_dag (n : Nat) (arcs : List (Nat × Nat)) (switched : Bool)
    (hdag : IsDAG n arcs) (hW : arcs.length < W) :
    Ctx n arcs (if switched then 2 else 1) (if switched then 1 else 2) :=
  { few := hW
    ne := by cases switched <;> decide
    inr := hdag.1 }

theorem sup_labels (n : Nat) (ds : Nat → Int) (switched : Bool)
    (hlab : ∀ v, 1 ≤ v → v ≤ n → ds v = 1 ∨ ds v = 2) :
    ∀ v, 1 ≤ v → v ≤ n →
      ds v = (if switched then 2 else 1) ∨ ds v = (if switched then 1 else 2) := by
  intro v h1 h2
  cases switched
  · simpa using hlab v h1 h2
  · simpa using (hlab v h1 h2).symm

/-- The run of `topo_sort_cnt` on a DAG: it ends, the popping order is a topological
ordering whose switches are at most the counter, the counter is at most the cost of
every topological ordering run from the starting data set, and the popping order starts
with a task of the starting data set when `q1` is not empty at the start. -/
theorem sup_run_spec (fuel n : Nat) (sets : List Int) (arcs : List (Nat × Nat))
    (switched : Bool) (hdag : IsDAG n arcs) (hW : arcs.length < W)
    (hlab : ∀ v, 1 ≤ v → v ≤ n → data_set sets v = 1 ∨ data_set sets v = 2)
    (hfuel : n < fuel) :
    ∃ st, topo_sort_run fuel n sets arcs switched = some st ∧
      IsTopo n arcs st.popped ∧
      ((switches (data_set sets) st.popped : Nat) : Int) ≤ st.context_switches ∧
      (∀ ord, IsTopo n arcs ord → st.context_switches
        ≤ ((cost (data_set sets) (if switched then 2 else 1) ord : Nat) : Int)) ∧
      ((start n sets arcs switched).q1 ≠ [] →
        ∃ b B, st.popped = b :: B ∧ data_set sets b = (if switched then 2 else 1)) := by
  have ctx := sup_ctx_of_dag n arcs switched hdag hW
  have hl := sup_labels n (data_set sets) switched hlab
  obtain ⟨hinv, hp0, hc0⟩ := sup_start_inv sets switched ctx
  obtain ⟨st, r1, r2, r3, r4, ⟨B, r5, r5b⟩, r6, r7⟩ :=
    sup_main_loop_spec ctx hl fuel fuel (start n sets arcs switched) hinv
      (by rw [hp0]; simpa using hfuel) (by rw [hp0]; simpa using hfuel)
      (by rw [hp0, hc0]; simp [switches, sup_jump_nil])
  have hall := sup_all_popped ctx hl hdag.2 st r2 r3 r4
  refine ⟨st, r1, ⟨r2.nodup, ?_, ?_⟩, r6, ?_, ?_⟩
  · intro v
    exact ⟨fun hv => r2.range v hv, fun hv => hall v hv.1 hv.2⟩
  · intro a ha
    have har := hdag.1 a ha
    exact (r2.resp a ha (hall a.2 har.2.1 har.2.2)).2
  · intro ord hord
    have := r7 ord (by rw [hp0]; exact sup_valid_of_topo n arcs ord hdag.1 hord)
      (fun v h1 h2 => Or.inr ((hord.2.1 v).2 ⟨h1, h2⟩))
      (fun v hv => (hord.2.1 v).1 hv)
    rw [hc0] at this
    simpa using this
  · intro hq
    obtain ⟨b, B2, hB, hb⟩ := r5b hq
    exact ⟨b, B2, by rw [r5, hp0, hB]; rfl, hb⟩

theorem sup_cost_of_head (ds : Nat → Int) (d : Int) (b : Nat) (B : List Nat)
    (h : ds b = d) : cost ds d (b :: B) = switches ds (b :: B) := by
  rw [← h]; exact sup_cost_eq_switches ds B b

/-- C10 (supercomputer): on a DAG with labels in {1, 2}, when some task without
dependencies requires the starting data set of `topo_sort_cnt(switched)`, the call
returns the minimum number of context switches among the topological orderings whose
first task requires the starting data set: that number is reached by such an ordering
and no such ordering has fewer switches. -/
theorem supercomputer_topo_sort_cnt_minimal (fuel n : Nat) (sets : List Int)
    (arcs : List (Nat × Nat)) (switched : Bool) (hdag : IsDAG n arcs)
    (hW : arcs.length < W)
    (hlab : ∀ v, 1 ≤ v → v ≤ n → data_set sets v = 1 ∨ data_set sets v = 2)
    (hfuel : n < fuel)
    (hsrc : ∃ v, (1 ≤ v ∧ v ≤ n) ∧ (∀ a ∈ arcs, a.2 ≠ v) ∧
      data_set sets v = (if switched then 2 else 1)) :
    ∃ r, topo_sort_cnt fuel n sets arcs switched = some r ∧
      (∃ b B, IsTopo n arcs (b :: B) ∧ data_set sets b = (if switched then 2 else 1) ∧
        ((switches (data_set sets) (b :: B) : Nat) : Int) = r) ∧
      (∀ b B, IsTopo n arcs (b :: B) → data_set sets b = (if switched then 2 else 1) →
        r ≤ ((switches (data_set sets) (b :: B) : Nat) : Int)) := by
  obtain ⟨st, h1, h2, h3, h4, h5⟩ := sup_run_spec fuel n sets arcs switched hdag hW hlab hfuel
  have ctx := sup_ctx_of_dag n arcs switched hdag hW
  obtain ⟨hinv, hp0, _⟩ := sup_start_inv sets switched ctx
  have hq : (start n sets arcs switched).q1 ≠ [] := by
    obtain ⟨v, hr, hno, hd⟩ := hsrc
    have hc : (start n sets arcs switched).cnt v = 0 := by
      have := hinv.cnt v
      rw [hp0] at this
      simp only [List.count_nil, Nat.add_zero] at this
      rw [this, sup_pending_zero]
      intro a ha hav
      exact absurd hav (hno a ha)
    have : v ∈ (start n sets arcs switched).q1 :=
      (hinv.q1 v).2 ⟨hr, by rw [hp0]; exact List.not_mem_nil _, hc, hd⟩
    exact List.ne_nil_of_mem this
  obtain ⟨b, B, hP, hb⟩ := h5 hq
  refine ⟨st.context_switches, ?_, ⟨b, B, by rw [← hP]; exact h2, hb, ?_⟩, ?_⟩
  · unfold topo_sort_cnt; rw [h1]; rfl
  · have hub := h4 _ h2
    rw [hP, sup_cost_of_head _ _ b B hb] at hub
    rw [hP] at h3
    omega
  · intro b2 B2 hord hb2
    have := h4 _ hord
    rw [sup_cost_of_head _ _ b2 B2 hb2] at this
    exact this

/-- C3 (supercomputer): on a DAG on the tasks `1..n`, `n ≥ 1`, with labels in {1, 2},
`Task::get_result` returns the minimum over all topological orderings of the number of
adjacent positions whose tasks have different data sets: the value is reached by a
topological ordering and no topological ordering has fewer switches. -/
theorem supercomputer_get_result_minimal (fuel n : Nat) (sets : List Int)
    (arcs : List (Nat × Nat)) (hdag : IsDAG n arcs) (hW : arcs.length < W)
    (hlab : ∀ v, 1 ≤ v → v ≤ n → data_set sets v = 1 ∨ data_set sets v = 2)
    (hfuel : n < fuel) (hn : 1 ≤ n) :
    ∃ r, get_result fuel n sets arcs = some r ∧
      (∃ ord, IsTopo n arcs ord ∧ ((switches (data_set sets) ord : Nat) : Int) = r) ∧
      (∀ ord, IsTopo n arcs ord → r ≤ ((switches (data_set sets) ord : Nat) : Int)) := by
  obtain ⟨sf, f1, f2, f3, f4, _⟩ := sup_run_spec fuel n sets arcs false hdag hW hlab hfuel
  obtain ⟨st, t1, t2, t3, t4, _⟩ := sup_run_spec fuel n sets arcs true hdag hW hlab hfuel
  have hlow : ∀ ord, IsTopo n arcs ord →
      min sf.context_switches st.context_switches
        ≤ ((switches (data_set sets) ord : Nat) : Int) := by
    intro ord hord
    have h1mem : 1 ∈ ord := (hord.2.1 1).2 ⟨le_refl _, hn⟩
    cases hO : ord with
    | nil => rw [hO] at h1mem; exact absurd h1mem (List.not_mem_nil _)
    | cons b B =>
      have hbr := (hord.2.1 b).1 (by rw [hO]; exact List.mem_cons_self _ _)
      rcases hlab b hbr.1 hbr.2 with hb | hb
      · have := f4 ord hord
        rw [hO] at this
        simp only [Bool.false_eq_true, if_false] at this
        rw [sup_cost_of_head _ _ b B hb] at this
        exact le_trans (min_le_left _ _) this
      · have := t4 ord hord
        rw [hO] at this
        simp only [if_true] at this
        rw [sup_cost_of_head _ _ b B hb] at this
        exact le_trans (min_le_right _ _) this
  refine ⟨min sf.context_switches st.context_switches, ?_, ?_, hlow⟩
  · unfold get_result topo_sort_cnt
    rw [f1, t1]; rfl
  · by_cases hle : sf.context_switches ≤ st.context_switches
    · refine ⟨sf.popped, f2, ?_⟩
      have := hlow _ f2
      rw [min_eq_left hle] at this ⊢
      omega
    · have hle2 : st.context_switches ≤ sf.context_switches := by omega
      refine ⟨st.popped, t2, ?_⟩
      have := hlow _ t2
      rw [min_eq_right hle2] at this ⊢
      omega

/-- A graph whose arcs all go from a smaller to a larger node has no cycle. -/
theorem sup_acyclic_of_increasing (arcs : List (Nat × Nat)) (h : ∀ a ∈ arcs, a.1 < a.2) :
    ∀ v, ¬ Relation.TransGen (fun x y => (x, y) ∈ arcs) v v := by
  have key : ∀ x y, Relation.TransGen (fun x y => (x, y) ∈ arcs) x y → x < y := by
    intro x y hxy
    induction hxy with
    | single hab => exact h _ hab
    | tail _ hbc ih => exact lt_trans ih (h _ hbc)
  intro v hv
  exact absurd (key v v hv) (lt_irrefl v)

theorem sup_chain_dag : IsDAG 3 [(1, 2), (2, 3)] :=
  ⟨by decide, sup_acyclic_of_increasing _ (by decide)⟩

theorem sup_chain_labels : ∀ v, 1 ≤ v → v ≤ 3 →
    data_set [1, 2, 1] v = 1 ∨ data_set [1, 2, 1] v = 2 := by
  intro v h1 h2
  interval_cases v <;> decide

/-- Witness for C10: the chain 1 → 2 → 3 with the data sets 1, 2, 1 and the start from
data set 1; the call returns 2. -/
theorem supercomputer_topo_sort_cnt_minimal_witness :
    IsDAG 3 [(1, 2), (2, 3)] ∧ topo_sort_cnt 4 3 [1, 2, 1] [(1, 2), (2, 3)] false = some 2 ∧
    ∃ r, topo_sort_cnt 4 3 [1, 2, 1] [(1, 2), (2, 3)] false = some r ∧
      (∃ b B, IsTopo 3 [(1, 2), (2, 3)] (b :: B) ∧
        data_set [1, 2, 1] b = (if false then 2 else 1) ∧
        ((switches (data_set [1, 2, 1]) (b :: B) : Nat) : Int) = r) ∧
      (∀ b B, IsTopo 3 [(1, 2), (2, 3)] (b :: B) →
        data_set [1, 2, 1] b = (if false then 2 else 1) →
        r ≤ ((switches (data_set [1, 2, 1]) (b :: B) : Nat) : Int)) :=
  ⟨sup_chain_dag, by decide,
    supercomputer_topo_sort_cnt_minimal 4 3 [1, 2, 1] [(1, 2), (2, 3)] false sup_chain_dag
      (by decide) sup_chain_labels (by decide) ⟨1, by decide, by decide, by decide⟩⟩

/-- Witness for C3: the chain 1 → 2 → 3 with the data sets 1, 2, 1; the result is 2. -/
theorem supercomputer_get_result_minimal_witness :
    IsDAG 3 [(1, 2), (2, 3)] ∧ get_result 4 3 [1, 2, 1] [(1, 2), (2, 3)] = some 2 ∧
    ∃ r, get_result 4 3 [1, 2, 1] [(1, 2), (2, 3)] = some r ∧
      (∃ ord, IsTopo 3 [(1, 2), (2, 3)] ord ∧
        ((switches (data_set [1, 2, 1]) ord : Nat) : Int) = r) ∧
      (∀ ord, IsTopo 3 [(1, 2), (2, 3)] ord →
        r ≤ ((switches (data_set [1, 2, 1]) ord : Nat) : Int)) :=
  ⟨sup_chain_dag, by decide,
    supercomputer_get_result_minimal 4 3 [1, 2, 1] [(1, 2), (2, 3)] sup_chain_dag
      (by decide) sup_chain_labels (by decide) (by decide)⟩

end Supercomputer

namespace Supercomputer

/-- C11 (supercomputer): on a DAG on the tasks `1..n` with labels in {1, 2}, for each value
of `switched`, the run of `topo_sort_cnt` ends and the sequence of the tasks popped from
the two queues holds every task of `1..n` exactly once and is a topological ordering:
for every arc `(x, y)`, `x` is popped before `y`. -/
theorem supercomputer_popped_is_topological (fuel n : Nat) (sets : List Int)
    (arcs : List (Nat × Nat)) (switched : Bool) (hdag : IsDAG n arcs)
    (hW : arcs.length < W)
    (hlab : ∀ v, 1 ≤ v → v ≤ n → data_set sets v = 1 ∨ data_set sets v = 2)
    (hfuel : n < fuel) :
    ∃ st, topo_sort_run fuel n sets arcs switched = some st ∧
      st.popped.Nodup ∧ (∀ v, v ∈ st.popped ↔ 1 ≤ v ∧ v ≤ n) ∧
      st.popped.Perm (List.range' 1 n) ∧
      ∀ a ∈ arcs, a.1 ∈ st.popped ∧ a.2 ∈ st.popped ∧
        st.popped.indexOf a.1 < st.popped.indexOf a.2 := by
  obtain ⟨st, h1, h2, _, _, _⟩ := sup_run_spec fuel n sets arcs switched hdag hW hlab hfuel
  refine ⟨st, h1, h2.1, h2.2.1, ?_, ?_⟩
  · rw [List.perm_ext_iff_of_nodup h2.1 (List.nodup_range' _ _)]
    intro v
    rw [h2.2.1 v, List.mem_range'_1]
    omega
  · intro a ha
    have har := hdag.1 a ha
    exact ⟨(h2.2.1 a.1).2 har.1, (h2.2.1 a.2).2 har.2, h2.2.2 a ha⟩

/-- Witness for C11: the chain 1 → 2 → 3 with the data sets 1, 2, 1, started from data
set 2; the tasks are popped in the order 1, 2, 3. -/
theorem supercomputer_popped_is_topological_witness :
    IsDAG 3 [(1, 2), (2, 3)] ∧
    (topo_sort_run 4 3 [1, 2, 1] [(1, 2), (2, 3)] true).map (fun st => st.popped)
      = some [1, 2, 3] ∧
    ∃ st, topo_sort_run 4 3 [1, 2, 1] [(1, 2), (2, 3)] true = some st ∧
      st.popped.Nodup ∧ (∀ v, v ∈ st.popped ↔ 1 ≤ v ∧ v ≤ 3) ∧
      st.popped.Perm (List.range' 1 3) ∧
      ∀ a ∈ [((1 : Nat), (2 : Nat)), (2, 3)], a.1 ∈ st.popped ∧ a.2 ∈ st.popped ∧
        st.popped.indexOf a.1 < st.popped.indexOf a.2 :=
  ⟨sup_chain_dag, by decide,
    supercomputer_popped_is_topological 4 3 [1, 2, 1] [(1, 2), (2, 3)] true sup_chain_dag
      (by decide) sup_chain_labels (by decide)⟩

end Supercomputer

namespace Supercomputer

theorem sup_state_eq (a b : State) (h1 : a.q1 = b.q1) (h2 : a.q2 = b.q2)
    (h3 : a.cnt = b.cnt) (h4 : a.context_switches = b.context_switches)
    (h5 : a.popped = b.popped) : a = b := by
  cases a; cases b
  simp only at h1 h2 h3 h4 h5
  subst h1; subst h2; subst h3; subst h4; subst h5
  rfl

theorem sup_shift_shift (a b : Int) (st : State) : shift a (shift b st) = shift (b + a) st := by
  apply sup_state_eq <;> try rfl
  show st.context_switches + b + a = st.context_switches + (b + a)
  omega

theorem sup_shift_zero (st : State) : shift 0 st = st := by
  apply sup_state_eq <;> try rfl
  show st.context_switches + 0 = st.context_switches
  omega

theorem sup_relax_shift (ds : Nat → Int) (d1 d2 : Int) (k : Int) (st : State) (v : Nat) :
    relax ds d1 d2 (shift k st) v = shift k (relax ds d1 d2 st v) := by
  apply sup_state_eq <;> rfl

theorem sup_fold_shift (ds : Nat → Int) (d1 d2 : Int) (k : Int) :
    ∀ (l : List Nat) (st : State),
    l.foldl (relax ds d1 d2) (shift k st) = shift k (l.foldl (relax ds d1 d2) st) := by
  intro l
  induction l with
  | nil => intro st; rfl
  | cons v l ih =>
    intro st
    rw [List.foldl_cons, List.foldl_cons, sup_relax_shift, ih]

theorem sup_drain_q1_shift (adj : Nat → List Nat) (ds : Nat → Int) (d1 d2 : Int) (k : Int) :
    ∀ (fuel : Nat) (st : State),
    drain_q1 adj ds d1 d2 fuel (shift k st) = (drain_q1 adj ds d1 d2 fuel st).map (shift k) := by
  intro fuel
  induction fuel with
  | zero => intro st; rfl
  | succ fuel ih =>
    intro st
    rw [drain_q1, drain_q1]
    show (match st.q1 with
      | [] => some (shift k st)
      | node :: rest => _) = Option.map (shift k) (match st.q1 with
      | [] => some st
      | node :: rest => _)
    cases st.q1 with
    | nil => rfl
    | cons node rest =>
      simp only
      rw [← ih, ← sup_fold_shift]
      rfl

theorem sup_swap_shift (k : Int) (st : State) : swap (shift k st) = shift k (swap st) := rfl

theorem sup_drain_q2_shift (adj : Nat → List Nat) (ds : Nat → Int) (d1 d2 : Int) (k : Int)
    (fuel : Nat) (st : State) :
    drain_q2 adj ds d1 d2 fuel (shift k st) = (drain_q2 adj ds d1 d2 fuel st).map (shift k) := by
  rw [sup_drain_q2_eq, sup_drain_q2_eq, sup_swap_shift, sup_drain_q1_shift]
  cases drain_q1 adj ds d2 d1 fuel (swap st) with
  | none => rfl
  | some s => rfl

theorem sup_count_switch_shift (q : List Nat) (k : Int) (st : State) :
    count_switch q (shift k st) = shift k (count_switch q st) := by
  unfold count_switch
  split
  · rfl
  · apply sup_state_eq <;> try rfl
    show st.context_switches + k + 1 = st.context_switches + 1 + k
    omega

theorem sup_count_switch_swap (q : List Nat) (st : State) :
    count_switch q (swap st) = swap (count_switch q st) := by
  unfold count_switch
  split <;> rfl

theorem sup_count_switch_nil (st : State) : count_switch [] st = st := rfl

theorem sup_count_switch_cons (a : Nat) (q : List Nat) (st : State) :
    count_switch (a :: q) st = shift 1 st := rfl

theorem sup_drain_q1_nil (adj : Nat → List Nat) (ds : Nat → Int) (d1 d2 : Int)
    (fuel : Nat) (st : State) (hq : st.q1 = []) :
    drain_q1 adj ds d1 d2 (fuel + 1) st = some st := by
  rw [drain_q1, hq]

theorem sup_drain_q1_empties (adj : Nat → List Nat) (ds : Nat → Int) (d1 d2 : Int) :
    ∀ (fuel : Nat) (st s1 : State), drain_q1 adj ds d1 d2 fuel st = some s1 → s1.q1 = [] := by
  intro fuel
  induction fuel with
  | zero => intro st s1 h; simp [drain_q1] at h
  | succ fuel ih =>
    intro st s1 h
    rw [drain_q1] at h
    cases hq : st.q1 with
    | nil =>
      rw [hq] at h
      simp only [Option.some.injEq] at h
      rw [← h]; exact hq
    | cons node rest =>
      rw [hq] at h
      exact ih _ _ h

theorem sup_drain_q2_nil (adj : Nat → List Nat) (ds : Nat → Int) (d1 d2 : Int)
    (fuel : Nat) (st : State) (hq : st.q2 = []) :
    drain_q2 adj ds d1 d2 (fuel + 1) st = some st := by
  rw [drain_q2, hq]

theorem sup_drain_q2_empties (adj : Nat → List Nat) (ds : Nat → Int) (d1 d2 : Int)
    (fuel : Nat) (st s1 : State) (h : drain_q2 adj ds d1 d2 fuel st = some s1) :
    s1.q2 = [] := by
  rw [sup_drain_q2_eq] at h
  cases h2 : drain_q1 adj ds d2 d1 fuel (swap st) with
  | none => rw [h2] at h; simp at h
  | some s =>
    rw [h2] at h
    simp only [Option.map_some', Option.some.injEq] at h
    rw [← h]
    exact sup_drain_q1_empties adj ds d2 d1 fuel _ _ h2

theorem sup_main_loop_succ (adj : Nat → List Nat) (ds : Nat → Int) (d1 d2 : Int)
    (inner fuel : Nat) (st : State) :
    main_loop adj ds d1 d2 inner (fuel + 1) st =
      if st.q1.isEmpty ∧ st.q2.isEmpty then some st
      else
        match drain_q1 adj ds d1 d2 inner st with
        | none => none
        | some s1 => second_half adj ds d1 d2 inner fuel (count_switch s1.q2 s1) := by
  rw [main_loop]
  rfl

/-- A run of the main loop that starts with `q2` empty is mirrored, from the second half of
an iteration on, by the run with the two data sets and the two queues exchanged. -/
theorem sup_simulation (adj : Nat → List Nat) (ds : Nat → Int) (d1 d2 : Int) (inner : Nat)
    (k : Int) :
    ∀ (f : Nat) (st rA : State), st.q2 = [] →
      main_loop adj ds d1 d2 (inner + 1) f st = some rA →
      second_half adj ds d2 d1 (inner + 1) f (shift k (swap st)) = some (shift k (swap rA)) := by
  intro f
  induction f with
  | zero => intro st rA _ h; simp [main_loop] at h
  | succ f ih =>
    intro st rA hq2 h
    rw [sup_main_loop_succ] at h
    by_cases hemp : st.q1.isEmpty = true ∧ st.q2.isEmpty = true
    · rw [if_pos hemp] at h
      simp only [Option.some.injEq] at h
      subst h
      have hq1 : st.q1 = [] := List.isEmpty_iff.1 hemp.1
      unfold second_half
      rw [sup_drain_q2_nil _ _ _ _ _ _ (by show st.q1 = []; exact hq1)]
      simp only
      have e1 : (shift k (swap st)).q1 = [] := hq2
      rw [e1, sup_count_switch_nil, sup_main_loop_succ]
      have hc : (shift k (swap st)).q1.isEmpty = true ∧ (shift k (swap st)).q2.isEmpty = true := by
        refine ⟨?_, ?_⟩
        · show st.q2.isEmpty = true; exact hemp.2
        · show st.q1.isEmpty = true; exact hemp.1
      rw [if_pos hc]
    · rw [if_neg hemp] at h
      cases h1 : drain_q1 adj ds d1 d2 (inner + 1) st with
      | none => rw [h1] at h; simp at h
      | some s1 =>
        rw [h1] at h
        simp only at h
        have hs1q : s1.q1 = [] := sup_drain_q1_empties _ _ _ _ _ _ _ h1
        -- the second half of the mirrored run equals the first half of this one
        have hB1 : drain_q2 adj ds d2 d1 (inner + 1) (shift k (swap st))
            = some (shift k (swap s1)) := by
          rw [sup_drain_q2_shift, sup_drain_q2_eq]
          show Option.map (shift k) (Option.map swap (drain_q1 adj ds d1 d2 (inner + 1) st)) = _
          rw [h1]; rfl
        unfold second_half
        rw [hB1]
        simp only
        have e1 : (shift k (swap s1)).q1 = s1.q2 := rfl
        rw [e1, sup_count_switch_shift, sup_count_switch_swap, sup_main_loop_succ]
        unfold second_half at h
        cases h3 : drain_q2 adj ds d1 d2 (inner + 1) (count_switch s1.q2 s1) with
        | none => rw [h3] at h; simp at h
        | some s3 =>
          rw [h3] at h
          simp only at h
          have hs3q : s3.q2 = [] := sup_drain_q2_empties _ _ _ _ _ _ _ h3
          by_cases hq : s1.q2 = []
          · -- nothing left: both runs stop
            have hc : (shift k (swap (count_switch s1.q2 s1))).q1.isEmpty = true ∧
                (shift k (swap (count_switch s1.q2 s1))).q2.isEmpty = true := by
              rw [hq, sup_count_switch_nil]
              refine ⟨?_, ?_⟩
              · show s1.q2.isEmpty = true; rw [hq]; rfl
              · show s1.q1.isEmpty = true; rw [hs1q]; rfl
            rw [if_pos hc]
            rw [hq, sup_count_switch_nil] at h3 ⊢
            obtain ⟨i2, hi2⟩ : ∃ i2, inner + 1 = i2 + 1 := ⟨inner, rfl⟩
            rw [sup_drain_q2_nil _ _ _ _ _ _ hq] at h3
            simp only [Option.some.injEq] at h3
            subst h3
            rw [hs1q, sup_count_switch_nil] at h
            cases f with
            | zero => simp [main_loop] at h
            | succ f =>
              rw [sup_main_loop_succ] at h
              have hc2 : s1.q1.isEmpty = true ∧ s1.q2.isEmpty = true := by
                rw [hs1q, hq]; exact ⟨rfl, rfl⟩
              rw [if_pos hc2] at h
              simp only [Option.some.injEq] at h
              rw [h]
          · have hc : ¬ ((shift k (swap (count_switch s1.q2 s1))).q1.isEmpty = true ∧
                (shift k (swap (count_switch s1.q2 s1))).q2.isEmpty = true) := by
              intro hcc
              have : s1.q2.isEmpty = true := by
                have := hcc.1
                rw [show (shift k (swap (count_switch s1.q2 s1))).q1
                  = (count_switch s1.q2 s1).q2 from rfl, sup_count_switch_q2] at this
                exact this
              exact hq (List.isEmpty_iff.1 this)
            rw [if_neg hc]
            have hB2 : drain_q1 adj ds d2 d1 (inner + 1)
                (shift k (swap (count_switch s1.q2 s1))) = some (shift k (swap s3)) := by
              rw [sup_drain_q1_shift]
              have := sup_drain_q2_eq adj ds d1 d2 (inner + 1) (count_switch s1.q2 s1)
              rw [h3] at this
              cases h4 : drain_q1 adj ds d2 d1 (inner + 1) (swap (count_switch s1.q2 s1)) with
              | none => rw [h4] at this; simp at this
              | some s =>
                rw [h4] at this
                simp only [Option.map_some', Option.some.injEq] at this
                rw [this]; rfl
            rw [hB2]
            simp only
            have e2 : (shift k (swap s3)).q2 = s3.q1 := rfl
            rw [e2, sup_count_switch_shift, sup_count_switch_swap]
            exact ih (count_switch s3.q1 s3) rA
              (by rw [sup_count_switch_q2]; exact hs3q) h

end Supercomputer

namespace Supercomputer

/-- The main loop ends within the bounds on every graph, acyclic or not. -/
theorem sup_main_loop_term {n : Nat} {arcs : List (Nat × Nat)} {ds : Nat → Int}
    {d1 d2 : Int} (ctx : Ctx n arcs d1 d2) (inner : Nat) :
    ∀ (fuel : Nat) (st : State), Inv n arcs ds d1 d2 [] st →
      n < inner + st.popped.length → n < fuel + st.popped.length →
      ∃ st2, main_loop (adj arcs) ds d1 d2 inner fuel st = some st2 := by
  intro fuel
  induction fuel with
  | zero =>
    intro st h _ hf
    have := sup_popped_length h
    omega
  | succ fuel ih =>
    intro st h hin hf
    rw [main_loop]
    by_cases hemp : st.q1 = [] ∧ st.q2 = []
    · have hcond : st.q1.isEmpty = true ∧ st.q2.isEmpty = true := by
        simp [hemp.1, hemp.2]
      rw [if_pos hcond]
      exact ⟨st, rfl⟩
    · have hcond : ¬ (st.q1.isEmpty = true ∧ st.q2.isEmpty = true) := by
        simpa [List.isEmpty_iff] using hemp
      rw [if_neg hcond]
      obtain ⟨s1, B1, e1, i1, q1e, c1, p1, u1, same1, ne1⟩ := sup_drain_q1 ctx inner st h hin
      rw [e1]
      simp only
      have i2 : Inv n arcs ds d1 d2 [] (count_switch s1.q2 s1) := sup_count_switch_inv _ i1
      obtain ⟨s3, B2, e3, i3, q3e, c3, p3, u3, same3, ne3⟩ :=
        sup_drain_q2 ctx inner (count_switch s1.q2 s1) i2 (by
          rw [sup_count_switch_popped, p1]; simp only [List.length_append]; omega)
      rw [e3]
      simp only
      rw [sup_count_switch_popped] at p3
      rw [sup_count_switch_q2] at ne3
      have hlen : st.popped.length + 1 ≤ s3.popped.length := by
        rw [p3, p1]
        simp only [List.length_append]
        by_cases hq1 : st.q1 = []
        · have hq2 : st.q2 ≠ [] := fun e => hemp ⟨hq1, e⟩
          have hs : s1 = st := same1 hq1
          have := ne3 (by rw [hs]; exact hq2)
          have := List.length_pos.2 this
          omega
        · have := List.length_pos.2 (ne1 hq1)
          omega
      exact ih (count_switch s3.q1 s3) (sup_count_switch_inv _ i3)
        (by rw [sup_count_switch_popped]; omega) (by rw [sup_count_switch_popped]; omega)

/-- The start with the other data set is the start with the two queues exchanged. -/
theorem sup_start_not (n : Nat) (sets : List Int) (arcs : List (Nat × Nat))
    (switched : Bool) :
    start n sets arcs (!switched) = swap (start n sets arcs switched) := by
  unfold start
  cases switched
  · rw [sup_init_fold _ _ _ (by decide), sup_init_fold _ _ _ (by decide)]
    rfl
  · rw [sup_init_fold _ _ _ (by decide), sup_init_fold _ _ _ (by decide)]
    rfl

theorem sup_shift_swap_cancel (s s3 : State) (h : shift 1 (swap s) = s3) :
    s = shift (-1) (swap s3) := by
  rw [← h]
  apply sup_state_eq <;> try rfl
  show s.context_switches = s.context_switches + 1 + -1
  omega

/-- C15 (supercomputer): on every input, acyclic or not, when no task of in-degree 0
requires the starting data set of `topo_sort_cnt(switched)` and some task of in-degree 0
requires the other data set, `topo_sort_cnt(switched)` is `topo_sort_cnt(!switched) + 1`. -/
theorem supercomputer_empty_start_costs_one (fuel n : Nat) (sets : List Int)
    (arcs : List (Nat × Nat)) (switched : Bool) (hW : arcs.length < W)
    (hin : ∀ a ∈ arcs, (1 ≤ a.1 ∧ a.1 ≤ n) ∧ (1 ≤ a.2 ∧ a.2 ≤ n))
    (hfuel : n < fuel)
    (hnone : ∀ v, 1 ≤ v → v ≤ n → (∀ a ∈ arcs, a.2 ≠ v) →
      data_set sets v ≠ (if switched then 2 else 1))
    (hsome : ∃ v, (1 ≤ v ∧ v ≤ n) ∧ (∀ a ∈ arcs, a.2 ≠ v) ∧
      data_set sets v = (if switched then 1 else 2)) :
    ∃ r, topo_sort_cnt fuel n sets arcs (!switched) = some r ∧
      topo_sort_cnt fuel n sets arcs switched = some (r + 1) := by
  have ctx : Ctx n arcs (if switched then 2 else 1) (if switched then 1 else 2) :=
    { few := hW, ne := by cases switched <;> decide, inr := hin }
  obtain ⟨hinv, hp0, hc0⟩ := sup_start_inv sets switched ctx
  have hcnt : ∀ v, (start n sets arcs switched).cnt v = 0 ↔ ∀ a ∈ arcs, a.2 ≠ v := by
    intro v
    have := hinv.cnt v
    rw [hp0] at this
    simp only [List.count_nil, Nat.add_zero] at this
    rw [this, sup_pending_zero]
    constructor
    · intro h a ha hav
      exact absurd (h a ha hav) (List.not_mem_nil _)
    · intro h a ha hav
      exact absurd hav (h a ha)
  have hq1 : (start n sets arcs switched).q1 = [] := by
    apply List.eq_nil_iff_forall_not_mem.2
    intro v hv
    obtain ⟨hr, _, hc, hd⟩ := (hinv.q1 v).1 hv
    exact hnone v hr.1 hr.2 ((hcnt v).1 hc) hd
  obtain ⟨v0, q2tl, hq2⟩ : ∃ v0 q2tl, (start n sets arcs switched).q2 = v0 :: q2tl := by
    obtain ⟨v, hr, hno, hd⟩ := hsome
    have : v ∈ (start n sets arcs switched).q2 :=
      (hinv.q2 v).2 ⟨hr, by rw [hp0]; exact List.not_mem_nil _, (hcnt v).2 hno, hd⟩
    cases hq : (start n sets arcs switched).q2 with
    | nil => rw [hq] at this; exact absurd this (List.not_mem_nil _)
    | cons a l => exact ⟨a, l, rfl⟩
  obtain ⟨f, rfl⟩ : ∃ f, fuel = f + 1 := ⟨fuel - 1, by omega⟩
  obtain ⟨rA, hA⟩ := sup_main_loop_term ctx (f + 1) (f + 1) (start n sets arcs switched) hinv
    (by rw [hp0]; simpa using hfuel) (by rw [hp0]; simpa using hfuel)
  have hA0 := hA
  rw [sup_main_loop_succ] at hA
  have hne : ¬ ((start n sets arcs switched).q1.isEmpty = true ∧
      (start n sets arcs switched).q2.isEmpty = true) := by
    rw [hq2]; simp
  rw [if_neg hne, sup_drain_q1_nil _ _ _ _ _ _ hq1] at hA
  simp only at hA
  rw [hq2, sup_count_switch_cons] at hA
  unfold second_half at hA
  cases h3 : drain_q2 (adj arcs) (data_set sets) (if switched then 2 else 1)
      (if switched then 1 else 2) (f + 1) (shift 1 (start n sets arcs switched)) with
  | none => rw [h3] at hA; simp at hA
  | some s3 =>
    rw [h3] at hA
    simp only at hA
    have hs3q : s3.q2 = [] := sup_drain_q2_empties _ _ _ _ _ _ _ h3
    -- the run with the other data set
    have hB1 : drain_q1 (adj arcs) (data_set sets) (if switched then 1 else 2)
        (if switched then 2 else 1) (f + 1) (swap (start n sets arcs switched))
        = some (shift (-1) (swap s3)) := by
      rw [sup_drain_q2_shift, sup_drain_q2_eq] at h3
      cases h4 : drain_q1 (adj arcs) (data_set sets) (if switched then 1 else 2)
          (if switched then 2 else 1) (f + 1) (swap (start n sets arcs switched)) with
      | none => rw [h4] at h3; simp at h3
      | some s =>
        rw [h4] at h3
        simp only [Option.map_some', Option.some.injEq] at h3
        rw [sup_shift_swap_cancel s s3 h3]
    have hsim := sup_simulation (adj arcs) (data_set sets) (if switched then 2 else 1)
      (if switched then 1 else 2) f (-1) f (count_switch s3.q1 s3) rA
      (by rw [sup_count_switch_q2]; exact hs3q) hA
    have hB : topo_sort_run (f + 1) n sets arcs (!switched)
        = some (shift (-1) (swap rA)) := by
      unfold topo_sort_run
      rw [sup_start_not]
      have hd1 : (if (!switched) = true then (2 : Int) else 1) = (if switched then 1 else 2) := by
        cases switched <;> rfl
      have hd2 : (if (!switched) = true then (1 : Int) else 2) = (if switched then 2 else 1) := by
        cases switched <;> rfl
      rw [hd1, hd2, sup_main_loop_succ]
      have hneB : ¬ ((swap (start n sets arcs switched)).q1.isEmpty = true ∧
          (swap (start n sets arcs switched)).q2.isEmpty = true) := by
        intro hc
        have : (start n sets arcs switched).q2.isEmpty = true := hc.1
        rw [hq2] at this
        simp at this
      rw [if_neg hneB, hB1]
      simp only
      have e : (shift (-1) (swap s3)).q2 = s3.q1 := rfl
      rw [e, sup_count_switch_shift, sup_count_switch_swap]
      exact hsim
    refine ⟨rA.context_switches + -1, ?_, ?_⟩
    · unfold topo_sort_cnt
      rw [hB]; rfl
    · unfold topo_sort_cnt topo_sort_run
      rw [hA0]
      simp

/-- Witness for C15: three tasks with the data sets 2, 1, 1, the arcs 1 → 2, 2 → 3 and
3 → 2 (a cycle), started from data set 1: the only task of in-degree 0 is task 1, of data
set 2. The two calls return 1 and 0. -/
theorem supercomputer_empty_start_costs_one_witness :
    topo_sort_cnt 4 3 [2, 1, 1] [(1, 2), (2, 3), (3, 2)] false = some 1 ∧
    topo_sort_cnt 4 3 [2, 1, 1] [(1, 2), (2, 3), (3, 2)] true = some 0 ∧
    ∃ r, topo_sort_cnt 4 3 [2, 1, 1] [(1, 2), (2, 3), (3, 2)] (!false) = some r ∧
      topo_sort_cnt 4 3 [2, 1, 1] [(1, 2), (2, 3), (3, 2)] false = some (r + 1) :=
  ⟨by decide, by decide,
    supercomputer_empty_start_costs_one 4 3 [2, 1, 1] [(1, 2), (2, 3), (3, 2)] false
      (by decide) (by decide) (by decide)
      (by
        intro v h1 h2 hno
        interval_cases v
        · decide
        · exact absurd rfl (hno (1, 2) (by decide))
        · exact absurd rfl (hno (2, 3) (by decide)))
      ⟨1, by decide, by decide, by decide⟩⟩

end Supercomputer

namespace Teleportare

theorem tel_gcd_aux_eq : ∀ (fuel a b : Nat), b < fuel → gcd_aux fuel a b = Nat.gcd a b := by
  intro fuel
  induction fuel with
  | zero => intro a b h; omega
  | succ fuel ih =>
    intro a b h
    rw [gcd_aux]
    by_cases hb : b = 0
    · rw [if_pos hb, hb, Nat.gcd_zero_right]
    · rw [if_neg hb, ih b (a % b) (by have := Nat.mod_lt a (Nat.pos_of_ne_zero hb); omega)]
      rw [Nat.gcd_comm a b, Nat.gcd_rec b a, Nat.gcd_comm]

theorem tel_gcd_eq (a b : Nat) : gcd a b = Nat.gcd a b :=
  tel_gcd_aux_eq (b + 1) a b (Nat.lt_succ_self b)

theorem tel_lcm_eq (a b : Nat) : lcm a b = Nat.lcm a b := by
  unfold lcm Nat.lcm
  rw [tel_gcd_eq]

theorem tel_read_corridors_mem : ∀ (cs : List (Nat × Nat × Nat))
    (a : Nat → List (Nat × Nat)) (u v w : Nat),
    (v, w) ∈ read_corridors cs a u ↔ (v, w) ∈ a u ∨ Joins cs u v w := by
  intro cs
  induction cs with
  | nil =>
    intro a u v w
    simp [read_corridors, Joins]
  | cons e rest ih =>
    intro a u v w
    obtain ⟨x, y, c⟩ := e
    rw [read_corridors, ih]
    have hJ : Joins ((x, y, c) :: rest) u v w ↔
        (c = w ∧ ((x = u ∧ y = v) ∨ (x = v ∧ y = u))) ∨ Joins rest u v w := by
      unfold Joins
      simp only [List.mem_cons, exists_eq_or_imp]
    rw [hJ]
    have hmem : (v, w) ∈ upd (upd a x (a x ++ [(y, c)])) y
          (upd a x (a x ++ [(y, c)]) y ++ [(x, c)]) u ↔
        (v, w) ∈ a u ∨ (c = w ∧ ((x = u ∧ y = v) ∨ (x = v ∧ y = u))) := by
      unfold upd
      by_cases h1 : u = y <;> by_cases h2 : u = x
      · subst h1; subst h2
        simp only [if_true, List.mem_append, List.mem_singleton, Prod.mk.injEq]
        aesop
      · subst h1
        simp only [if_true, if_neg h2, List.mem_append, List.mem_singleton, Prod.mk.injEq]
        aesop
      · subst h2
        simp only [if_neg h1, if_true, List.mem_append, List.mem_singleton, Prod.mk.injEq]
        aesop
      · simp only [if_neg h1, if_neg h2]
        aesop
    rw [hmem]
    tauto

theorem tel_mem_adj (cs : List (Nat × Nat × Nat)) (u v w : Nat) :
    (v, w) ∈ adj cs u ↔ Joins cs u v w := by
  unfold adj
  rw [tel_read_corridors_mem]
  simp

theorem tel_read_portals_fst : ∀ (ps : List (Nat × Nat × Nat))
    (s : (Nat → List (Nat × Nat)) × Nat),
    (read_portals ps s).1 = read_corridors ps s.1 := by
  intro ps
  induction ps with
  | nil => intro s; rfl
  | cons e rest ih =>
    intro s
    obtain ⟨x, y, p⟩ := e
    obtain ⟨padj, l⟩ := s
    rw [read_portals, ih, read_corridors]

theorem tel_read_portals_snd : ∀ (ps : List (Nat × Nat × Nat))
    (s : (Nat → List (Nat × Nat)) × Nat),
    (read_portals ps s).2 = ps.foldl (fun l e => Nat.lcm l e.2.2) s.2 := by
  intro ps
  induction ps with
  | nil => intro s; rfl
  | cons e rest ih =>
    intro s
    obtain ⟨x, y, p⟩ := e
    obtain ⟨padj, l⟩ := s
    rw [read_portals, ih, List.foldl_cons, tel_lcm_eq]

theorem tel_mem_portal_adj (ps : List (Nat × Nat × Nat)) (u v p : Nat) :
    (v, p) ∈ portal_adj ps u ↔ Joins ps u v p := by
  unfold portal_adj
  rw [tel_read_portals_fst, tel_read_corridors_mem]
  simp

theorem tel_foldl_lcm_dvd : ∀ (ps : List (Nat × Nat × Nat)) (l : Nat),
    l ∣ ps.foldl (fun l e => Nat.lcm l e.2.2) l ∧
      ∀ e ∈ ps, e.2.2 ∣ ps.foldl (fun l e => Nat.lcm l e.2.2) l := by
  intro ps
  induction ps with
  | nil => intro l; simp
  | cons e rest ih =>
    intro l
    rw [List.foldl_cons]
    obtain ⟨h1, h2⟩ := ih (Nat.lcm l e.2.2)
    refine ⟨dvd_trans (Nat.dvd_lcm_left _ _) h1, ?_⟩
    intro e2 he2
    rw [List.mem_cons] at he2
    rcases he2 with he2 | he2
    · subst he2; exact dvd_trans (Nat.dvd_lcm_right _ _) h1
    · exact h2 e2 he2

theorem tel_foldl_lcm_pos : ∀ (ps : List (Nat × Nat × Nat)) (l : Nat), 0 < l →
    (∀ e ∈ ps, 1 ≤ e.2.2) → 0 < ps.foldl (fun l e => Nat.lcm l e.2.2) l := by
  intro ps
  induction ps with
  | nil => intro l hl _; exact hl
  | cons e rest ih =>
    intro l hl hp
    rw [List.foldl_cons]
    apply ih
    · exact Nat.lcm_pos hl (hp e (List.mem_cons_self _ _))
    · intro e2 he2; exact hp e2 (List.mem_cons_of_mem _ he2)

/-- Every period divides `lcm_aux`. -/
theorem tel_period_dvd (ps : List (Nat × Nat × Nat)) (u v p : Nat) (h : Joins ps u v p) :
    p ∣ lcm_aux ps := by
  unfold lcm_aux
  rw [tel_read_portals_snd]
  obtain ⟨e, he, hp, _⟩ := h
  rw [← hp]
  exact (tel_foldl_lcm_dvd ps 1).2 e he

theorem tel_lcm_aux_pos (ps : List (Nat × Nat × Nat)) (hp : ∀ e ∈ ps, 1 ≤ e.2.2) :
    0 < lcm_aux ps := by
  unfold lcm_aux
  rw [tel_read_portals_snd]
  exact tel_foldl_lcm_pos ps 1 Nat.one_pos hp

/-- When `lcm_aux` ends below `PMAX`, every product that `Task::lcm` computes while the
portals are read is below 2 to the power 31: `lcm_aux` before a portal and the period of
the portal both divide the final `lcm_aux`. The `int` product of the code is then the
product of natural numbers of `lcm`. -/
theorem tel_lcm_fits_int (pre post : List (Nat × Nat × Nat)) (x y p : Nat)
    (hp : ∀ e ∈ pre ++ (x, y, p) :: post, 1 ≤ e.2.2)
    (hP : lcm_aux (pre ++ (x, y, p) :: post) < PMAX) :
    lcm_aux pre * p < 2147483648 := by
  have hpos := tel_lcm_aux_pos _ hp
  unfold lcm_aux at hP hpos ⊢
  rw [tel_read_portals_snd] at hP hpos ⊢
  rw [List.foldl_append, List.foldl_cons] at hP hpos
  have h1 := (tel_foldl_lcm_dvd post
    (Nat.lcm (pre.foldl (fun l e => Nat.lcm l e.2.2) 1) p)).1
  have h2 : pre.foldl (fun l e => Nat.lcm l e.2.2) 1 ≤ 844 := by
    have := Nat.le_of_dvd hpos (dvd_trans (Nat.dvd_lcm_left _ _) h1)
    unfold PMAX at hP
    simp only at this hP ⊢
    omega
  have h3 : p ≤ 844 := by
    have := Nat.le_of_dvd hpos (dvd_trans (Nat.dvd_lcm_right _ _) h1)
    unfold PMAX at hP
    simp only at this hP ⊢
    omega
  calc pre.foldl (fun l e => Nat.lcm l e.2.2) 1 * p ≤ 844 * 844 := Nat.mul_le_mul h2 h3
    _ < 2147483648 := by norm_num

end Teleportare

namespace Teleportare

theorem tel_fold_min : ∀ (l : List (Nat × Nat)) (a : Nat × Nat),
    l.foldl (fun m b => if pair_le b m then b else m) a ∈ a :: l ∧
    (l.foldl (fun m b => if pair_le b m then b else m) a).1 ≤ a.1 ∧
    ∀ b ∈ l, (l.foldl (fun m b => if pair_le b m then b else m) a).1 ≤ b.1 := by
  intro l
  induction l with
  | nil => intro a; simp
  | cons b l ih =>
    intro a
    rw [List.foldl_cons]
    obtain ⟨h1, h2, h3⟩ := ih (if pair_le b a then b else a)
    have hab : (if pair_le b a then b else a) ∈ [a, b] ∧
        (if pair_le b a then b else a).1 ≤ a.1 ∧ (if pair_le b a then b else a).1 ≤ b.1 := by
      by_cases hp : pair_le b a = true
      · rw [if_pos hp]
        unfold pair_le at hp
        simp only [Bool.or_eq_true, Bool.and_eq_true, decide_eq_true_eq] at hp
        refine ⟨by simp, ?_, le_refl _⟩
        rcases hp with hp | hp <;> omega
      · rw [if_neg hp]
        unfold pair_le at hp
        simp only [Bool.or_eq_true, Bool.and_eq_true, decide_eq_true_eq, not_or, not_and] at hp
        refine ⟨by simp, le_refl _, ?_⟩
        omega
    refine ⟨?_, le_trans h2 hab.2.1, ?_⟩
    · rw [List.mem_cons] at h1
      rcases h1 with h1 | h1
      · rw [h1]
        have := hab.1
        simp only [List.mem_cons, List.mem_singleton, List.not_mem_nil, or_false] at this
        rcases this with h | h
        · rw [h]; exact List.mem_cons_self _ _
        · rw [h]; exact List.mem_cons_of_mem _ (List.mem_cons_self _ _)
      · exact List.mem_cons_of_mem _ (List.mem_cons_of_mem _ h1)
    · intro c hc
      rw [List.mem_cons] at hc
      rcases hc with hc | hc
      · rw [hc]; exact le_trans h2 hab.2.2
      · exact h3 c hc

theorem tel_top_none (pq : List (Nat × Nat)) (h : top pq = none) : pq = [] := by
  cases pq with
  | nil => rfl
  | cons a l => simp [top] at h

theorem tel_top_some (pq : List (Nat × Nat)) (a : Nat × Nat) (h : top pq = some a) :
    a ∈ pq ∧ ∀ b ∈ pq, a.1 ≤ b.1 := by
  cases pq with
  | nil => simp [top] at h
  | cons a0 l =>
    simp only [top, Option.some.injEq] at h
    obtain ⟨h1, h2, h3⟩ := tel_fold_min l a0
    rw [h] at h1 h2 h3
    refine ⟨h1, ?_⟩
    intro b hb
    rw [List.mem_cons] at hb
    rcases hb with hb | hb
    · rw [hb]; exact h2
    · exact h3 b hb

theorem tel_joins_range {n : Nat} {es : List (Nat × Nat × Nat)}
    (hin : ∀ e ∈ es, (1 ≤ e.1 ∧ e.1 ≤ n) ∧ (1 ≤ e.2.1 ∧ e.2.1 ≤ n)) {u v c : Nat}
    (h : Joins es u v c) : (1 ≤ u ∧ u ≤ n) ∧ (1 ≤ v ∧ v ≤ n) := by
  obtain ⟨e, he, _, h2⟩ := h
  have := hin e he
  rcases h2 with ⟨h3, h4⟩ | ⟨h3, h4⟩
  · rw [← h3, ← h4]; exact this
  · rw [← h3, ← h4]; exact ⟨this.2, this.1⟩

/-- An update that lowers one entry of `P[1..n][0..L-1]` lowers the measure, even with one
more pair in the queue. -/
theorem tel_measure_push (n L : Nat) (st : State) (i j c : Nat) (hi : 1 ≤ i ∧ i ≤ n)
    (hj : j < L) (hc : c < st.P i j) :
    measure n L { P := upd2 st.P i j c, pq := (c, i) :: st.pq } < measure n L st := by
  unfold measure
  have hlt : (∑ p in (Finset.Icc 1 n) ×ˢ (Finset.range L), upd2 st.P i j c p.1 p.2)
      < ∑ p in (Finset.Icc 1 n) ×ˢ (Finset.range L), st.P p.1 p.2 := by
    apply Finset.sum_lt_sum
    · intro p _
      unfold upd2
      split
      · rename_i h; rw [h.1, h.2]; omega
      · exact le_refl _
    · refine ⟨(i, j), ?_, ?_⟩
      · simp only [Finset.mem_product, Finset.mem_Icc, Finset.mem_range]
        exact ⟨hi, hj⟩
      · unfold upd2
        simp only [and_self, if_true]
        exact hc
  simp only [List.length_cons]
  omega

theorem tel_relax_corridor {n L : Nat} {cs ps : List (Nat × Nat × Nat)}
    (valid : Valid n cs ps) (hL : 0 < L) (El Ec : Set (Nat × Nat)) (u x : Nat)
    (hw : Walk cs ps u x) (e : Nat × Nat) (he : e ∈ adj cs u) (st : State)
    (h : TInv n L cs ps El Ec st) :
    TInv n L cs ps El Ec (relax_corridor L x st e) ∧
    (∀ a b, (relax_corridor L x st e).P a b ≤ st.P a b) ∧
    (relax_corridor L x st e).P e.1 ((x + e.2) % L) ≤ x + e.2 ∧
    measure n L (relax_corridor L x st e) ≤ measure n L st := by
  have hJ : Joins cs u e.1 e.2 := (tel_mem_adj cs u e.1 e.2).1 he
  have hr := (tel_joins_range valid.cin hJ).2
  have hmod : (x + e.2) % L < L := Nat.mod_lt _ hL
  unfold relax_corridor
  by_cases hc : st.P e.1 ((x + e.2) % L) ≤ x + e.2
  · rw [if_pos hc]
    exact ⟨h, fun a b => le_refl _, hc, le_refl _⟩
  · rw [if_neg hc]
    have hlt : x + e.2 < st.P e.1 ((x + e.2) % L) := by omega
    have hmono : ∀ a b, upd2 st.P e.1 ((x + e.2) % L) (x + e.2) a b ≤ st.P a b := by
      intro a b
      unfold upd2
      split
      · rename_i hab; rw [hab.1, hab.2]; omega
      · exact le_refl _
    refine ⟨?_, hmono, ?_, ?_⟩
    · refine
        { sound_pq := ?_
          sound_P := ?_
          start := ?_
          live := ?_
          closed_c := ?_
          closed_p := ?_
          no_n := h.no_n }
      · intro c v hcv
        change (c, v) ∈ (x + e.2, e.1) :: st.pq at hcv
        rw [List.mem_cons] at hcv
        rcases hcv with hcv | hcv
        · simp only [Prod.mk.injEq] at hcv
          rw [hcv.1, hcv.2]
          exact Walk.corridor hw hJ
        · exact h.sound_pq c v hcv
      · intro v r hv1 hv2 hrL hP
        change upd2 st.P e.1 ((x + e.2) % L) (x + e.2) v r < INF at hP
        show Walk cs ps v (upd2 st.P e.1 ((x + e.2) % L) (x + e.2) v r) ∧
          upd2 st.P e.1 ((x + e.2) % L) (x + e.2) v r % L = r
        unfold upd2 at hP ⊢
        by_cases hvr : v = e.1 ∧ r = (x + e.2) % L
        · rw [if_pos hvr]
          rw [hvr.1, hvr.2]
          exact ⟨Walk.corridor hw hJ, rfl⟩
        · rw [if_neg hvr] at hP ⊢
          exact h.sound_P v r hv1 hv2 hrL hP
      · rcases h.start with hs | hs
        · exact Or.inl (List.mem_cons_of_mem _ hs)
        · exact Or.inr hs
      · intro v r hv1 hv2 hrL hP
        change upd2 st.P e.1 ((x + e.2) % L) (x + e.2) v r < INF at hP
        show (upd2 st.P e.1 ((x + e.2) % L) (x + e.2) v r, v) ∈ (x + e.2, e.1) :: st.pq ∨
          (v, upd2 st.P e.1 ((x + e.2) % L) (x + e.2) v r) ∈ El
        unfold upd2 at hP ⊢
        by_cases hvr : v = e.1 ∧ r = (x + e.2) % L
        · rw [if_pos hvr, hvr.1]
          exact Or.inl (List.mem_cons_self _ _)
        · rw [if_neg hvr] at hP ⊢
          rcases h.live v r hv1 hv2 hrL hP with hl | hl
          · exact Or.inl (List.mem_cons_of_mem _ hl)
          · exact Or.inr hl
      · intro u2 x2 hE e2 he2
        exact le_trans (hmono _ _) (h.closed_c u2 x2 hE e2 he2)
      · intro u2 x2 hE e2 he2 hz
        exact le_trans (hmono _ _) (h.closed_p u2 x2 hE e2 he2 hz)
    · show upd2 st.P e.1 ((x + e.2) % L) (x + e.2) e.1 ((x + e.2) % L) ≤ x + e.2
      unfold upd2
      simp
    · exact le_of_lt (tel_measure_push n L st e.1 ((x + e.2) % L) (x + e.2) hr hmod hlt)

theorem tel_relax_portal {n L : Nat} {cs ps : List (Nat × Nat × Nat)}
    (valid : Valid n cs ps) (hL : 0 < L) (El Ec : Set (Nat × Nat)) (u x : Nat)
    (hw : Walk cs ps u x) (e : Nat × Nat) (he : e ∈ portal_adj ps u) (st : State)
    (h : TInv n L cs ps El Ec st) :
    TInv n L cs ps El Ec (relax_portal L x st e) ∧
    (∀ a b, (relax_portal L x st e).P a b ≤ st.P a b) ∧
    (x % e.2 = 0 → (relax_portal L x st e).P e.1 ((x + 1) % L) ≤ x + 1) ∧
    measure n L (relax_portal L x st e) ≤ measure n L st := by
  have hJ : Joins ps u e.1 e.2 := (tel_mem_portal_adj ps u e.1 e.2).1 he
  have hr := (tel_joins_range valid.pin hJ).2
  have hmod : (x + 1) % L < L := Nat.mod_lt _ hL
  unfold relax_portal
  by_cases hc : st.P e.1 ((x + 1) % L) ≤ x + 1
  · rw [if_pos hc]
    exact ⟨h, fun a b => le_refl _, fun _ => hc, le_refl _⟩
  · rw [if_neg hc]
    by_cases hz : x % e.2 = 0
    · rw [if_pos hz]
      have hlt : x + 1 < st.P e.1 ((x + 1) % L) := by omega
      have hmono : ∀ a b, upd2 st.P e.1 ((x + 1) % L) (x + 1) a b ≤ st.P a b := by
        intro a b
        unfold upd2
        split
        · rename_i hab; rw [hab.1, hab.2]; omega
        · exact le_refl _
      refine ⟨?_, hmono, ?_, ?_⟩
      · refine
          { sound_pq := ?_
            sound_P := ?_
            start := ?_
            live := ?_
            closed_c := ?_
            closed_p := ?_
            no_n := h.no_n }
        · intro c v hcv
          change (c, v) ∈ (x + 1, e.1) :: st.pq at hcv
          rw [List.mem_cons] at hcv
          rcases hcv with hcv | hcv
          · simp only [Prod.mk.injEq] at hcv
            rw [hcv.1, hcv.2]
            exact Walk.portal hw hJ hz
          · exact h.sound_pq c v hcv
        · intro v r hv1 hv2 hrL hP
          change upd2 st.P e.1 ((x + 1) % L) (x + 1) v r < INF at hP
          show Walk cs ps v (upd2 st.P e.1 ((x + 1) % L) (x + 1) v r) ∧
            upd2 st.P e.1 ((x + 1) % L) (x + 1) v r % L = r
          unfold upd2 at hP ⊢
          by_cases hvr : v = e.1 ∧ r = (x + 1) % L
          · rw [if_pos hvr]
            rw [hvr.1, hvr.2]
            exact ⟨Walk.portal hw hJ hz, rfl⟩
          · rw [if_neg hvr] at hP ⊢
            exact h.sound_P v r hv1 hv2 hrL hP
        · rcases h.start with hs | hs
          · exact Or.inl (List.mem_cons_of_mem _ hs)
          · exact Or.inr hs
        · intro v r hv1 hv2 hrL hP
          change upd2 st.P e.1 ((x + 1) % L) (x + 1) v r < INF at hP
          show (upd2 st.P e.1 ((x + 1) % L) (x + 1) v r, v) ∈ (x + 1, e.1) :: st.pq ∨
            (v, upd2 st.P e.1 ((x + 1) % L) (x + 1) v r) ∈ El
          unfold upd2 at hP ⊢
          by_cases hvr : v = e.1 ∧ r = (x + 1) % L
          · rw [if_pos hvr, hvr.1]
            exact Or.inl (List.mem_cons_self _ _)
          · rw [if_neg hvr] at hP ⊢
            rcases h.live v r hv1 hv2 hrL hP with hl | hl
            · exact Or.inl (List.mem_cons_of_mem _ hl)
            · exact Or.inr hl
        · intro u2 x2 hE e2 he2
          exact le_trans (hmono _ _) (h.closed_c u2 x2 hE e2 he2)
        · intro u2 x2 hE e2 he2 hz2
          exact le_trans (hmono _ _) (h.closed_p u2 x2 hE e2 he2 hz2)
      · intro _
        show upd2 st.P e.1 ((x + 1) % L) (x + 1) e.1 ((x + 1) % L) ≤ x + 1
        unfold upd2
        simp
      · exact le_of_lt (tel_measure_push n L st e.1 ((x + 1) % L) (x + 1) hr hmod hlt)
    · rw [if_neg hz]
      exact ⟨h, fun a b => le_refl _, fun hz2 => absurd hz2 hz, le_refl _⟩

end Teleportare

namespace Teleportare

/-- The loop of `get_result` is the iteration of `step`. -/
theorem tel_dijkstra_succ (n L : Nat) (adj padj : Nat → List (Nat × Nat)) (fuel : Nat)
    (st : State) :
    dijkstra n L adj padj (fuel + 1) st =
      match step n L adj padj st with
      | none => some (exit_value st)
      | some st2 => dijkstra n L adj padj fuel st2 := by
  rw [dijkstra]
  unfold step exit_value
  cases htop : top st.pq with
  | none => rfl
  | some a =>
    obtain ⟨c, v⟩ := a
    simp only
    by_cases h1 : v = n
    · rw [if_pos h1, if_pos h1]
    · rw [if_neg h1, if_neg h1]
      by_cases h2 : st.P v (c % L) < c
      · rw [if_pos h2, if_pos h2]
      · rw [if_neg h2, if_neg h2]

theorem tel_fold_corridor {n L : Nat} {cs ps : List (Nat × Nat × Nat)}
    (valid : Valid n cs ps) (hL : 0 < L) (El Ec : Set (Nat × Nat)) (u x : Nat)
    (hw : Walk cs ps u x) : ∀ (l : List (Nat × Nat)) (st : State),
    (∀ e ∈ l, e ∈ adj cs u) → TInv n L cs ps El Ec st →
    TInv n L cs ps El Ec (l.foldl (relax_corridor L x) st) ∧
    (∀ a b, (l.foldl (relax_corridor L x) st).P a b ≤ st.P a b) ∧
    (∀ e ∈ l, (l.foldl (relax_corridor L x) st).P e.1 ((x + e.2) % L) ≤ x + e.2) ∧
    measure n L (l.foldl (relax_corridor L x) st) ≤ measure n L st := by
  intro l
  induction l with
  | nil =>
    intro st _ h
    exact ⟨h, fun _ _ => le_refl _, fun e he => absurd he (List.not_mem_nil _), le_refl _⟩
  | cons e l ih =>
    intro st hsub h
    rw [List.foldl_cons]
    obtain ⟨r1, r2, r3, r4⟩ := tel_relax_corridor valid hL El Ec u x hw e
      (hsub e (List.mem_cons_self _ _)) st h
    obtain ⟨i1, i2, i3, i4⟩ := ih (relax_corridor L x st e)
      (fun e2 h2 => hsub e2 (List.mem_cons_of_mem _ h2)) r1
    refine ⟨i1, fun a b => le_trans (i2 a b) (r2 a b), ?_, le_trans i4 r4⟩
    intro e2 he2
    rw [List.mem_cons] at he2
    rcases he2 with he2 | he2
    · rw [he2]; exact le_trans (i2 _ _) r3
    · exact i3 e2 he2

theorem tel_fold_portal {n L : Nat} {cs ps : List (Nat × Nat × Nat)}
    (valid : Valid n cs ps) (hL : 0 < L) (El Ec : Set (Nat × Nat)) (u x : Nat)
    (hw : Walk cs ps u x) : ∀ (l : List (Nat × Nat)) (st : State),
    (∀ e ∈ l, e ∈ portal_adj ps u) → TInv n L cs ps El Ec st →
    TInv n L cs ps El Ec (l.foldl (relax_portal L x) st) ∧
    (∀ a b, (l.foldl (relax_portal L x) st).P a b ≤ st.P a b) ∧
    (∀ e ∈ l, x % e.2 = 0 → (l.foldl (relax_portal L x) st).P e.1 ((x + 1) % L) ≤ x + 1) ∧
    measure n L (l.foldl (relax_portal L x) st) ≤ measure n L st := by
  intro l
  induction l with
  | nil =>
    intro st _ h
    exact ⟨h, fun _ _ => le_refl _, fun e he => absurd he (List.not_mem_nil _), le_refl _⟩
  | cons e l ih =>
    intro st hsub h
    rw [List.foldl_cons]
    obtain ⟨r1, r2, r3, r4⟩ := tel_relax_portal valid hL El Ec u x hw e
      (hsub e (List.mem_cons_self _ _)) st h
    obtain ⟨i1, i2, i3, i4⟩ := ih (relax_portal L x st e)
      (fun e2 h2 => hsub e2 (List.mem_cons_of_mem _ h2)) r1
    refine ⟨i1, fun a b => le_trans (i2 a b) (r2 a b), ?_, le_trans i4 r4⟩
    intro e2 he2 hz
    rw [List.mem_cons] at he2
    rcases he2 with he2 | he2
    · rw [he2] at hz ⊢; exact le_trans (i2 _ _) (r3 hz)
    · exact i3 e2 he2 hz

theorem tel_measure_erase (n L : Nat) (st : State) (a : Nat × Nat) (ha : a ∈ st.pq) :
    measure n L { st with pq := st.pq.erase a } + 1 = measure n L st := by
  unfold measure
  show 2 * (∑ p in (Finset.Icc 1 n) ×ˢ (Finset.range L), st.P p.1 p.2)
    + (st.pq.erase a).length + 1 = _
  rw [List.length_erase_of_mem ha]
  have := List.length_pos_of_mem ha
  omega

/-- The state after popping the pair `(c, v)` keeps the invariant, with `(v, c)` counted
as expanded when the pair is not skipped. -/
theorem tel_pop_inv {n L : Nat} {cs ps : List (Nat × Nat × Nat)} (E : Set (Nat × Nat))
    (st : State) (c v : Nat) (h : TInv n L cs ps E E st) (hvn : v ≠ n) :
    (st.P v (c % L) < c → TInv n L cs ps E E { st with pq := st.pq.erase (c, v) }) ∧
    TInv n L cs ps (insert (v, c) E) E { st with pq := st.pq.erase (c, v) } := by
  have hlive : ∀ (El : Set (Nat × Nat)), (∀ p ∈ E, p ∈ El) →
      ((v, c) ∈ El ∨ st.P v (c % L) < c) →
      ∀ a r, 1 ≤ a → a ≤ n → r < L → st.P a r < INF →
        (st.P a r, a) ∈ st.pq.erase (c, v) ∨ (a, st.P a r) ∈ El := by
    intro El hsub hcase a r ha1 ha2 hr hP
    rcases h.live a r ha1 ha2 hr hP with hl | hl
    · by_cases heq : (st.P a r, a) = (c, v)
      · simp only [Prod.mk.injEq] at heq
        rcases hcase with hc | hc
        · right; rw [heq.1, heq.2]; exact hc
        · exfalso
          have hmod := (h.sound_P a r ha1 ha2 hr hP).2
          rw [heq.1] at hmod
          rw [hmod, ← heq.2, heq.1] at hc
          exact lt_irrefl _ hc
      · exact Or.inl ((List.mem_erase_of_ne heq).2 hl)
    · exact Or.inr (hsub _ hl)
  constructor
  · intro hskip
    refine
      { sound_pq := fun c2 v2 hm => h.sound_pq c2 v2 (List.mem_of_mem_erase hm)
        sound_P := h.sound_P
        start := ?_
        live := hlive E (fun p hp => hp) (Or.inr hskip)
        closed_c := h.closed_c
        closed_p := h.closed_p
        no_n := h.no_n }
    rcases h.start with hs | hs
    · left
      apply (List.mem_erase_of_ne _).2 hs
      intro heq
      simp only [Prod.mk.injEq] at heq
      rw [← heq.1] at hskip
      exact absurd hskip (Nat.not_lt_zero _)
    · exact Or.inr hs
  · refine
      { sound_pq := fun c2 v2 hm => h.sound_pq c2 v2 (List.mem_of_mem_erase hm)
        sound_P := h.sound_P
        start := ?_
        live := hlive (insert (v, c) E) (fun p hp => Set.mem_insert_of_mem _ hp)
          (Or.inl (Set.mem_insert _ _))
        closed_c := h.closed_c
        closed_p := h.closed_p
        no_n := ?_ }
    · rcases h.start with hs | hs
      · by_cases heq : ((0 : Nat), (1 : Nat)) = (c, v)
        · right
          simp only [Prod.mk.injEq] at heq
          rw [← heq.1, ← heq.2]
          exact Set.mem_insert _ _
        · exact Or.inl ((List.mem_erase_of_ne heq).2 hs)
      · exact Or.inr (Set.mem_insert_of_mem _ hs)
    · intro x hx
      rw [Set.mem_insert_iff] at hx
      rcases hx with hx | hx
      · simp only [Prod.mk.injEq] at hx
        exact hvn hx.1.symm
      · exact h.no_n x hx

/-- A walk ends in a room of `1..n`. -/
theorem tel_walk_range {n : Nat} {cs ps : List (Nat × Nat × Nat)} (valid : Valid n cs ps)
    (hn : 1 ≤ n) {v t : Nat} (h : Walk cs ps v t) : 1 ≤ v ∧ v ≤ n := by
  cases h with
  | start => exact ⟨le_refl _, hn⟩
  | corridor _ hj => exact (tel_joins_range valid.cin hj).2
  | portal _ hj _ => exact (tel_joins_range valid.pin hj).2

/-- One iteration of the loop keeps the invariant, lowers the measure and raises no
entry of `P`. -/
theorem tel_step_inv {n L : Nat} {cs ps : List (Nat × Nat × Nat)} (valid : Valid n cs ps)
    (hn : 1 ≤ n) (hL : 0 < L) (E : Set (Nat × Nat)) (st st2 : State)
    (h : TInv n L cs ps E E st)
    (hs : step n L (adj cs) (portal_adj ps) st = some st2) :
    (∃ E2, TInv n L cs ps E2 E2 st2) ∧ measure n L st2 < measure n L st ∧
      ∀ a b, st2.P a b ≤ st.P a b := by
  unfold step at hs
  cases htop : top st.pq with
  | none => rw [htop] at hs; simp at hs
  | some a =>
    obtain ⟨c, v⟩ := a
    rw [htop] at hs
    simp only at hs
    have hmem := (tel_top_some st.pq (c, v) htop).1
    have hw := h.sound_pq c v hmem
    have hv := tel_walk_range valid hn hw
    by_cases h1 : v = n
    · rw [if_pos h1] at hs; simp at hs
    · rw [if_neg h1] at hs
      obtain ⟨hskip, hexp⟩ := tel_pop_inv E st c v h h1
      have hme := tel_measure_erase n L st (c, v) hmem
      by_cases h2 : st.P v (c % L) < c
      · rw [if_pos h2] at hs
        simp only [Option.some.injEq] at hs
        subst hs
        exact ⟨⟨E, hskip h2⟩, by omega, fun _ _ => le_refl _⟩
      · rw [if_neg h2] at hs
        simp only [Option.some.injEq] at hs
        obtain ⟨a1, a2, a3, a4⟩ := tel_fold_corridor valid hL (insert (v, c) E) E v c hw
          (adj cs v) { st with pq := st.pq.erase (c, v) } (fun e he => he) hexp
        obtain ⟨b1, b2, b3, b4⟩ := tel_fold_portal valid hL (insert (v, c) E) E v c hw
          (portal_adj ps v) _ (fun e he => he) a1
        rw [hs] at b1 b2 b3 b4
        refine ⟨⟨insert (v, c) E, ?_⟩, by omega, fun a b => le_trans (b2 a b) (a2 a b)⟩
        refine
          { sound_pq := b1.sound_pq
            sound_P := b1.sound_P
            start := b1.start
            live := b1.live
            closed_c := ?_
            closed_p := ?_
            no_n := b1.no_n }
        · intro u x hE e he
          rw [Set.mem_insert_iff] at hE
          rcases hE with hE | hE
          · simp only [Prod.mk.injEq] at hE
            rw [hE.1] at he
            rw [hE.2]
            exact le_trans (b2 _ _) (a3 e he)
          · exact b1.closed_c u x hE e he
        · intro u x hE e he hz
          rw [Set.mem_insert_iff] at hE
          rcases hE with hE | hE
          · simp only [Prod.mk.injEq] at hE
            rw [hE.1] at he
            rw [hE.2] at hz ⊢
            exact b3 e he hz
          · exact b1.closed_p u x hE e he hz

theorem tel_INF_val : INF = 1152921504606846976 := rfl

/-- The invariant holds when the loop starts. -/
theorem tel_init_inv (n L : Nat) (cs ps : List (Nat × Nat × Nat)) :
    TInv n L cs ps ∅ ∅ (init n L) := by
  refine
    { sound_pq := ?_
      sound_P := ?_
      start := Or.inl (List.mem_singleton_self _)
      live := ?_
      closed_c := fun u x hE => absurd hE (Set.not_mem_empty _)
      closed_p := fun u x hE => absurd hE (Set.not_mem_empty _)
      no_n := fun x hx => absurd hx (Set.not_mem_empty _) }
  · intro c v hcv
    change (c, v) ∈ [(0, 1)] at hcv
    rw [List.mem_singleton] at hcv
    simp only [Prod.mk.injEq] at hcv
    rw [hcv.1, hcv.2]
    exact Walk.start
  · intro v r h1 h2 hr hP
    change (if 1 ≤ v ∧ v ≤ n ∧ r ≤ L then INF else 0) < INF at hP
    rw [if_pos ⟨h1, h2, le_of_lt hr⟩] at hP
    exact absurd hP (lt_irrefl _)
  · intro v r h1 h2 hr hP
    change (if 1 ≤ v ∧ v ≤ n ∧ r ≤ L then INF else 0) < INF at hP
    rw [if_pos ⟨h1, h2, le_of_lt hr⟩] at hP
    exact absurd hP (lt_irrefl _)

theorem tel_init_measure (n L : Nat) : measure n L (init n L) = 2 * (n * L * INF) + 1 := by
  unfold measure
  have hsum : (∑ p in (Finset.Icc 1 n) ×ˢ (Finset.range L), (init n L).P p.1 p.2)
      = ∑ _p in (Finset.Icc 1 n) ×ˢ (Finset.range L), INF := by
    apply Finset.sum_congr rfl
    intro p hp
    simp only [Finset.mem_product, Finset.mem_Icc, Finset.mem_range] at hp
    show (if 1 ≤ p.1 ∧ p.1 ≤ n ∧ p.2 ≤ L then INF else 0) = INF
    rw [if_pos ⟨hp.1.1, hp.1.2, le_of_lt hp.2⟩]
  rw [hsum, Finset.sum_const, Finset.card_product, Nat.card_Icc, Finset.card_range]
  show 2 * ((n + 1 - 1) * L * INF) + 1 = _
  rw [Nat.add_sub_cancel]

end Teleportare

namespace Teleportare

theorem tel_relax_corridor_frame (L x : Nat) (hL : 0 < L) (st : State) (e : Nat × Nat)
    (a : Nat) : (relax_corridor L x st e).P a L = st.P a L := by
  unfold relax_corridor
  split
  · rfl
  · show upd2 st.P e.1 ((x + e.2) % L) (x + e.2) a L = st.P a L
    unfold upd2
    have := Nat.mod_lt (x + e.2) hL
    rw [if_neg (by omega)]

theorem tel_relax_portal_frame (L x : Nat) (hL : 0 < L) (st : State) (e : Nat × Nat)
    (a : Nat) : (relax_portal L x st e).P a L = st.P a L := by
  unfold relax_portal
  split
  · rfl
  · split
    · show upd2 st.P e.1 ((x + 1) % L) (x + 1) a L = st.P a L
      unfold upd2
      have := Nat.mod_lt (x + 1) hL
      rw [if_neg (by omega)]
    · rfl

theorem tel_fold_corridor_frame (L x : Nat) (hL : 0 < L) (a : Nat) :
    ∀ (l : List (Nat × Nat)) (st : State),
    (l.foldl (relax_corridor L x) st).P a L = st.P a L := by
  intro l
  induction l with
  | nil => intro st; rfl
  | cons e l ih =>
    intro st
    rw [List.foldl_cons, ih, tel_relax_corridor_frame L x hL]

theorem tel_fold_portal_frame (L x : Nat) (hL : 0 < L) (a : Nat) :
    ∀ (l : List (Nat × Nat)) (st : State),
    (l.foldl (relax_portal L x) st).P a L = st.P a L := by
  intro l
  induction l with
  | nil => intro st; rfl
  | cons e l ih =>
    intro st
    rw [List.foldl_cons, ih, tel_relax_portal_frame L x hL]

/-- The entries `P[v][L]` are never written. -/
theorem tel_step_frame (n L : Nat) (adj padj : Nat → List (Nat × Nat)) (hL : 0 < L)
    (st st2 : State) (hs : step n L adj padj st = some st2) (a : Nat) :
    st2.P a L = st.P a L := by
  unfold step at hs
  cases htop : top st.pq with
  | none => rw [htop] at hs; simp at hs
  | some p =>
    obtain ⟨c, v⟩ := p
    rw [htop] at hs
    simp only at hs
    by_cases h1 : v = n
    · rw [if_pos h1] at hs; simp at hs
    · rw [if_neg h1] at hs
      by_cases h2 : st.P v (c % L) < c
      · rw [if_pos h2] at hs
        simp only [Option.some.injEq] at hs
        rw [← hs]
      · rw [if_neg h2] at hs
        simp only [Option.some.injEq] at hs
        rw [← hs, tel_fold_portal_frame L c hL, tel_fold_corridor_frame L c hL]

/-- Every state at the head of an iteration satisfies the invariant, and no entry of `P`
is above its first value. -/
theorem tel_iterate_inv {n L : Nat} {cs ps : List (Nat × Nat × Nat)} (valid : Valid n cs ps)
    (hn : 1 ≤ n) (hL : 0 < L) : ∀ (k : Nat) (st0 st : State) (E : Set (Nat × Nat)),
    TInv n L cs ps E E st0 → iterate n L (adj cs) (portal_adj ps) k st0 = some st →
    (∃ E2, TInv n L cs ps E2 E2 st) ∧ (∀ a b, st.P a b ≤ st0.P a b) ∧
      (∀ a, st.P a L = st0.P a L) := by
  intro k
  induction k with
  | zero =>
    intro st0 st E h hi
    simp only [iterate, Option.some.injEq] at hi
    subst hi
    exact ⟨⟨E, h⟩, fun _ _ => le_refl _, fun _ => rfl⟩
  | succ k ih =>
    intro st0 st E h hi
    rw [iterate] at hi
    cases hs : step n L (adj cs) (portal_adj ps) st0 with
    | none => rw [hs] at hi; simp at hi
    | some st1 =>
      rw [hs] at hi
      simp only at hi
      obtain ⟨⟨E1, h1⟩, _, hmono⟩ := tel_step_inv valid hn hL E st0 st1 h hs
      obtain ⟨r1, r2, r3⟩ := ih st1 st E1 h1 hi
      exact ⟨r1, fun a b => le_trans (r2 a b) (hmono a b),
        fun a => (r3 a).trans (tel_step_frame n L _ _ hL st0 st1 hs a)⟩

/-- C13 (teleportare): for an input within the limits of the program (`n < NMAX` rooms,
corridor weights that fit an `int`, periods at least 1 with a least common multiple below
`PMAX`), at the head of every iteration of the loop of `get_result`, every entry `P[v][r]`
(`1 ≤ v ≤ n`, `0 ≤ r ≤ lcm_aux`) that differs from `INF` is the arrival time of a valid
walk from room 1 at time 0 to room `v`, and that time is congruent to `r` modulo
`lcm_aux`; every pair `(c, v)` in the priority queue is the arrival time `c` of a valid
walk that ends in `v`. -/
theorem teleportare_loop_invariant (n : Nat) (cs ps : List (Nat × Nat × Nat))
    (valid : Valid n cs ps) (hn : 1 ≤ n) (hN : n < NMAX) (hP : lcm_aux ps < PMAX)
    (hw : ∀ e ∈ cs, e.2.2 ≤ 2147483647) (k : Nat) (st : State)
    (hk : iterate n (lcm_aux ps) (adj cs) (portal_adj ps) k (init n (lcm_aux ps)) = some st) :
    (∀ v r, 1 ≤ v → v ≤ n → r ≤ lcm_aux ps → st.P v r ≠ INF →
      Walk cs ps v (st.P v r) ∧ st.P v r % lcm_aux ps = r) ∧
    (∀ c v, (c, v) ∈ st.pq → Walk cs ps v c) := by
  have hL := tel_lcm_aux_pos ps valid.ppos
  obtain ⟨⟨E, h⟩, hmono, hframe⟩ := tel_iterate_inv valid hn hL k _ st ∅
    (tel_init_inv n (lcm_aux ps) cs ps) hk
  refine ⟨?_, h.sound_pq⟩
  intro v r h1 h2 hr hP
  have hinit : (init n (lcm_aux ps)).P v r = INF := by
    show (if 1 ≤ v ∧ v ≤ n ∧ r ≤ lcm_aux ps then INF else 0) = INF
    rw [if_pos ⟨h1, h2, hr⟩]
  by_cases hrL : r = lcm_aux ps
  · exfalso
    apply hP
    rw [hrL] at hinit ⊢
    rw [hframe v]
    exact hinit
  · have hle := hmono v r
    rw [hinit] at hle
    exact h.sound_P v r h1 h2 (by omega) (lt_of_le_of_ne hle hP)

/-- From a state that satisfies the invariant the loop is left after at most `measure`
iterations, and with more fuel than that the model of the loop returns the value of
that exit. -/
theorem tel_loop_exits {n L : Nat} {cs ps : List (Nat × Nat × Nat)} (valid : Valid n cs ps)
    (hn : 1 ≤ n) (hL : 0 < L) : ∀ (m : Nat) (st : State) (E : Set (Nat × Nat)),
    TInv n L cs ps E E st → measure n L st ≤ m →
    ∃ k st2, k ≤ m ∧ iterate n L (adj cs) (portal_adj ps) k st = some st2 ∧
      step n L (adj cs) (portal_adj ps) st2 = none ∧ (∃ E2, TInv n L cs ps E2 E2 st2) ∧
      ∀ fuel, m < fuel →
        dijkstra n L (adj cs) (portal_adj ps) fuel st = some (exit_value st2) := by
  intro m
  induction m with
  | zero =>
    intro st E h hm
    cases hs : step n L (adj cs) (portal_adj ps) st with
    | none =>
      refine ⟨0, st, le_refl _, rfl, hs, ⟨E, h⟩, ?_⟩
      intro fuel hf
      obtain ⟨f, rfl⟩ : ∃ f, fuel = f + 1 := ⟨fuel - 1, by omega⟩
      rw [tel_dijkstra_succ, hs]
    | some st1 =>
      have := (tel_step_inv valid hn hL E st st1 h hs).2.1
      omega
  | succ m ih =>
    intro st E h hm
    cases hs : step n L (adj cs) (portal_adj ps) st with
    | none =>
      refine ⟨0, st, Nat.zero_le _, rfl, hs, ⟨E, h⟩, ?_⟩
      intro fuel hf
      obtain ⟨f, rfl⟩ : ∃ f, fuel = f + 1 := ⟨fuel - 1, by omega⟩
      rw [tel_dijkstra_succ, hs]
    | some st1 =>
      obtain ⟨⟨E1, h1⟩, hlt, _⟩ := tel_step_inv valid hn hL E st st1 h hs
      obtain ⟨k, st2, hk, hit, hex, hE2, hfuel⟩ := ih st1 E1 h1 (by omega)
      refine ⟨k + 1, st2, by omega, ?_, hex, hE2, ?_⟩
      · rw [iterate, hs]; exact hit
      · intro fuel hf
        obtain ⟨f, rfl⟩ : ∃ f, fuel = f + 1 := ⟨fuel - 1, by omega⟩
        rw [tel_dijkstra_succ, hs]
        exact hfuel f (by omega)

/-- C14 (teleportare): for every input within the limits of the program (`n < NMAX` rooms,
corridors and portals between rooms of `1..n`, corridor weights that fit an `int`, periods
at least 1 with a least common multiple below `PMAX`), cycles or not, room `n` reachable or
not, the loop of `get_result` terminates: it is left after at most
`2 * (n * lcm_aux * INF) + 1` iterations, so only finitely many pairs are pushed, and
`get_result` returns the value of that exit. -/
theorem teleportare_loop_terminates (n : Nat) (cs ps : List (Nat × Nat × Nat))
    (valid : Valid n cs ps) (hn : 1 ≤ n) (hN : n < NMAX) (hP : lcm_aux ps < PMAX)
    (hw : ∀ e ∈ cs, e.2.2 ≤ 2147483647) :
    ∃ k st, k ≤ 2 * (n * lcm_aux ps * INF) + 1 ∧
      iterate n (lcm_aux ps) (adj cs) (portal_adj ps) k (init n (lcm_aux ps)) = some st ∧
      step n (lcm_aux ps) (adj cs) (portal_adj ps) st = none ∧
      ∀ fuel, 2 * (n * lcm_aux ps * INF) + 1 < fuel →
        get_result fuel n cs ps = some (exit_value st) := by
  have hL := tel_lcm_aux_pos ps valid.ppos
  obtain ⟨k, st, hk, hit, hex, _, hfuel⟩ := tel_loop_exits valid hn hL
    (2 * (n * lcm_aux ps * INF) + 1) (init n (lcm_aux ps)) ∅
    (tel_init_inv n (lcm_aux ps) cs ps) (le_of_eq (tel_init_measure n (lcm_aux ps)))
  exact ⟨k, st, hk, hit, hex, fun fuel hf => hfuel fuel hf⟩

theorem tel_example_valid : Valid 3 [(1, 2, 1), (2, 3, 5), (3, 1, 9)] [(2, 3, 2)] :=
  ⟨by decide, by decide, by decide⟩

/-- Witness for C13: three rooms, the corridors 1-2 (1), 2-3 (5), 3-1 (9) and the portal
2-3 of period 2, at the head of iteration 2: `P[2][1] = 1`, `P[3][1] = 9`, `P[3][0] = 6`,
and the queue holds (6, 3), (2, 1), (9, 3). -/
theorem teleportare_loop_invariant_witness :
    (∃ st, iterate 3 (lcm_aux [(2, 3, 2)]) (adj [(1, 2, 1), (2, 3, 5), (3, 1, 9)])
        (portal_adj [(2, 3, 2)]) 2 (init 3 (lcm_aux [(2, 3, 2)])) = some st ∧
      st.P 2 1 = 1 ∧ st.P 3 1 = 9 ∧ st.P 3 0 = 6 ∧ st.pq = [(6, 3), (2, 1), (9, 3)] ∧
      (∀ v r, 1 ≤ v → v ≤ 3 → r ≤ lcm_aux [(2, 3, 2)] → st.P v r ≠ INF →
        Walk [(1, 2, 1), (2, 3, 5), (3, 1, 9)] [(2, 3, 2)] v (st.P v r) ∧
          st.P v r % lcm_aux [(2, 3, 2)] = r) ∧
      (∀ c v, (c, v) ∈ st.pq → Walk [(1, 2, 1), (2, 3, 5), (3, 1, 9)] [(2, 3, 2)] v c)) :=
  ⟨_, rfl, by decide, by decide, by decide, by decide,
    teleportare_loop_invariant 3 [(1, 2, 1), (2, 3, 5), (3, 1, 9)] [(2, 3, 2)]
      tel_example_valid (by decide) (by decide) (by decide) (by decide) 2 _ rfl⟩

/-- Witness for C14: the same input, where the loop is left at iteration 3 with room 3 on
top of the queue at cost 6. -/
theorem teleportare_loop_terminates_witness :
    Valid 3 [(1, 2, 1), (2, 3, 5), (3, 1, 9)] [(2, 3, 2)] ∧
    get_result 10 3 [(1, 2, 1), (2, 3, 5), (3, 1, 9)] [(2, 3, 2)] = some 6 ∧
    ∃ k st, k ≤ 2 * (3 * lcm_aux [(2, 3, 2)] * INF) + 1 ∧
      iterate 3 (lcm_aux [(2, 3, 2)]) (adj [(1, 2, 1), (2, 3, 5), (3, 1, 9)])
        (portal_adj [(2, 3, 2)]) k (init 3 (lcm_aux [(2, 3, 2)])) = some st ∧
      step 3 (lcm_aux [(2, 3, 2)]) (adj [(1, 2, 1), (2, 3, 5), (3, 1, 9)])
        (portal_adj [(2, 3, 2)]) st = none ∧
      ∀ fuel, 2 * (3 * lcm_aux [(2, 3, 2)] * INF) + 1 < fuel →
        get_result fuel 3 [(1, 2, 1), (2, 3, 5), (3, 1, 9)] [(2, 3, 2)]
          = some (exit_value st) :=
  ⟨tel_example_valid, by decide,
    teleportare_loop_terminates 3 [(1, 2, 1), (2, 3, 5), (3, 1, 9)] [(2, 3, 2)]
      tel_example_valid (by decide) (by decide) (by decide) (by decide)⟩

end Teleportare

namespace Teleportare

theorem tel_mod_of_dvd {p L x t : Nat} (hd : p ∣ L) (h : x % L = t % L) : x % p = t % p := by
  rw [← Nat.mod_mod_of_dvd x hd, ← Nat.mod_mod_of_dvd t hd, h]

/-- Under the invariant, every valid walk that arrives before `INF` is either no earlier
than some pair of the queue, or ends in a room already expanded at a time that is no later
and has the same remainder. -/
theorem tel_walk_covered {n L : Nat} {cs ps : List (Nat × Nat × Nat)} (valid : Valid n cs ps)
    (hL : 0 < L) (hdvd : ∀ u v p, Joins ps u v p → p ∣ L) (E : Set (Nat × Nat)) (st : State)
    (h : TInv n L cs ps E E st) : ∀ (v t : Nat), Walk cs ps v t → t < INF →
    (∃ c u, (c, u) ∈ st.pq ∧ c ≤ t) ∨ (∃ x, x ≤ t ∧ x % L = t % L ∧ (v, x) ∈ E) := by
  intro v t hw
  induction hw with
  | start =>
    intro _
    rcases h.start with hs | hs
    · exact Or.inl ⟨0, 1, hs, le_refl _⟩
    · exact Or.inr ⟨0, le_refl _, rfl, hs⟩
  | @corridor u v w t hw hj ih =>
    intro ht
    rcases ih (by omega) with ⟨c, u2, hc, hct⟩ | ⟨x, hx, hmod, hE⟩
    · exact Or.inl ⟨c, u2, hc, by omega⟩
    · have he : (v, w) ∈ adj cs u := (tel_mem_adj cs u v w).2 hj
      have hcl := h.closed_c u x hE (v, w) he
      simp only at hcl
      have hr := (tel_joins_range valid.cin hj).2
      have hmodlt : (x + w) % L < L := Nat.mod_lt _ hL
      have hlt : st.P v ((x + w) % L) < INF := by omega
      have hsp := (h.sound_P v _ hr.1 hr.2 hmodlt hlt).2
      have hmod2 : (x + w) % L = (t + w) % L := by
        rw [Nat.add_mod, hmod, ← Nat.add_mod]
      rcases h.live v _ hr.1 hr.2 hmodlt hlt with hl | hl
      · exact Or.inl ⟨_, v, hl, by omega⟩
      · exact Or.inr ⟨_, by omega, by rw [hsp, hmod2], hl⟩
  | @portal u v p t hw hj hz ih =>
    intro ht
    rcases ih (by omega) with ⟨c, u2, hc, hct⟩ | ⟨x, hx, hmod, hE⟩
    · exact Or.inl ⟨c, u2, hc, by omega⟩
    · have he : (v, p) ∈ portal_adj ps u := (tel_mem_portal_adj ps u v p).2 hj
      have hxz : x % p = 0 := by
        rw [tel_mod_of_dvd (hdvd u v p hj) hmod]; exact hz
      have hcl := h.closed_p u x hE (v, p) he hxz
      simp only at hcl
      have hr := (tel_joins_range valid.pin hj).2
      have hmodlt : (x + 1) % L < L := Nat.mod_lt _ hL
      have hlt : st.P v ((x + 1) % L) < INF := by omega
      have hsp := (h.sound_P v _ hr.1 hr.2 hmodlt hlt).2
      have hmod2 : (x + 1) % L = (t + 1) % L := by
        rw [Nat.add_mod, hmod, ← Nat.add_mod]
      rcases h.live v _ hr.1 hr.2 hmodlt hlt with hl | hl
      · exact Or.inl ⟨_, v, hl, by omega⟩
      · exact Or.inr ⟨_, by omega, by rw [hsp, hmod2], hl⟩

/-- The value with which the loop is left: -1 when no valid walk reaches room `n` before
`INF`, and otherwise the time of a valid walk to room `n` that no valid walk arriving
before `INF` beats. -/
theorem tel_exit_spec {n L : Nat} {cs ps : List (Nat × Nat × Nat)} (valid : Valid n cs ps)
    (hL : 0 < L) (hdvd : ∀ u v p, Joins ps u v p → p ∣ L) (E : Set (Nat × Nat)) (st : State)
    (h : TInv n L cs ps E E st) (hs : step n L (adj cs) (portal_adj ps) st = none) :
    (exit_value st = -1 ∧ ∀ t, t < INF → ¬ Walk cs ps n t) ∨
    (∃ c : Nat, exit_value st = (c : Int) ∧ Walk cs ps n c ∧
      ∀ t, t < INF → Walk cs ps n t → c ≤ t) := by
  unfold step at hs
  unfold exit_value
  cases htop : top st.pq with
  | none =>
    left
    refine ⟨rfl, ?_⟩
    intro t ht hw
    have hnil := tel_top_none st.pq htop
    rcases tel_walk_covered valid hL hdvd E st h n t hw ht with ⟨c, u, hc, _⟩ | ⟨x, _, _, hE⟩
    · rw [hnil] at hc; exact absurd hc (List.not_mem_nil _)
    · exact h.no_n x hE
  | some a =>
    obtain ⟨c, v⟩ := a
    rw [htop] at hs
    simp only at hs
    have hvn : v = n := by
      by_contra hne
      rw [if_neg hne] at hs
      split at hs <;> simp at hs
    obtain ⟨hmem, hmin⟩ := tel_top_some st.pq (c, v) htop
    right
    refine ⟨c, rfl, ?_, ?_⟩
    · rw [← hvn]; exact h.sound_pq c v hmem
    · intro t ht hw
      rcases tel_walk_covered valid hL hdvd E st h n t hw ht with ⟨c2, u, hc, hct⟩ | ⟨x, _, _, hE⟩
      · have := hmin (c2, u) hc
        simp only at this
        omega
      · exact absurd hE (h.no_n x)

end Teleportare

namespace Teleportare

theorem tel_trail_walk {cs ps : List (Nat × Nat × Nat)} {l : List (Nat × Nat)} {v t : Nat}
    (h : Trail cs ps l v t) : Walk cs ps v t := by
  induction h with
  | start => exact Walk.start
  | corridor _ hj ih => exact Walk.corridor ih hj
  | portal _ hj hz ih => exact Walk.portal ih hj hz

/-- Every pair a trail went through is the end of a trail that is a final part of it. -/
theorem tel_trail_suffix {cs ps : List (Nat × Nat × Nat)} {l : List (Nat × Nat)} {v t : Nat}
    (h : Trail cs ps l v t) : ∀ x ∈ (v, t) :: l,
    ∃ l2, Trail cs ps l2 x.1 x.2 ∧ (x :: l2) <:+ ((v, t) :: l) := by
  induction h with
  | start =>
    intro x hx
    simp only [List.mem_singleton] at hx
    subst hx
    exact ⟨[], Trail.start, List.suffix_refl _⟩
  | @corridor l u v w t h hj ih =>
    intro x hx
    rcases List.mem_cons.1 hx with hx | hx
    · subst hx
      exact ⟨_, Trail.corridor h hj, List.suffix_refl _⟩
    · obtain ⟨l2, h2, hs⟩ := ih x hx
      exact ⟨l2, h2, hs.trans (List.suffix_cons _ _)⟩
  | @portal l u v p t h hj hz ih =>
    intro x hx
    rcases List.mem_cons.1 hx with hx | hx
    · subst hx
      exact ⟨_, Trail.portal h hj hz, List.suffix_refl _⟩
    · obtain ⟨l2, h2, hs⟩ := ih x hx
      exact ⟨l2, h2, hs.trans (List.suffix_cons _ _)⟩

theorem tel_joins_weight {es : List (Nat × Nat × Nat)} {B : Nat}
    (hB : ∀ e ∈ es, e.2.2 ≤ B) {u v c : Nat} (h : Joins es u v c) : c ≤ B := by
  obtain ⟨e, he, h1, _⟩ := h
  rw [← h1]; exact hB e he

/-- A trail through `k` pairs ends at a time of at most `k * B` when no corridor weighs
more than `B ≥ 1`. -/
theorem tel_trail_time {cs ps : List (Nat × Nat × Nat)} {B : Nat}
    (hB : ∀ e ∈ cs, e.2.2 ≤ B) (hB1 : 1 ≤ B) {l : List (Nat × Nat)} {v t : Nat}
    (h : Trail cs ps l v t) : t ≤ l.length * B := by
  induction h with
  | start => simp
  | corridor _ hj ih =>
    have := tel_joins_weight hB hj
    rw [List.length_cons, Nat.succ_mul]; omega
  | portal _ hj _ ih =>
    rw [List.length_cons, Nat.succ_mul]; omega

/-- Every valid walk can be replaced by a trail to the same room, with the same remainder
of the time, that goes through no pair `(room, remainder)` twice. -/
theorem tel_simple_trail {cs ps : List (Nat × Nat × Nat)} {L : Nat}
    (hdvd : ∀ u v p, Joins ps u v p → p ∣ L) {v t : Nat} (h : Walk cs ps v t) :
    ∃ l t2, Trail cs ps l v t2 ∧ t2 % L = t % L ∧
      (((v, t2) :: l).map (fun x : Nat × Nat => (x.1, x.2 % L))).Nodup := by
  induction h with
  | start => exact ⟨[], 0, Trail.start, rfl, by simp⟩
  | @corridor u v w t hw hj ih =>
    obtain ⟨l, t2, htr, hmod, hnd⟩ := ih
    have hmod2 : (t2 + w) % L = (t + w) % L := by
      rw [Nat.add_mod, hmod, ← Nat.add_mod]
    by_cases hin : (v, (t2 + w) % L) ∈ ((u, t2) :: l).map (fun x : Nat × Nat => (x.1, x.2 % L))
    · obtain ⟨x, hx, hxe⟩ := List.mem_map.1 hin
      obtain ⟨l2, h2, hs⟩ := tel_trail_suffix htr x hx
      obtain ⟨x1, x2⟩ := x
      simp only [Prod.mk.injEq] at hxe
      obtain ⟨hx1, hx2⟩ := hxe
      subst hx1
      refine ⟨l2, x2, h2, by rw [hx2, hmod2], ?_⟩
      exact List.Nodup.sublist (List.Sublist.map _ hs.sublist) hnd
    · refine ⟨(u, t2) :: l, t2 + w, Trail.corridor htr hj, hmod2, ?_⟩
      rw [List.map_cons, List.nodup_cons]
      exact ⟨hin, hnd⟩
  | @portal u v p t hw hj hz ih =>
    obtain ⟨l, t2, htr, hmod, hnd⟩ := ih
    have hmod2 : (t2 + 1) % L = (t + 1) % L := by
      rw [Nat.add_mod, hmod, ← Nat.add_mod]
    have hz2 : t2 % p = 0 := by
      rw [tel_mod_of_dvd (hdvd u v p hj) hmod]; exact hz
    by_cases hin : (v, (t2 + 1) % L) ∈ ((u, t2) :: l).map (fun x : Nat × Nat => (x.1, x.2 % L))
    · obtain ⟨x, hx, hxe⟩ := List.mem_map.1 hin
      obtain ⟨l2, h2, hs⟩ := tel_trail_suffix htr x hx
      obtain ⟨x1, x2⟩ := x
      simp only [Prod.mk.injEq] at hxe
      obtain ⟨hx1, hx2⟩ := hxe
      subst hx1
      refine ⟨l2, x2, h2, by rw [hx2, hmod2], ?_⟩
      exact List.Nodup.sublist (List.Sublist.map _ hs.sublist) hnd
    · refine ⟨(u, t2) :: l, t2 + 1, Trail.portal htr hj hz2, hmod2, ?_⟩
      rw [List.map_cons, List.nodup_cons]
      exact ⟨hin, hnd⟩

/-- A trail that goes through no pair `(room, remainder)` twice has at most `n * L`
pairs, its end included. -/
theorem tel_simple_length {n L : Nat} {cs ps : List (Nat × Nat × Nat)} (valid : Valid n cs ps)
    (hn : 1 ≤ n) (hL : 0 < L) {l : List (Nat × Nat)} {v t : Nat} (h : Trail cs ps l v t)
    (hnd : (((v, t) :: l).map (fun x : Nat × Nat => (x.1, x.2 % L))).Nodup) :
    l.length + 1 ≤ n * L := by
  have hsub : (((v, t) :: l).map (fun x : Nat × Nat => (x.1, x.2 % L))).toFinset
      ⊆ (Finset.Icc 1 n) ×ˢ (Finset.range L) := by
    intro y hy
    rw [List.mem_toFinset] at hy
    obtain ⟨x, hx, hxe⟩ := List.mem_map.1 hy
    obtain ⟨l2, h2, _⟩ := tel_trail_suffix h x hx
    have hr := tel_walk_range valid hn (tel_trail_walk h2)
    rw [← hxe]
    simp only [Finset.mem_product, Finset.mem_Icc, Finset.mem_range]
    exact ⟨hr, Nat.mod_lt _ hL⟩
  have hc := Finset.card_le_card hsub
  rw [List.toFinset_card_of_nodup hnd] at hc
  simp only [List.length_map, List.length_cons, Finset.card_product, Nat.card_Icc,
    Finset.card_range] at hc
  simpa using hc

/-- With fewer than `NMAX` rooms, a least common multiple below `PMAX` and corridor weights
that fit an `int`, a room that some valid walk reaches is reached by a valid walk before
`INF`. -/
theorem tel_walk_before_INF {n : Nat} {cs ps : List (Nat × Nat × Nat)} (valid : Valid n cs ps)
    (hn : 1 ≤ n) (hN : n < NMAX) (hP : lcm_aux ps < PMAX)
    (hw : ∀ e ∈ cs, e.2.2 ≤ 2147483647) {v t : Nat} (h : Walk cs ps v t) :
    ∃ t2, t2 < INF ∧ Walk cs ps v t2 := by
  have hL := tel_lcm_aux_pos ps valid.ppos
  obtain ⟨l, t2, htr, _, hnd⟩ := tel_simple_trail (fun u v p hj => tel_period_dvd ps u v p hj) h
  have hlen := tel_simple_length valid hn hL htr hnd
  have htime := tel_trail_time hw (by decide) htr
  refine ⟨t2, ?_, tel_trail_walk htr⟩
  have h1 : n * lcm_aux ps ≤ 100004 * 844 := by
    unfold NMAX at hN; unfold PMAX at hP
    exact Nat.mul_le_mul (by omega) (by omega)
  have h2 : l.length * 2147483647 ≤ (100004 * 844) * 2147483647 :=
    Nat.mul_le_mul (by omega) (le_refl _)
  have h3 : (100004 * 844) * 2147483647 < INF := by unfold INF; norm_num
  omega

end Teleportare

namespace Teleportare

/-- A larger bound on the iterations does not change a value that was returned. -/
theorem tel_dijkstra_mono (n L : Nat) (adj padj : Nat → List (Nat × Nat)) :
    ∀ (fuel k : Nat) (st : State) (r : Int), dijkstra n L adj padj fuel st = some r →
    dijkstra n L adj padj (fuel + k) st = some r := by
  intro fuel
  induction fuel with
  | zero => intro k st r h; simp [dijkstra] at h
  | succ f ih =>
    intro k st r h
    rw [show f + 1 + k = (f + k) + 1 by omega, tel_dijkstra_succ]
    rw [tel_dijkstra_succ] at h
    cases hs : step n L adj padj st with
    | none => rw [hs] at h; exact h
    | some st2 => rw [hs] at h; exact ih k st2 r h

/-- Whatever the bound on the iterations, `get_result` returns nothing or the value it
returns with a large bound. -/
theorem tel_get_result_det (n : Nat) (cs ps : List (Nat × Nat × Nat)) (b : Nat) (r : Int)
    (h : ∀ fuel, b < fuel → get_result fuel n cs ps = some r) (fuel : Nat) (r2 : Int)
    (h2 : get_result fuel n cs ps = some r2) : r2 = r := by
  have h3 := tel_dijkstra_mono n (lcm_aux ps) (adj cs) (portal_adj ps) fuel (b + 1) _ r2 h2
  have h4 := h (fuel + (b + 1)) (by omega)
  unfold get_result at h4
  rw [h3] at h4
  exact Option.some.inj h4

/-- The result of `get_result` on an input within the limits of the program: either -1 and
no valid walk ends in room `n`, or the least time at which a valid walk ends in room `n`. -/
theorem tel_result_spec (n : Nat) (cs ps : List (Nat × Nat × Nat)) (valid : Valid n cs ps)
    (hn : 1 ≤ n) (hN : n < NMAX) (hP : lcm_aux ps < PMAX)
    (hw : ∀ e ∈ cs, e.2.2 ≤ 2147483647) :
    ∃ r : Int, (∀ fuel, 2 * (n * lcm_aux ps * INF) + 1 < fuel →
        get_result fuel n cs ps = some r) ∧
      ((r = -1 ∧ ¬ ∃ t, Walk cs ps n t) ∨
       (∃ c : Nat, r = (c : Int) ∧ Walk cs ps n c ∧ ∀ t, Walk cs ps n t → c ≤ t)) := by
  have hL := tel_lcm_aux_pos ps valid.ppos
  obtain ⟨k, st, _, _, hex, ⟨E, hinv⟩, hfuel⟩ := tel_loop_exits valid hn hL
    (2 * (n * lcm_aux ps * INF) + 1) (init n (lcm_aux ps)) ∅
    (tel_init_inv n (lcm_aux ps) cs ps) (le_of_eq (tel_init_measure n (lcm_aux ps)))
  refine ⟨exit_value st, fun fuel hf => hfuel fuel hf, ?_⟩
  rcases tel_exit_spec valid hL (fun u v p hj => tel_period_dvd ps u v p hj) E st hinv hex with
    ⟨h1, h2⟩ | ⟨c, h1, h2, h3⟩
  · left
    refine ⟨h1, ?_⟩
    rintro ⟨t, ht⟩
    obtain ⟨t2, ht2, hw2⟩ := tel_walk_before_INF valid hn hN hP hw ht
    exact h2 t2 ht2 hw2
  · right
    refine ⟨c, h1, h2, ?_⟩
    intro t ht
    by_cases hlt : t < INF
    · exact h3 t hlt ht
    · obtain ⟨t2, ht2, hw2⟩ := tel_walk_before_INF valid hn hN hP hw ht
      have := h3 t2 ht2 hw2
      omega

/-- C2 (teleportare): for `n < NMAX` rooms, corridors and portals between rooms of `1..n`,
corridor weights that fit an `int`, periods at least 1 with a least common multiple below
`PMAX`, and some valid walk that ends in room `n`, `get_result` returns (with any bound on
the iterations above `2 * (n * lcm_aux * INF) + 1`, and with a smaller bound whenever it
returns at all) a time `c` at which a valid walk ends in room `n`, and no valid walk ends
in room `n` earlier. -/
theorem teleportare_get_result_minimal (n : Nat) (cs ps : List (Nat × Nat × Nat))
    (valid : Valid n cs ps) (hn : 1 ≤ n) (hN : n < NMAX) (hP : lcm_aux ps < PMAX)
    (hw : ∀ e ∈ cs, e.2.2 ≤ 2147483647) (hreach : ∃ t, Walk cs ps n t) :
    ∃ c : Nat, (∀ fuel, 2 * (n * lcm_aux ps * INF) + 1 < fuel →
        get_result fuel n cs ps = some (c : Int)) ∧
      (∀ fuel r, get_result fuel n cs ps = some r → r = (c : Int)) ∧
      Walk cs ps n c ∧ ∀ t, Walk cs ps n t → c ≤ t := by
  obtain ⟨r, hr, h⟩ := tel_result_spec n cs ps valid hn hN hP hw
  rcases h with ⟨_, h2⟩ | ⟨c, h1, h2, h3⟩
  · exact absurd hreach h2
  · subst h1
    exact ⟨c, hr, tel_get_result_det n cs ps _ _ hr, h2, h3⟩

/-- C6 (teleportare): for an input within the same limits, `get_result` returns a value
(with any bound on the iterations above `2 * (n * lcm_aux * INF) + 1`, and with a smaller
bound whenever it returns at all), and that value is -1 if and only if no valid walk from room 1 at time 0 ends in room `n`. -/
theorem teleportare_get_result_unreachable (n : Nat) (cs ps : List (Nat × Nat × Nat))
    (valid : Valid n cs ps) (hn : 1 ≤ n) (hN : n < NMAX) (hP : lcm_aux ps < PMAX)
    (hw : ∀ e ∈ cs, e.2.2 ≤ 2147483647) :
    ∃ r : Int, (∀ fuel, 2 * (n * lcm_aux ps * INF) + 1 < fuel →
        get_result fuel n cs ps = some r) ∧
      (∀ fuel r2, get_result fuel n cs ps = some r2 → r2 = r) ∧
      (r = -1 ↔ ¬ ∃ t, Walk cs ps n t) := by
  obtain ⟨r, hr, h⟩ := tel_result_spec n cs ps valid hn hN hP hw
  refine ⟨r, hr, tel_get_result_det n cs ps _ _ hr, ?_⟩
  rcases h with ⟨h1, h2⟩ | ⟨c, h1, h2, _⟩
  · exact ⟨fun _ => h2, fun _ => h1⟩
  · constructor
    · intro he
      rw [h1] at he
      omega
    · intro hno
      exact absurd ⟨c, h2⟩ hno

theorem tel_example_odd_valid : Valid 3 [(1, 2, 1)] [(2, 3, 2)] :=
  ⟨by decide, by decide, by decide⟩

/-- Witness for C2: three rooms, the corridors 1-2 (1), 2-3 (5), 3-1 (9) and the portal
2-3 of period 2; the walk 1, 2, 3 along the corridors arrives at time 6, which is what the
program returns. -/
theorem teleportare_get_result_minimal_witness :
    get_result 10 3 [(1, 2, 1), (2, 3, 5), (3, 1, 9)] [(2, 3, 2)] = some 6 ∧
    Walk [(1, 2, 1), (2, 3, 5), (3, 1, 9)] [(2, 3, 2)] 3 6 ∧
    ∃ c : Nat, (∀ fuel, 2 * (3 * lcm_aux [(2, 3, 2)] * INF) + 1 < fuel →
        get_result fuel 3 [(1, 2, 1), (2, 3, 5), (3, 1, 9)] [(2, 3, 2)] = some (c : Int)) ∧
      (∀ fuel r, get_result fuel 3 [(1, 2, 1), (2, 3, 5), (3, 1, 9)] [(2, 3, 2)] = some r →
        r = (c : Int)) ∧
      Walk [(1, 2, 1), (2, 3, 5), (3, 1, 9)] [(2, 3, 2)] 3 c ∧
      ∀ t, Walk [(1, 2, 1), (2, 3, 5), (3, 1, 9)] [(2, 3, 2)] 3 t → c ≤ t :=
  ⟨by decide,
    Walk.corridor (Walk.corridor Walk.start ⟨(1, 2, 1), by simp, rfl, Or.inl ⟨rfl, rfl⟩⟩)
      ⟨(2, 3, 5), by simp, rfl, Or.inl ⟨rfl, rfl⟩⟩,
    teleportare_get_result_minimal 3 [(1, 2, 1), (2, 3, 5), (3, 1, 9)] [(2, 3, 2)]
      tel_example_valid (by decide) (by decide) (by decide) (by decide)
      ⟨6, Walk.corridor (Walk.corridor Walk.start ⟨(1, 2, 1), by simp, rfl, Or.inl ⟨rfl, rfl⟩⟩)
        ⟨(2, 3, 5), by simp, rfl, Or.inl ⟨rfl, rfl⟩⟩⟩⟩

/-- Witness for C6: three rooms, the corridor 1-2 of weight 1 and the portal 2-3 of period
2. Room 2 is only ever entered at odd times, so the portal is never usable, and the program
returns -1. -/
theorem teleportare_get_result_unreachable_witness :
    get_result 10 3 [(1, 2, 1)] [(2, 3, 2)] = some (-1) ∧
    ∃ r : Int, (∀ fuel, 2 * (3 * lcm_aux [(2, 3, 2)] * INF) + 1 < fuel →
        get_result fuel 3 [(1, 2, 1)] [(2, 3, 2)] = some r) ∧
      (∀ fuel r2, get_result fuel 3 [(1, 2, 1)] [(2, 3, 2)] = some r2 → r2 = r) ∧
      (r = -1 ↔ ¬ ∃ t, Walk [(1, 2, 1)] [(2, 3, 2)] 3 t) :=
  ⟨by decide,
    teleportare_get_result_unreachable 3 [(1, 2, 1)] [(2, 3, 2)]
      tel_example_odd_valid (by decide) (by decide) (by decide) (by decide)⟩

end Teleportare

namespace Ferate

theorem fer_upd_same {α : Type} (f : Nat → α) (i : Nat) (v : α) : upd f i v i = v := by
  simp [upd]

theorem fer_upd_other {α : Type} (f : Nat → α) (i j : Nat) (v : α) (h : j ≠ i) :
    upd f i v j = f j := by
  simp [upd, h]

theorem fer_read_arcs_mem (arcs : List (Nat × Nat)) : ∀ (adj : Nat → List Nat) (a b : Nat),
    b ∈ read_arcs arcs adj a ↔ b ∈ adj a ∨ (a, b) ∈ arcs := by
  induction arcs with
  | nil => intro adj a b; simp [read_arcs]
  | cons e rest ih =>
    intro adj a b
    obtain ⟨x, y⟩ := e
    rw [read_arcs, ih]
    by_cases hx : a = x
    · subst hx
      simp only [fer_upd_same, List.mem_append, List.mem_singleton, List.mem_cons,
        Prod.mk.injEq, true_and]
      tauto
    · rw [fer_upd_other _ _ _ _ hx]
      simp only [List.mem_cons, Prod.mk.injEq, hx, false_and, false_or]

/-- The adjacency lists hold the arcs. -/
theorem fer_mem_read_input (arcs : List (Nat × Nat)) (a b : Nat) :
    b ∈ read_input arcs a ↔ Arc arcs a b := by
  unfold read_input Arc
  rw [fer_read_arcs_mem]; simp

theorem fer_init_redirect_fold (l : List Nat) : ∀ (r : Nat → Nat) (i : Nat),
    l.foldl (fun r i => upd r i i) r i = if i ∈ l then i else r i := by
  induction l with
  | nil => intro r i; simp
  | cons x rest ih =>
    intro r i
    rw [List.foldl_cons, ih]
    by_cases h1 : i ∈ rest
    · simp [h1]
    · by_cases h2 : i = x
      · subst h2; simp [fer_upd_same]
      · simp [h1, h2, fer_upd_other]

/-- The vector `redirect` after `read_input` is the identity on `1..n`. -/
theorem fer_init_redirect (n i : Nat) :
    init_redirect n i = if 1 ≤ i ∧ i ≤ n then i else 0 := by
  unfold init_redirect
  rw [fer_init_redirect_fold]
  simp only [List.mem_range'_1]
  by_cases h : 1 ≤ i ∧ i ≤ n
  · rw [if_pos h, if_pos ⟨h.1, by omega⟩]
  · rw [if_neg h, if_neg (by omega)]

theorem fer_init_redirect_in (n i : Nat) (h1 : 1 ≤ i) (h2 : i ≤ n) : init_redirect n i = i := by
  rw [fer_init_redirect, if_pos ⟨h1, h2⟩]

theorem fer_countP_lt (p q : Nat → Bool) (u : Nat) : ∀ (l : List Nat), u ∈ l →
    (∀ x, q x = true → p x = true) → p u = true → q u = false →
    l.countP q < l.countP p := by
  intro l
  induction l with
  | nil => intro h; exact absurd h (List.not_mem_nil _)
  | cons x t ih =>
    intro hu hmono hp hq
    have hle : t.countP q ≤ t.countP p := List.countP_mono_left (fun y _ h => hmono y h)
    rcases List.mem_cons.1 hu with h | h
    · subst h
      rw [List.countP_cons_of_pos _ _ hp, List.countP_cons_of_neg _ _ (by simp [hq])]
      omega
    · have := ih h hmono hp hq
      by_cases hqx : q x = true
      · rw [List.countP_cons_of_pos _ _ hqx, List.countP_cons_of_pos _ _ (hmono x hqx)]
        omega
      · rw [List.countP_cons_of_neg _ _ hqx]
        by_cases hpx : p x = true
        · rw [List.countP_cons_of_pos _ _ hpx]; omega
        · rw [List.countP_cons_of_neg _ _ hpx]; omega

theorem fer_countP_upd_of_not_mem (f : Nat → Bool) (b : Nat) (v : Bool) (l : List Nat)
    (h : b ∉ l) : l.countP (upd f b v) = l.countP f := by
  apply List.countP_congr
  intro x hx
  have : x ≠ b := fun e => h (e ▸ hx)
  rw [fer_upd_other _ _ _ _ this]

theorem fer_countP_clear (f : Nat → Bool) (b : Nat) : ∀ (l : List Nat), l.Nodup → b ∈ l →
    f b = true → l.countP (upd f b false) + 1 = l.countP f := by
  intro l
  induction l with
  | nil => intro _ h; exact absurd h (List.not_mem_nil _)
  | cons x t ih =>
    intro hnd hb hf
    rw [List.nodup_cons] at hnd
    rcases List.mem_cons.1 hb with h | h
    · subst h
      rw [List.countP_cons_of_neg _ _ (by simp [fer_upd_same]),
        List.countP_cons_of_pos _ _ hf, fer_countP_upd_of_not_mem _ _ _ _ hnd.1]
    · have hx : x ≠ b := fun e => hnd.1 (e ▸ h)
      have := ih hnd.2 h hf
      by_cases hfx : f x = true
      · rw [List.countP_cons_of_pos _ _ (by rw [fer_upd_other _ _ _ _ hx]; exact hfx),
          List.countP_cons_of_pos _ _ hfx]
        omega
      · rw [List.countP_cons_of_neg _ _ (by rw [fer_upd_other _ _ _ _ hx]; exact hfx),
          List.countP_cons_of_neg _ _ hfx]
        omega

theorem fer_countP_set (f : Nat → Bool) (b : Nat) : ∀ (l : List Nat), l.Nodup → b ∈ l →
    f b = false → l.countP (upd f b true) = l.countP f + 1 := by
  intro l
  induction l with
  | nil => intro _ h; exact absurd h (List.not_mem_nil _)
  | cons x t ih =>
    intro hnd hb hf
    rw [List.nodup_cons] at hnd
    rcases List.mem_cons.1 hb with h | h
    · subst h
      rw [List.countP_cons_of_pos _ _ (by simp [fer_upd_same]),
        List.countP_cons_of_neg _ _ (by simp [hf]), fer_countP_upd_of_not_mem _ _ _ _ hnd.1]
    · have hx : x ≠ b := fun e => hnd.1 (e ▸ h)
      have := ih hnd.2 h hf
      by_cases hfx : f x = true
      · rw [List.countP_cons_of_pos _ _ (by rw [fer_upd_other _ _ _ _ hx]; exact hfx),
          List.countP_cons_of_pos _ _ hfx]
        omega
      · rw [List.countP_cons_of_neg _ _ (by rw [fer_upd_other _ _ _ _ hx]; exact hfx),
          List.countP_cons_of_neg _ _ hfx]
        omega

theorem fer_white_mono (n : Nat) (h h2 : Nat → Bool)
    (hm : ∀ v, h v = true → h2 v = true) : white n h2 ≤ white n h := by
  unfold white
  apply List.countP_mono_left
  intro x _ hx
  cases hh : h x with
  | false => rfl
  | true => rw [hm x hh] at hx; exact absurd hx (by decide)

theorem fer_white_mark (n : Nat) (h : Nat → Bool) (u : Nat) (h1 : 1 ≤ u) (h2 : u ≤ n)
    (hu : h u = false) : white n (upd h u true) < white n h := by
  unfold white
  apply fer_countP_lt _ _ u
  · rw [List.mem_range'_1]; omega
  · intro x hx
    by_cases hxu : x = u
    · subst hxu; simp [hu]
    · rw [fer_upd_other _ _ _ _ hxu] at hx; exact hx
  · simp [hu]
  · simp [fer_upd_same]

theorem fer_reach_in_range {n : Nat} {arcs : List (Nat × Nat)}
    (hin : ∀ e ∈ arcs, (1 ≤ e.1 ∧ e.1 ≤ n) ∧ (1 ≤ e.2 ∧ e.2 ≤ n)) {a b : Nat}
    (h : Reach arcs a b) (ha : 1 ≤ a ∧ a ≤ n) : 1 ≤ b ∧ b ≤ n := by
  induction h with
  | refl => exact ha
  | tail _ hbc _ => exact (hin _ hbc).2

end Ferate

namespace Ferate

theorem fer_bool_mono {p q : Bool} (h : p = true → q = true) (hq : q = false) : p = false := by
  cases p with
  | false => rfl
  | true => rw [h rfl] at hq; exact absurd hq (by decide)

/-- The state after `has_rail[node] = true`. -/
theorem fer_grow_mark (adj : Nat → List Nat) (redirect : Nat → Nat) (src n node : Nat)
    (r : Rails) (h1 : 1 ≤ node) (h2 : node ≤ n) :
    Grow adj redirect src n node (fun a => a ≠ node) r
      { r with has_rail := upd r.has_rail node true } := by
  have hnew : ∀ v, r.has_rail v = false → upd r.has_rail node true v = true → v = node := by
    intro v hv hv2
    by_contra hne
    rw [fer_upd_other _ _ _ _ hne, hv] at hv2
    exact absurd hv2 (by decide)
  refine ⟨?_, ?_, ?_, ?_, ?_, ?_, ?_, ?_, ?_, ?_⟩
  · intro v hv
    show upd r.has_rail node true v = true
    by_cases hvn : v = node
    · subst hvn; exact fer_upd_same _ _ _
    · rw [fer_upd_other _ _ _ _ hvn]; exact hv
  · intro b hb; exact hb
  · exact fer_upd_same _ _ _
  · intro v hv hv2
    rw [hnew v hv hv2]
  · intro v hv hv2
    exact Or.inl (hnew v hv hv2)
  · intro a ha ha2 hC
    exact absurd (hnew a ha ha2) hC
  · intro a b ha ha2 hC
    exact absurd (hnew a ha ha2) hC
  · intro b hb hb2
    have : r.has_edge b = false := hb2
    rw [hb] at this
    exact absurd this (by decide)
  · intro v hv hv2
    rw [hnew v hv hv2]; exact ⟨h1, h2⟩
  · intro h; exact h

/-- The traversal of a neighbour extends what the traversal of `node` did so far. -/
theorem fer_grow_trans {adj : Nat → List Nat} {redirect : Nat → Nat} {src n node b : Nat}
    {r0 r r2 : Rails} (h : Grow adj redirect src n node (fun a => a ≠ node) r0 r)
    (h2 : Grow adj redirect src n b (fun _ => True) r r2) (hb : r.has_rail b = false)
    (he : Edge adj redirect node b) (h0 : r0.has_rail node = false) :
    Grow adj redirect src n node (fun a => a ≠ node) r0 r2 := by
  have hr0 : ∀ v, r.has_rail v = false → r0.has_rail v = false :=
    fun v hv => fer_bool_mono (h.mono v) hv
  refine ⟨?_, ?_, ?_, ?_, ?_, ?_, ?_, ?_, ?_, ?_⟩
  · intro v hv; exact h2.mono v (h.mono v hv)
  · intro v hv; exact h.edge_mono v (h2.edge_mono v hv)
  · exact h2.mono _ h.self
  · intro v hv hv2
    cases hrv : r.has_rail v with
    | true => exact h.reach v hv hrv
    | false =>
      exact Relation.ReflTransGen.head he (h2.reach v hrv hv2)
  · intro v hv hv2
    cases hrv : r.has_rail v with
    | true =>
      rcases h.entered v hv hrv with h3 | ⟨a, ha1, ha2, ha3, ha4⟩
      · exact Or.inl h3
      · exact Or.inr ⟨a, ha1, ha2, h2.mono a ha3, ha4⟩
    | false =>
      right
      rcases h2.entered v hrv hv2 with h3 | ⟨a, ha1, ha2, ha3, ha4⟩
      · subst h3
        refine ⟨node, ?_, h0, h2.mono _ h.self, he⟩
        intro e
        rw [e] at h0
        have := h.self
        rw [e, hrv] at this
        exact absurd this (by decide)
      · exact ⟨a, ha1, hr0 a ha2, ha3, ha4⟩
  · intro a ha ha2 hC c hc
    cases hra : r.has_rail a with
    | true => exact h2.mono c (h.closed a ha hra hC c hc)
    | false => exact h2.closed a hra ha2 trivial c hc
  · intro a c ha ha2 hC hc hc0 hcs
    cases hra : r.has_rail a with
    | true => exact fer_bool_mono (h2.edge_mono c) (h.clears a c ha hra hC hc hc0 hcs)
    | false => exact h2.clears a c hra ha2 trivial hc (h.mono c hc0) hcs
  · intro c hc hc2
    cases hrc : r.has_edge c with
    | true =>
      obtain ⟨h3, a, ha1, ha2, ha3⟩ := h2.cleared c hrc hc2
      exact ⟨h3, a, hr0 a ha1, ha2, ha3⟩
    | false =>
      obtain ⟨h3, a, ha1, ha2, ha3⟩ := h.cleared c hc hrc
      exact ⟨h3, a, ha1, h2.mono a ha2, ha3⟩
  · intro v hv hv2
    cases hrv : r.has_rail v with
    | true => exact h.in_range v hv hrv
    | false => exact h2.in_range v hrv hv2
  · intro hc; exact h2.cnt (h.cnt hc)

/-- The branch of the neighbour loop of `dfs` that removes an edge. -/
theorem fer_grow_clear {adj : Nat → List Nat} {redirect : Nat → Nat} {src n node b : Nat}
    {r0 r : Rails} (h : Grow adj redirect src n node (fun a => a ≠ node) r0 r)
    (he : Edge adj redirect node b) (h0 : r0.has_rail node = false)
    (hb : r.has_edge b = true) (hbs : src ≠ b) (hbn : 1 ≤ b ∧ b ≤ n) :
    Grow adj redirect src n node (fun a => a ≠ node) r0
      { r with has_edge := upd r.has_edge b false, cnt := r.cnt - 1 } := by
  have hmono : ∀ c, upd r.has_edge b false c = true → r.has_edge c = true := by
    intro c hc
    by_cases hcb : c = b
    · subst hcb; rw [fer_upd_same] at hc; exact absurd hc (by decide)
    · rw [fer_upd_other _ _ _ _ hcb] at hc; exact hc
  refine ⟨h.mono, ?_, h.self, h.reach, h.entered, h.closed, ?_, ?_, h.in_range, ?_⟩
  · intro c hc; exact h.edge_mono c (hmono c hc)
  · intro a c ha ha2 hC hc hc0 hcs
    exact fer_bool_mono (hmono c) (h.clears a c ha ha2 hC hc hc0 hcs)
  · intro c hc hc2
    by_cases hcb : c = b
    · subst hcb
      exact ⟨fun e => hbs e.symm, node, h0, h.self, he⟩
    · have hc3 : upd r.has_edge b false c = false := hc2
      rw [fer_upd_other _ _ _ _ hcb] at hc3
      exact h.cleared c hc hc3
  · intro hc
    obtain ⟨h1, h2⟩ := h.cnt hc
    constructor
    · show r.cnt - 1 = (((List.range' 1 n).countP (upd r.has_edge b false) : Nat) : Int)
      have := fer_countP_clear r.has_edge b (List.range' 1 n) (List.nodup_range' _ _)
        (by rw [List.mem_range'_1]; omega) hb
      rw [h1]; omega
    · intro c hc2
      exact h2 c (hmono c hc2)

/-- The neighbour loop of `dfs` on the rest `l` of the neighbours of `node`. -/
theorem fer_dfs_fold {adj : Nat → List Nat} {redirect : Nat → Nat} {src n : Nat}
    (hrange : ∀ a x, x ∈ adj a → 1 ≤ redirect x ∧ redirect x ≤ n) (f : Nat)
    (IH : ∀ node r, r.has_rail node = false → 1 ≤ node → node ≤ n →
      white n r.has_rail ≤ f →
      ∃ r2, dfs adj redirect src f node r = some r2 ∧
        Grow adj redirect src n node (fun _ => True) r r2)
    (node : Nat) (r0 : Rails) (h0 : r0.has_rail node = false) :
    ∀ (l : List Nat) (r : Rails), (∀ x ∈ l, x ∈ adj node) →
    Grow adj redirect src n node (fun a => a ≠ node) r0 r → white n r.has_rail ≤ f →
    ∃ r2, l.foldlM (dfs_step (dfs adj redirect src f) redirect src) r = some r2 ∧
      Grow adj redirect src n node (fun a => a ≠ node) r0 r2 ∧
      (∀ v, r.has_rail v = true → r2.has_rail v = true) ∧
      (∀ c, r2.has_edge c = true → r.has_edge c = true) ∧
      (∀ x ∈ l, r2.has_rail (redirect x) = true ∧
        (r0.has_rail (redirect x) = true → redirect x ≠ src →
          r2.has_edge (redirect x) = false)) := by
  intro l
  induction l with
  | nil =>
    intro r _ hg _
    exact ⟨r, rfl, hg, fun v hv => hv, fun c hc => hc, fun x hx => absurd hx (List.not_mem_nil _)⟩
  | cons x rest ih =>
    intro r hl hg hw
    have hx : x ∈ adj node := hl x (List.mem_cons_self _ _)
    have he : Edge adj redirect node (redirect x) := ⟨x, hx, rfl⟩
    have hbn := hrange node x hx
    rw [List.foldlM_cons]
    -- the state after the body of the loop for `x`
    have hstep : ∃ r1, dfs_step (dfs adj redirect src f) redirect src r x = some r1 ∧
        Grow adj redirect src n node (fun a => a ≠ node) r0 r1 ∧
        (∀ v, r.has_rail v = true → r1.has_rail v = true) ∧
        (∀ c, r1.has_edge c = true → r.has_edge c = true) ∧
        r1.has_rail (redirect x) = true ∧
        (r0.has_rail (redirect x) = true → redirect x ≠ src →
          r1.has_edge (redirect x) = false) := by
      unfold dfs_step
      cases hb : r.has_rail (redirect x) with
      | false =>
        rw [if_pos rfl]
        obtain ⟨r1, hr1, hg1⟩ := IH (redirect x) r hb hbn.1 hbn.2 hw
        refine ⟨r1, hr1, fer_grow_trans hg hg1 hb he h0, hg1.mono, hg1.edge_mono, hg1.self, ?_⟩
        intro h3
        rw [hg.mono _ h3] at hb
        exact absurd hb (by decide)
      | true =>
        rw [if_neg (by decide)]
        by_cases hc : r.has_edge (redirect x) = true ∧ src ≠ redirect x
        · rw [if_pos hc]
          refine ⟨_, rfl, fer_grow_clear hg he h0 hc.1 hc.2 hbn, fun v hv => hv, ?_, hb, ?_⟩
          · intro c hc2
            have hc3 : upd r.has_edge (redirect x) false c = true := hc2
            by_cases hcb : c = redirect x
            · rw [hcb, fer_upd_same] at hc3; exact absurd hc3 (by decide)
            · rw [fer_upd_other _ _ _ _ hcb] at hc3; exact hc3
          · intro _ _
            exact fer_upd_same _ _ _
        · rw [if_neg hc]
          refine ⟨r, rfl, hg, fun v hv => hv, fun c hc2 => hc2, hb, ?_⟩
          intro _ hne
          cases hre : r.has_edge (redirect x) with
          | false => rfl
          | true => exact absurd ⟨hre, fun e => hne e.symm⟩ hc
    obtain ⟨r1, hr1, hg1, hm1, hem1, hx1, hx2⟩ := hstep
    rw [hr1]
    have hw1 : white n r1.has_rail ≤ f := le_trans (fer_white_mono n _ _ hm1) hw
    obtain ⟨r2, hr2, hg2, hm2, hem2, hall⟩ :=
      ih r1 (fun y hy => hl y (List.mem_cons_of_mem _ hy)) hg1 hw1
    refine ⟨r2, hr2, hg2, fun v hv => hm2 v (hm1 v hv), fun c hc => hem1 c (hem2 c hc), ?_⟩
    intro y hy
    rcases List.mem_cons.1 hy with hyx | hyr
    · subst hyx
      refine ⟨hm2 _ hx1, ?_⟩
      intro h3 h4
      exact fer_bool_mono (hem2 _) (hx2 h3 h4)
    · exact hall y hyr

theorem fer_white_pos (n : Nat) (h : Nat → Bool) (u : Nat) (h1 : 1 ≤ u) (h2 : u ≤ n)
    (hu : h u = false) : 0 < white n h := by
  have := fer_white_mark n h u h1 h2 hu
  omega

/-- `dfs` returns when the bound on the recursion depth is at least the number of nodes
without a rail, and does what `Grow` says. -/
theorem fer_dfs_spec {adj : Nat → List Nat} {redirect : Nat → Nat} {src n : Nat}
    (hrange : ∀ a x, x ∈ adj a → 1 ≤ redirect x ∧ redirect x ≤ n) :
    ∀ (f node : Nat) (r : Rails), r.has_rail node = false → 1 ≤ node → node ≤ n →
    white n r.has_rail ≤ f →
    ∃ r2, dfs adj redirect src f node r = some r2 ∧
      Grow adj redirect src n node (fun _ => True) r r2 := by
  intro f
  induction f with
  | zero =>
    intro node r h0 h1 h2 hw
    have := fer_white_pos n r.has_rail node h1 h2 h0
    omega
  | succ f ih =>
    intro node r h0 h1 h2 hw
    rw [dfs]
    have hmark := fer_white_mark n r.has_rail node h1 h2 h0
    obtain ⟨r2, hr2, hg, _, _, hall⟩ := fer_dfs_fold hrange f ih node r h0 (adj node)
      { r with has_rail := upd r.has_rail node true } (fun x hx => hx)
      (fer_grow_mark adj redirect src n node r h1 h2) (by show white n (upd r.has_rail node true) ≤ f; omega)
    refine ⟨r2, hr2, ?_⟩
    refine ⟨hg.mono, hg.edge_mono, hg.self, hg.reach, hg.entered, ?_, ?_, hg.cleared,
      hg.in_range, hg.cnt⟩
    · intro a ha ha2 _ b hb
      by_cases han : a = node
      · subst han
        obtain ⟨x, hx, hxb⟩ := hb
        rw [← hxb]; exact (hall x hx).1
      · exact hg.closed a ha ha2 han b hb
    · intro a b ha ha2 _ hb hb0 hbs
      by_cases han : a = node
      · subst han
        obtain ⟨x, hx, hxb⟩ := hb
        rw [← hxb] at hb0 hbs ⊢
        exact (hall x hx).2 hb0 hbs
      · exact hg.clears a b ha ha2 han hb hb0 hbs

end Ferate

namespace Ferate

theorem fer_twhite_mono (n : Nat) (has_rail : Nat → Bool) (f f2 : Nat → Nat)
    (hm : ∀ v, f v ≠ INF → f2 v ≠ INF) : twhite n has_rail f2 ≤ twhite n has_rail f := by
  unfold twhite
  apply List.countP_mono_left
  intro x _ hx
  simp only [Bool.and_eq_true, decide_eq_true_eq, Bool.not_eq_true'] at hx ⊢
  refine ⟨?_, hx.2⟩
  by_contra h
  exact hm x h hx.1

theorem fer_twhite_mark (n : Nat) (has_rail : Nat → Bool) (f f2 : Nat → Nat) (u : Nat)
    (hm : ∀ v, f v ≠ INF → f2 v ≠ INF) (h1 : 1 ≤ u) (h2 : u ≤ n) (hu : f u = INF)
    (hr : has_rail u = false) (hu2 : f2 u ≠ INF) :
    twhite n has_rail f2 < twhite n has_rail f := by
  unfold twhite
  apply fer_countP_lt _ _ u
  · rw [List.mem_range'_1]; omega
  · intro x hx
    simp only [Bool.and_eq_true, decide_eq_true_eq, Bool.not_eq_true'] at hx ⊢
    refine ⟨?_, hx.2⟩
    by_contra h
    exact hm x h hx.1
  · simp [hu, hr]
  · simp [hu2]

theorem fer_twhite_le (n : Nat) (has_rail : Nat → Bool) (f : Nat → Nat) :
    twhite n has_rail f ≤ n := by
  unfold twhite
  have := List.countP_le_length (fun v => decide (f v = INF) && !(has_rail v))
    (l := List.range' 1 n)
  simpa using this

/-- Writing `low_link[u]` keeps the invariant when the new value is the discovery time of a
node of the stack that `u` reaches and that was discovered no later. -/
theorem fer_sinv_set_low {adj : Nat → List Nat} {has_rail : Nat → Bool} {n : Nat} {s : Tarj}
    (h : SInv adj has_rail n s) (u m : Nat)
    (hm : u ∈ s.st → ∃ w ∈ s.st, m = s.found w ∧ TReach adj has_rail u w ∧
      s.found w ≤ s.found u) :
    SInv adj has_rail n { s with low_link := upd s.low_link u m } := by
  refine ⟨h.sorted, h.instack, h.vis, h.disj, h.ok, h.budget, ?_, h.scc, h.nodup, h.closed⟩
  intro v hv
  by_cases hvu : v = u
  · subst hvu
    obtain ⟨w, hw, h1, h2, h3⟩ := hm hv
    refine ⟨w, hw, ?_, h2, h3⟩
    show upd s.low_link v m v = s.found w
    rw [fer_upd_same]; exact h1
  · obtain ⟨w, hw, h1, h2, h3⟩ := h.low v hv
    refine ⟨w, hw, ?_, h2, h3⟩
    show upd s.low_link u m v = s.found w
    rw [fer_upd_other _ _ _ _ hvu]; exact h1

theorem fer_sorted_nodup {s : Tarj} (h : s.st.Pairwise (fun a b => s.found b < s.found a)) :
    s.st.Nodup := by
  apply List.Pairwise.imp _ h
  intro a b hab e
  rw [e] at hab
  exact absurd hab (lt_irrefl _)

/-- The loop `do ... while (aux != u)` pops the segment above `u` and `u`. -/
theorem fer_pop_scc (u : Nat) (rest : List Nat) : ∀ (seg : List Nat) (ins : Nat → Bool)
    (acc : List Nat), u ∉ seg →
    ∃ ins2, pop_scc u (seg ++ u :: rest) ins acc = some (rest, ins2, acc ++ seg ++ [u]) ∧
      ∀ v, ins2 v = if v ∈ seg ∨ v = u then false else ins v := by
  intro seg
  induction seg with
  | nil =>
    intro ins acc _
    refine ⟨upd ins u false, ?_, ?_⟩
    · simp [pop_scc]
    · intro v
      by_cases hv : v = u
      · subst hv; simp [fer_upd_same]
      · simp [hv, fer_upd_other]
  | cons x t ih =>
    intro ins acc hu
    have hxu : x ≠ u := fun e => hu (e ▸ List.mem_cons_self _ _)
    have hut : u ∉ t := fun e => hu (List.mem_cons_of_mem _ e)
    obtain ⟨ins2, h1, h2⟩ := ih (upd ins x false) (acc ++ [x]) hut
    refine ⟨ins2, ?_, ?_⟩
    · rw [List.cons_append, pop_scc, if_pos hxu, h1]
      simp
    · intro v
      rw [h2 v]
      by_cases hvx : v = x
      · subst hvx; simp [fer_upd_same]
      · simp [hvx, fer_upd_other]

/-- A set that no arc leaves contains what its nodes reach. -/
theorem fer_closed_reach {adj : Nat → List Nat} {has_rail : Nat → Bool} {S : Nat → Prop}
    (hS : ∀ a, S a → ∀ b, TEdge adj has_rail a b → S b) {a b : Nat}
    (h : TReach adj has_rail a b) (ha : S a) : S b := by
  induction h with
  | refl => exact ha
  | tail _ hbc ih => exact hS _ ih _ hbc

/-- The state at the head of the neighbour loop of `tarjan(u)`. -/
theorem fer_enter {adj : Nat → List Nat} {has_rail : Nat → Bool} {n : Nat} (hINF : n < INF)
    {s : Tarj} (h : SInv adj has_rail n s) (u : Nat) (hu : s.found u = INF)
    (hr : has_rail u = false) (h1 : 1 ≤ u) (h2 : u ≤ n) :
    SLoop adj has_rail n u s (tarjan_enter u s) ∧
    twhite n has_rail (tarjan_enter u s).found < twhite n has_rail s.found := by
  have hpos : 0 < twhite n has_rail s.found := by
    have := fer_twhite_mark n has_rail s.found (upd s.found u 0) u (by
      intro v hv
      by_cases hvu : v = u
      · subst hvu; exact absurd hu hv
      · rw [fer_upd_other _ _ _ _ hvu]; exact hv) h1 h2 hu hr (by
      rw [fer_upd_same]; unfold INF; omega)
    omega
  have hb := h.budget
  have ht : s.time + 1 ≠ INF := by omega
  have hfound : ∀ v, v ≠ u → (tarjan_enter u s).found v = s.found v :=
    fun v hv => fer_upd_other _ _ _ _ hv
  have hfu : (tarjan_enter u s).found u = s.time + 1 := fer_upd_same _ _ _
  have hnst : u ∉ s.st := by
    intro hin
    exact (h.vis u).2 (Or.inl hin) hu
  have hnd : u ∉ s.all_sccs.flatten := by
    intro hin
    exact (h.vis u).2 (Or.inr hin) hu
  have hmono : ∀ v, s.found v ≠ INF → (tarjan_enter u s).found v ≠ INF := by
    intro v hv
    have hvu : v ≠ u := fun e => hv (e ▸ hu)
    rw [hfound v hvu]; exact hv
  have hlt := fer_twhite_mark n has_rail s.found (tarjan_enter u s).found u hmono h1 h2 hu hr
    (by rw [hfu]; exact ht)
  refine ⟨⟨⟨?_, ?_, ?_, ?_, ?_, ?_, ?_, h.scc, h.nodup, h.closed⟩, ?_, hfu, ?_, ?_, ?_, ⟨[], by
    show s.all_sccs = s.all_sccs ++ []; simp⟩⟩, hlt⟩
  · show (u :: s.st).Pairwise _
    rw [List.pairwise_cons]
    constructor
    · intro b hb
      have hbu : b ≠ u := fun e => hnst (e ▸ hb)
      rw [hfound b hbu, hfu]
      have := (h.ok b ((h.vis b).2 (Or.inl hb))).2.2.2
      omega
    · apply List.Pairwise.imp_of_mem _ h.sorted
      intro a b ha hb hab
      have hau : a ≠ u := fun e => hnst (e ▸ ha)
      have hbu : b ≠ u := fun e => hnst (e ▸ hb)
      rw [hfound a hau, hfound b hbu]; exact hab
  · intro v
    show upd s.in_stack u true v = true ↔ v ∈ u :: s.st
    by_cases hvu : v = u
    · subst hvu; simp [fer_upd_same]
    · rw [fer_upd_other _ _ _ _ hvu, h.instack v]; simp [hvu]
  · intro v
    show (tarjan_enter u s).found v ≠ INF ↔ (v ∈ u :: s.st ∨ v ∈ s.all_sccs.flatten)
    by_cases hvu : v = u
    · subst hvu; rw [hfu]; simp [ht]
    · rw [hfound v hvu, h.vis v]; simp [hvu]
  · intro v hv
    show v ∉ s.all_sccs.flatten
    rcases List.mem_cons.1 hv with e | hv2
    · rw [e]; exact hnd
    · exact h.disj v hv2
  · intro v hv
    show has_rail v = false ∧ 1 ≤ v ∧ v ≤ n ∧ (tarjan_enter u s).found v ≤ s.time + 1
    by_cases hvu : v = u
    · subst hvu; rw [hfu]; exact ⟨hr, h1, h2, le_refl _⟩
    · rw [hfound v hvu] at hv ⊢
      obtain ⟨a, b, c, d⟩ := h.ok v hv
      exact ⟨a, b, c, by omega⟩
  · show s.time + 1 + twhite n has_rail (tarjan_enter u s).found ≤ n
    omega
  · intro v hv
    have hv2 : v ∈ u :: s.st := hv
    by_cases hvu : v = u
    · subst hvu
      refine ⟨v, List.mem_cons_self _ _, ?_, Relation.ReflTransGen.refl, le_refl _⟩
      show upd s.low_link v (s.time + 1) v = (tarjan_enter v s).found v
      rw [fer_upd_same, hfu]
    · have hv3 : v ∈ s.st := by
        rcases List.mem_cons.1 hv2 with e | e
        · exact absurd e hvu
        · exact e
      obtain ⟨w, hw, e1, e2, e3⟩ := h.low v hv3
      have hwu : w ≠ u := fun e => hnst (e ▸ hw)
      refine ⟨w, List.mem_cons_of_mem _ hw, ?_, e2, ?_⟩
      · show upd s.low_link u (s.time + 1) v = (tarjan_enter u s).found w
        rw [fer_upd_other _ _ _ _ hvu, hfound w hwu]; exact e1
      · rw [hfound w hwu, hfound v hvu]; exact e3
  · intro v hv
    have hvu : v ≠ u := fun e => hv (e ▸ hu)
    exact ⟨hfound v hvu, fer_upd_other _ _ _ _ hvu⟩
  · intro v hv hv2
    by_cases hvu : v = u
    · subst hvu; rw [hfu]; exact ⟨Nat.lt_succ_self _, Relation.ReflTransGen.refl⟩
    · rw [hfound v hvu] at hv2; exact absurd hv hv2
  · intro a hau ha ha2
    rw [hfound a hau] at ha2; exact absurd ha ha2
  · refine ⟨[], rfl, ?_, ?_⟩
    · intro y hy; exact absurd hy (List.not_mem_nil _)
    · intro y hy; exact absurd hy (List.not_mem_nil _)

end Ferate

namespace Ferate

/-- Lowering `low_link[u]` keeps the invariant of the neighbour loop. -/
theorem fer_sloop_set_low {adj : Nat → List Nat} {has_rail : Nat → Bool} {n u : Nat}
    {s s1 : Tarj} (h : SLoop adj has_rail n u s s1) (hu : s.found u = INF) (m : Nat)
    (hm1 : m ≤ s1.low_link u)
    (hm2 : ∃ w ∈ s1.st, m = s1.found w ∧ TReach adj has_rail u w ∧ s1.found w ≤ s1.found u) :
    SLoop adj has_rail n u s { s1 with low_link := upd s1.low_link u m } := by
  refine ⟨fer_sinv_set_low h.inv u m (fun _ => hm2), ?_, h.found_u, h.newer, h.closed_new, ?_,
    h.sccs⟩
  · intro v hv
    have hvu : v ≠ u := fun e => hv (e ▸ hu)
    refine ⟨(h.frame v hv).1, ?_⟩
    show upd s1.low_link u m v = s.low_link v
    rw [fer_upd_other _ _ _ _ hvu]; exact (h.frame v hv).2
  · obtain ⟨seg, h1, h2, h3⟩ := h.stack
    refine ⟨seg, h1, h2, ?_⟩
    intro a ha b hb hab
    show upd s1.low_link u m u ≤ s.found b
    rw [fer_upd_same]
    exact le_trans hm1 (h3 a ha b hb hab)

/-- In the neighbour loop of `tarjan(u)` every node of the stack reaches `u`. -/
theorem fer_sloop_reach {adj : Nat → List Nat} {has_rail : Nat → Bool} {n u : Nat}
    {s s1 : Tarj} (h : SLoop adj has_rail n u s s1)
    (hC : ∀ y ∈ s.st, TReach adj has_rail y u) : ∀ y ∈ s1.st, TReach adj has_rail y u := by
  obtain ⟨seg, h1, h2, _⟩ := h.stack
  intro y hy
  rw [h1] at hy
  rcases List.mem_append.1 hy with hy1 | hy1
  · exact (h2 y hy1).2.2
  · rcases List.mem_cons.1 hy1 with e | hy2
    · rw [e]; exact Relation.ReflTransGen.refl
    · exact hC y hy2

theorem fer_sloop_u_mem {adj : Nat → List Nat} {has_rail : Nat → Bool} {n u : Nat}
    {s s1 : Tarj} (h : SLoop adj has_rail n u s s1) : u ∈ s1.st := by
  obtain ⟨seg, h1, _, _⟩ := h.stack
  rw [h1]; simp

theorem fer_sloop_old_mem {adj : Nat → List Nat} {has_rail : Nat → Bool} {n u : Nat}
    {s s1 : Tarj} (h : SLoop adj has_rail n u s s1) {b : Nat} (hb : b ∈ s.st) : b ∈ s1.st := by
  obtain ⟨seg, h1, _, _⟩ := h.stack
  rw [h1]; simp [hb]

theorem fer_sloop_low_le {adj : Nat → List Nat} {has_rail : Nat → Bool} {n u : Nat}
    {s s1 : Tarj} (h : SLoop adj has_rail n u s s1) : s1.low_link u ≤ s1.found u := by
  obtain ⟨w, _, h1, _, h2⟩ := h.inv.low u (fer_sloop_u_mem h)
  rw [h1]; exact h2

theorem fer_sloop_time {adj : Nat → List Nat} {has_rail : Nat → Bool} {n u : Nat}
    {s s1 : Tarj} (h : SLoop adj has_rail n u s s1) : s.time < s1.time := by
  have h1 := (h.inv.ok u ((h.inv.vis u).2 (Or.inl (fer_sloop_u_mem h)))).2.2.2
  rw [h.found_u] at h1
  omega

/-- A call `tarjan(x)` for a neighbour `x` of `u`, followed by the update of
`low_link[u]`, keeps the invariant of the neighbour loop of `tarjan(u)`. -/
theorem fer_sloop_child {adj : Nat → List Nat} {has_rail : Nat → Bool} {n u x : Nat}
    {s si s1 : Tarj} (hs : SInv adj has_rail n s) (h : SLoop adj has_rail n u s si)
    (hp : SPost adj has_rail n x si s1) (hC : ∀ y ∈ s.st, TReach adj has_rail y u)
    (hux : TEdge adj has_rail u x) (hsx : si.found x = INF) :
    SLoop adj has_rail n u s
      { s1 with low_link := upd s1.low_link u (min (s1.low_link u) (s1.low_link x)) } := by
  have huv : si.found u ≠ INF := (h.inv.vis u).2 (Or.inl (fer_sloop_u_mem h))
  have hold : ∀ v, s.found v ≠ INF → si.found v ≠ INF := by
    intro v hv
    rw [(h.frame v hv).1]; exact hv
  have hsu : s.found u = INF := by
    by_contra hne
    have h1 := (h.frame u hne).1
    have h2 := (hs.ok u hne).2.2.2
    rw [h.found_u] at h1
    omega
  obtain ⟨seg, h1, h2, h3⟩ := h.stack
  obtain ⟨segx, g1, g2, g3, g4⟩ := hp.stack
  have hu1 : u ∈ s1.st := by rw [g1]; exact List.mem_append_right _ (fer_sloop_u_mem h)
  have hlow_u : s1.low_link u ≤ s1.found u := by
    obtain ⟨w, _, e1, _, e2⟩ := hp.inv.low u hu1
    rw [e1]; exact e2
  refine ⟨fer_sinv_set_low hp.inv u _ ?_, ?_, ?_, ?_, ?_, ?_, ?_⟩
  · intro _
    by_cases hle : s1.low_link u ≤ s1.low_link x
    · rw [Nat.min_eq_left hle]
      exact hp.inv.low u hu1
    · rw [Nat.min_eq_right (by omega)]
      rcases g4 with ⟨_, e⟩ | hxs
      · have e1 := (hp.newer x hsx hp.vis_u).1
        have e2 := (h.inv.ok u huv).2.2.2
        have e3 := (hp.frame u huv).1
        omega
      · have hx1 : x ∈ s1.st := by rw [g1]; exact List.mem_append_left _ hxs
        obtain ⟨w, hw, e1, e2, e3⟩ := hp.inv.low x hx1
        exact ⟨w, hw, e1, Relation.ReflTransGen.head hux e2, by omega⟩
  · intro v hv
    have hvu : v ≠ u := fun e => hv (e ▸ hsu)
    have f1 := h.frame v hv
    have f2 := hp.frame v (hold v hv)
    refine ⟨f2.1.trans f1.1, ?_⟩
    show upd s1.low_link u _ v = s.low_link v
    rw [fer_upd_other _ _ _ _ hvu]
    exact f2.2.trans f1.2
  · show s1.found u = s.time + 1
    rw [(hp.frame u huv).1]; exact h.found_u
  · intro v hv hv2
    have hv3 : s1.found v ≠ INF := hv2
    by_cases hsi : si.found v = INF
    · obtain ⟨e1, e2⟩ := hp.newer v hsi hv3
      have := fer_sloop_time h
      exact ⟨by show s.time < s1.found v; omega, Relation.ReflTransGen.head hux e2⟩
    · show s.time < s1.found v ∧ _
      rw [(hp.frame v hsi).1]
      exact h.newer v hv hsi
  · intro a hau ha ha2 b hab
    have ha3 : s1.found a ≠ INF := ha2
    show s1.found b ≠ INF
    by_cases hsi : si.found a = INF
    · exact hp.closed_new a hsi ha3 b hab
    · have e1 := h.closed_new a hau ha hsi b hab
      rw [(hp.frame b e1).1]; exact e1
  · refine ⟨segx ++ seg, ?_, ?_, ?_⟩
    · show s1.st = _
      rw [g1, h1, List.append_assoc]
    · intro y hy
      rcases List.mem_append.1 hy with hy1 | hy1
      · obtain ⟨e1, w, hw, e2⟩ := g2 y hy1
        refine ⟨?_, ?_, e2.trans (fer_sloop_reach h hC w hw)⟩
        · by_contra hne
          exact hold y hne e1
        · intro e
          rw [e] at e1
          exact huv e1
      · exact h2 y hy1
    · intro a ha b hb hab
      show upd s1.low_link u _ u ≤ s.found b
      rw [fer_upd_same]
      rcases List.mem_append.1 ha with ha1 | ha1
      · have e1 := g3 a ha1 b (fer_sloop_old_mem h hb) hab
        have e2 := (h.frame b ((hs.vis b).2 (Or.inl hb))).1
        have := Nat.min_le_right (s1.low_link u) (s1.low_link x)
        omega
      · have e1 := h3 a ha1 b hb hab
        have e2 := (hp.frame u huv).2
        have := Nat.min_le_left (s1.low_link u) (s1.low_link x)
        omega
  · obtain ⟨l1, e1⟩ := h.sccs
    obtain ⟨l2, e2⟩ := hp.sccs
    exact ⟨l1 ++ l2, by show s1.all_sccs = _; rw [e2, e1, List.append_assoc]⟩

/-- The body of the neighbour loop of `tarjan(u)` for a neighbour `x` keeps the invariant
of the loop; afterwards `x` is discovered unless it has a rail, and `low_link[u]` is at
most the discovery time of `x` when `x` was on the stack at the call. -/
theorem fer_tarjan_step {adj : Nat → List Nat} {has_rail : Nat → Bool} {n : Nat}
    (hrange : ∀ a x, x ∈ adj a → 1 ≤ x ∧ x ≤ n) (f : Nat)
    (IH : ∀ u s, SInv adj has_rail n s → s.found u = INF → has_rail u = false → 1 ≤ u →
      u ≤ n → (∀ y ∈ s.st, TReach adj has_rail y u) → twhite n has_rail s.found ≤ f →
      ∃ s2, tarjan adj has_rail f u s = some s2 ∧ SPost adj has_rail n u s s2)
    {u : Nat} {s si : Tarj} (hs : SInv adj has_rail n s) (hsu : s.found u = INF)
    (hC : ∀ y ∈ s.st, TReach adj has_rail y u) (h : SLoop adj has_rail n u s si)
    (hw : twhite n has_rail si.found ≤ f) (x : Nat) (hx : x ∈ adj u) :
    ∃ s2, tarjan_step (tarjan adj has_rail f) has_rail u si x = some s2 ∧
      SLoop adj has_rail n u s s2 ∧
      (∀ v, si.found v ≠ INF → s2.found v = si.found v) ∧
      s2.low_link u ≤ si.low_link u ∧
      (has_rail x = false → s2.found x ≠ INF) ∧
      (x ∈ s.st → s2.low_link u ≤ s.found x) := by
  have huv : si.found u ≠ INF := (h.inv.vis u).2 (Or.inl (fer_sloop_u_mem h))
  unfold tarjan_step
  by_cases hc : si.found x = INF ∧ has_rail x = false
  · rw [if_pos hc]
    have hxr := hrange u x hx
    have hux : TEdge adj has_rail u x := ⟨hx, hc.2⟩
    have hCx : ∀ y ∈ si.st, TReach adj has_rail y x := fun y hy =>
      Relation.ReflTransGen.tail (fer_sloop_reach h hC y hy) hux
    obtain ⟨s1, hs1, hp⟩ := IH x si h.inv hc.1 hc.2 hxr.1 hxr.2 hCx hw
    rw [hs1]
    refine ⟨_, rfl, fer_sloop_child hs h hp hC hux hc.1, ?_, ?_, ?_, ?_⟩
    · intro v hv
      exact (hp.frame v hv).1
    · show upd s1.low_link u _ u ≤ si.low_link u
      rw [fer_upd_same, ← (hp.frame u huv).2]
      exact Nat.min_le_left _ _
    · intro _
      exact hp.vis_u
    · intro hxs
      have e1 := (h.frame x ((hs.vis x).2 (Or.inl hxs))).1
      have e2 := (hs.vis x).2 (Or.inl hxs)
      rw [← e1] at e2
      exact absurd hc.1 e2
  · rw [if_neg hc]
    by_cases hin : si.in_stack x = true
    · rw [if_pos hin]
      have hxs : x ∈ si.st := (h.inv.instack x).1 hin
      have hxv : si.found x ≠ INF := (h.inv.vis x).2 (Or.inl hxs)
      have hux : TEdge adj has_rail u x := ⟨hx, (h.inv.ok x hxv).1⟩
      obtain ⟨w, hw1, e1, e2, e3⟩ := h.inv.low x hxs
      have hlow := fer_sloop_low_le h
      refine ⟨_, rfl, fer_sloop_set_low h hsu _ (Nat.min_le_left _ _) ?_, fun v _ => rfl, ?_,
        fun _ => hxv, ?_⟩
      · by_cases hle : si.low_link u ≤ si.low_link x
        · rw [Nat.min_eq_left hle]
          exact h.inv.low u (fer_sloop_u_mem h)
        · rw [Nat.min_eq_right (by omega)]
          exact ⟨w, hw1, e1, Relation.ReflTransGen.head hux e2, by omega⟩
      · show upd si.low_link u _ u ≤ si.low_link u
        rw [fer_upd_same]; exact Nat.min_le_left _ _
      · intro hxs0
        show upd si.low_link u _ u ≤ s.found x
        rw [fer_upd_same]
        have e4 := (h.frame x ((hs.vis x).2 (Or.inl hxs0))).1
        have := Nat.min_le_right (si.low_link u) (si.low_link x)
        omega
    · rw [if_neg hin]
      refine ⟨si, rfl, h, fun v _ => rfl, le_refl _, ?_, ?_⟩
      · intro hr
        intro e
        exact hc ⟨e, hr⟩
      · intro hxs0
        exact absurd ((h.inv.instack x).2 (fer_sloop_old_mem h hxs0)) hin

/-- The neighbour loop of `tarjan(u)` on the rest `l` of the neighbours of `u`. -/
theorem fer_tarjan_fold {adj : Nat → List Nat} {has_rail : Nat → Bool} {n : Nat}
    (hrange : ∀ a x, x ∈ adj a → 1 ≤ x ∧ x ≤ n) (f : Nat)
    (IH : ∀ u s, SInv adj has_rail n s → s.found u = INF → has_rail u = false → 1 ≤ u →
      u ≤ n → (∀ y ∈ s.st, TReach adj has_rail y u) → twhite n has_rail s.found ≤ f →
      ∃ s2, tarjan adj has_rail f u s = some s2 ∧ SPost adj has_rail n u s s2)
    {u : Nat} {s : Tarj} (hs : SInv adj has_rail n s) (hsu : s.found u = INF)
    (hC : ∀ y ∈ s.st, TReach adj has_rail y u) :
    ∀ (l : List Nat) (si : Tarj), (∀ x ∈ l, x ∈ adj u) → SLoop adj has_rail n u s si →
    twhite n has_rail si.found ≤ f →
    ∃ s2, l.foldlM (tarjan_step (tarjan adj has_rail f) has_rail u) si = some s2 ∧
      SLoop adj has_rail n u s s2 ∧
      (∀ v, si.found v ≠ INF → s2.found v = si.found v) ∧
      s2.low_link u ≤ si.low_link u ∧
      (∀ x ∈ l, (has_rail x = false → s2.found x ≠ INF) ∧
        (x ∈ s.st → s2.low_link u ≤ s.found x)) := by
  intro l
  induction l with
  | nil =>
    intro si _ h _
    exact ⟨si, rfl, h, fun v _ => rfl, le_refl _, fun x hx => absurd hx (List.not_mem_nil _)⟩
  | cons x rest ih =>
    intro si hl h hw
    obtain ⟨s1, hs1, hl1, hf1, hlow1, hp1, hp2⟩ :=
      fer_tarjan_step hrange f IH hs hsu hC h hw x (hl x (List.mem_cons_self _ _))
    have hw1 : twhite n has_rail s1.found ≤ f :=
      le_trans (fer_twhite_mono n has_rail _ _ (fun v hv => by rw [hf1 v hv]; exact hv)) hw
    obtain ⟨s2, hs2, hl2, hf2, hlow2, hall⟩ :=
      ih s1 (fun y hy => hl y (List.mem_cons_of_mem _ hy)) hl1 hw1
    rw [List.foldlM_cons, hs1]
    refine ⟨s2, hs2, hl2, ?_, le_trans hlow2 hlow1, ?_⟩
    · intro v hv
      have e1 := hf1 v hv
      rw [hf2 v (by rw [e1]; exact hv), e1]
    · intro y hy
      rcases List.mem_cons.1 hy with e | hy1
      · subst e
        refine ⟨fun hr => ?_, fun hys => le_trans hlow2 (hp2 hys)⟩
        rw [hf2 y (hp1 hr)]; exact hp1 hr
      · exact hall y hy1

end Ferate

namespace Ferate

theorem fer_mem_flatten_snoc (A : List (List Nat)) (K : List Nat) (v : Nat) :
    v ∈ (A ++ [K]).flatten ↔ v ∈ A.flatten ∨ v ∈ K := by
  simp

/-- The end of `tarjan(u)`: after the neighbour loop the call has done what `SPost` says. -/
theorem fer_tarjan_finish {adj : Nat → List Nat} {has_rail : Nat → Bool} {n u : Nat}
    {s s2 : Tarj} (hs : SInv adj has_rail n s) (hsu : s.found u = INF)
    (h : SLoop adj has_rail n u s s2)
    (hall : ∀ x ∈ adj u, (has_rail x = false → s2.found x ≠ INF) ∧
      (x ∈ s.st → s2.low_link u ≤ s.found x)) :
    ∃ s3, tarjan_finish u s2 = some s3 ∧ SPost adj has_rail n u s s3 := by
  obtain ⟨seg, h1, h2, h3⟩ := h.stack
  have hu2 : u ∈ s2.st := fer_sloop_u_mem h
  have huv : s2.found u ≠ INF := (h.inv.vis u).2 (Or.inl hu2)
  have hclosed_u : ∀ b, TEdge adj has_rail u b → s2.found b ≠ INF :=
    fun b hb => (hall b hb.1).1 hb.2
  have hclosed : ∀ a, s.found a = INF → s2.found a ≠ INF →
      ∀ b, TEdge adj has_rail a b → s2.found b ≠ INF := by
    intro a ha ha2 b hab
    by_cases hau : a = u
    · subst hau; exact hclosed_u b hab
    · exact h.closed_new a hau ha ha2 b hab
  have hcross : ∀ a ∈ seg ++ [u], ∀ b ∈ s.st, TEdge adj has_rail a b →
      s2.low_link u ≤ s.found b := by
    intro a ha b hb hab
    rcases List.mem_append.1 ha with ha1 | ha1
    · exact h3 a ha1 b hb hab
    · rw [List.mem_singleton] at ha1
      subst ha1
      exact (hall b hab.1).2 hb
  have hold : ∀ b ∈ s.st, s2.found b = s.found b ∧ s.found b ≤ s.time := by
    intro b hb
    have hv := (hs.vis b).2 (Or.inl hb)
    exact ⟨(h.frame b hv).1, (hs.ok b hv).2.2.2⟩
  have hKnew : ∀ y ∈ seg ++ [u], s.found y = INF ∧ s.time < s2.found y := by
    intro y hy
    rcases List.mem_append.1 hy with hy1 | hy1
    · have e1 := (h2 y hy1).1
      have hy2 : y ∈ s2.st := by rw [h1]; exact List.mem_append_left _ hy1
      exact ⟨e1, (h.newer y e1 ((h.inv.vis y).2 (Or.inl hy2))).1⟩
    · rw [List.mem_singleton] at hy1
      subst hy1
      exact ⟨hsu, (h.newer y hsu huv).1⟩
  have hKu : ∀ y ∈ seg ++ [u], TReach adj has_rail y u := by
    intro y hy
    rcases List.mem_append.1 hy with hy1 | hy1
    · exact (h2 y hy1).2.2
    · rw [List.mem_singleton] at hy1
      rw [hy1]; exact Relation.ReflTransGen.refl
  have hst : s2.st = (seg ++ [u]) ++ s.st := by rw [h1]; simp
  have hKst : ∀ y ∈ seg ++ [u], y ∈ s2.st := by
    intro y hy; rw [hst]; exact List.mem_append_left _ hy
  have hlow := fer_sloop_low_le h
  unfold tarjan_finish
  by_cases heq : s2.found u = s2.low_link u
  · rw [if_pos heq]
    have hunot : u ∉ seg := fun hin => (h2 u hin).2.1 rfl
    obtain ⟨ins2, hpop, hins⟩ := fer_pop_scc u s.st seg s2.in_stack [] hunot
    rw [h1, hpop]
    simp only [List.nil_append]
    refine ⟨_, rfl, ?_⟩
    -- no arc leaves the popped nodes and the older lists
    have hKclosed : ∀ a ∈ seg ++ [u], ∀ b, TEdge adj has_rail a b →
        b ∈ s2.all_sccs.flatten ∨ b ∈ seg ++ [u] := by
      intro a ha b hab
      have hbv := hclosed a (hKnew a ha).1 ((h.inv.vis a).2 (Or.inl (hKst a ha))) b hab
      rcases (h.inv.vis b).1 hbv with hb | hb
      · rw [hst] at hb
        rcases List.mem_append.1 hb with hb1 | hb1
        · exact Or.inr hb1
        · have e1 := hcross a ha b hb1 hab
          have e2 := (hold b hb1).2
          have e3 := h.found_u
          omega
      · exact Or.inl hb
    have hKmax : ∀ c, TReach adj has_rail u c → TReach adj has_rail c u → c ∈ seg ++ [u] := by
      intro c hc
      induction hc with
      | refl => intro _; simp
      | @tail b c _ hbc ih =>
        intro hcu
        have hb := ih (Relation.ReflTransGen.head hbc hcu)
        rcases hKclosed b hb c hbc with hc1 | hc1
        · have := fer_closed_reach (S := fun v => v ∈ s2.all_sccs.flatten)
            (fun a ha b hab => h.inv.closed a ha b hab) hcu hc1
          exact absurd this (h.inv.disj u hu2)
        · exact hc1
    have hinv : SInv adj has_rail n
        { s2 with st := s.st, in_stack := ins2, all_sccs := s2.all_sccs ++ [seg ++ [u]] } := by
      refine ⟨?_, ?_, ?_, ?_, h.inv.ok, h.inv.budget, ?_, ?_, ?_, ?_⟩
      · show s.st.Pairwise (fun a b => s2.found b < s2.found a)
        have := h.inv.sorted
        rw [hst] at this
        exact (List.pairwise_append.1 this).2.1
      · intro v
        show ins2 v = true ↔ v ∈ s.st
        rw [hins v]
        by_cases hv : v ∈ seg ∨ v = u
        · rw [if_pos hv]
          have hvK : v ∈ seg ++ [u] := by
            rcases hv with hv1 | hv1
            · exact List.mem_append_left _ hv1
            · rw [hv1]; simp
          constructor
          · intro e; exact absurd e (by decide)
          · intro hvs
            exact absurd (hKnew v hvK).1 ((hs.vis v).2 (Or.inl hvs))
        · rw [if_neg hv, h.inv.instack v, h1]
          simp only [List.mem_append, List.mem_cons]
          tauto
      · intro v
        show s2.found v ≠ INF ↔ (v ∈ s.st ∨ v ∈ (s2.all_sccs ++ [seg ++ [u]]).flatten)
        rw [h.inv.vis v, fer_mem_flatten_snoc, hst]
        simp only [List.mem_append]
        tauto
      · intro v hv
        show v ∉ (s2.all_sccs ++ [seg ++ [u]]).flatten
        rw [fer_mem_flatten_snoc]
        have hv2 : v ∈ s2.st := by rw [hst]; exact List.mem_append_right _ hv
        intro hor
        rcases hor with e | e
        · exact h.inv.disj v hv2 e
        · exact absurd (hKnew v e).1 ((hs.vis v).2 (Or.inl hv))
      · intro v hv
        have hv1 : v ∈ s.st := hv
        have hv2 : v ∈ s2.st := by rw [hst]; exact List.mem_append_right _ hv1
        obtain ⟨w, hw, e1, e2, e3⟩ := h.inv.low v hv2
        refine ⟨w, ?_, e1, e2, e3⟩
        show w ∈ s.st
        rw [hst] at hw
        rcases List.mem_append.1 hw with hw1 | hw1
        · have e4 := (hKnew w hw1).2
          have e5 := hold v hv1
          omega
        · exact hw1
      · intro c hc
        have hc1 : c ∈ s2.all_sccs ++ [seg ++ [u]] := hc
        rcases List.mem_append.1 hc1 with hc2 | hc2
        · exact h.inv.scc c hc2
        · rw [List.mem_singleton] at hc2
          subst hc2
          refine ⟨by simp, ?_⟩
          intro a ha b
          have hau := hKu a ha
          have hua := (h.newer a (hKnew a ha).1 ((h.inv.vis a).2 (Or.inl (hKst a ha)))).2
          constructor
          · intro hb
            have hbu := hKu b hb
            have hub := (h.newer b (hKnew b hb).1 ((h.inv.vis b).2 (Or.inl (hKst b hb)))).2
            exact ⟨hau.trans hub, hbu.trans hua⟩
          · rintro ⟨hab, hba⟩
            exact hKmax b (hua.trans hab) (hba.trans hau)
      · show (s2.all_sccs ++ [seg ++ [u]]).flatten.Nodup
        have e : (s2.all_sccs ++ [seg ++ [u]]).flatten = s2.all_sccs.flatten ++ (seg ++ [u]) := by
          simp
        rw [e, List.nodup_append]
        refine ⟨h.inv.nodup, ?_, ?_⟩
        · have := fer_sorted_nodup h.inv.sorted
          rw [hst] at this
          exact (List.nodup_append.1 this).1
        · intro v hv1 hv2
          exact h.inv.disj v (hKst v hv2) hv1
      · intro a ha b hab
        have ha1 : a ∈ (s2.all_sccs ++ [seg ++ [u]]).flatten := ha
        show b ∈ (s2.all_sccs ++ [seg ++ [u]]).flatten
        rw [fer_mem_flatten_snoc] at ha1 ⊢
        rcases ha1 with ha2 | ha2
        · exact Or.inl (h.inv.closed a ha2 b hab)
        · exact hKclosed a ha2 b hab
    refine ⟨hinv, h.frame, huv, h.newer, hclosed, ⟨[], rfl, ?_, ?_, Or.inl ⟨rfl, heq.symm⟩⟩, ?_⟩
    · intro y hy; exact absurd hy (List.not_mem_nil _)
    · intro y hy; exact absurd hy (List.not_mem_nil _)
    · obtain ⟨l, e⟩ := h.sccs
      exact ⟨l ++ [seg ++ [u]], by
        show s2.all_sccs ++ [seg ++ [u]] = _
        rw [e, List.append_assoc]⟩
  · rw [if_neg heq]
    refine ⟨s2, rfl, h.inv, h.frame, huv, h.newer, hclosed, ⟨seg ++ [u], hst, ?_, ?_, ?_⟩, h.sccs⟩
    · obtain ⟨w, hw, e1, e2, e3⟩ := h.inv.low u hu2
      have hws : w ∈ s.st := by
        rw [hst] at hw
        rcases List.mem_append.1 hw with hw1 | hw1
        · rcases List.mem_append.1 hw1 with hw2 | hw2
          · have e4 := (hKnew w hw1).2
            have e5 := h.found_u
            omega
          · rw [List.mem_singleton] at hw2
            rw [hw2] at e1
            exact absurd e1.symm heq
        · exact hw1
      intro y hy
      exact ⟨(hKnew y hy).1, w, hws, (hKu y hy).trans e2⟩
    · exact hcross
    · right; simp

/-- `tarjan` returns when the bound on the recursion depth is at least the number of nodes
still to discover, and does what `SPost` says. -/
theorem fer_tarjan_spec {adj : Nat → List Nat} {has_rail : Nat → Bool} {n : Nat}
    (hrange : ∀ a x, x ∈ adj a → 1 ≤ x ∧ x ≤ n) (hINF : n < INF) :
    ∀ (f u : Nat) (s : Tarj), SInv adj has_rail n s → s.found u = INF →
    has_rail u = false → 1 ≤ u → u ≤ n → (∀ y ∈ s.st, TReach adj has_rail y u) →
    twhite n has_rail s.found ≤ f →
    ∃ s2, tarjan adj has_rail f u s = some s2 ∧ SPost adj has_rail n u s s2 := by
  intro f
  induction f with
  | zero =>
    intro u s hs hsu hr h1 h2 _ hw
    have := (fer_enter hINF hs u hsu hr h1 h2).2
    omega
  | succ f ih =>
    intro u s hs hsu hr h1 h2 hC hw
    obtain ⟨hl, hlt⟩ := fer_enter hINF hs u hsu hr h1 h2
    obtain ⟨s2, hs2, hl2, _, _, hall⟩ := fer_tarjan_fold hrange f ih hs hsu hC (adj u)
      (tarjan_enter u s) (fun x hx => hx) hl (by omega)
    obtain ⟨s3, hs3, hp⟩ := fer_tarjan_finish hs hsu hl2 hall
    refine ⟨s3, ?_, hp⟩
    rw [tarjan, hs2]
    exact hs3

end Ferate

namespace Ferate

theorem fer_white_init (n : Nat) : white n (fun _ => false) = n := by
  unfold white
  simp

theorem fer_INF_gt {n : Nat} (h : n < NMAX) : n < INF := by
  unfold NMAX at h; unfold INF; omega

/-- Before the redirection `dfs` follows the arcs of the input. -/
theorem fer_edge_init {n : Nat} {arcs : List (Nat × Nat)}
    (hin : ∀ e ∈ arcs, (1 ≤ e.1 ∧ e.1 ≤ n) ∧ (1 ≤ e.2 ∧ e.2 ≤ n)) (a b : Nat) :
    Edge (read_input arcs) (init_redirect n) a b ↔ Arc arcs a b := by
  unfold Edge
  constructor
  · rintro ⟨x, hx, hxb⟩
    have hx2 := (fer_mem_read_input arcs a x).1 hx
    have hr := (hin _ hx2).2
    rw [fer_init_redirect_in n x hr.1 hr.2] at hxb
    rw [← hxb]; exact hx2
  · intro h
    have hr := (hin _ h).2
    exact ⟨b, (fer_mem_read_input arcs a b).2 h, fer_init_redirect_in n b hr.1 hr.2⟩

theorem fer_range_init {n : Nat} {arcs : List (Nat × Nat)}
    (hin : ∀ e ∈ arcs, (1 ≤ e.1 ∧ e.1 ≤ n) ∧ (1 ≤ e.2 ∧ e.2 ≤ n)) :
    ∀ a x, x ∈ read_input arcs a → 1 ≤ init_redirect n x ∧ init_redirect n x ≤ n := by
  intro a x hx
  have hr := (hin _ ((fer_mem_read_input arcs a x).1 hx)).2
  rw [fer_init_redirect_in n x hr.1 hr.2]; exact hr

theorem fer_cntinv_init (n : Nat) : CntInv n rails_init := by
  unfold CntInv rails_init
  simp

/-- The first call `dfs(s)` of `get_result` gives a rail to the nodes reachable from `s`
and to no other node, and leaves the edges and the counter alone. -/
theorem fer_first_dfs {n : Nat} {arcs : List (Nat × Nat)} {s : Nat} (valid : Valid n arcs s)
    (fuel : Nat) (hfuel : n ≤ fuel) :
    ∃ r1, dfs (read_input arcs) (init_redirect n) 0 fuel s rails_init = some r1 ∧
      (∀ v, r1.has_rail v = true ↔ Reach arcs s v) ∧
      (∀ v, r1.has_edge v = false) ∧ r1.cnt = 0 := by
  obtain ⟨r1, hr1, hg⟩ := @fer_dfs_spec (read_input arcs) (init_redirect n) 0 n (fer_range_init valid.arcs_in) fuel s
    rails_init rfl valid.s_in.1 valid.s_in.2 (by
      show white n (fun _ => false) ≤ fuel
      rw [fer_white_init]; exact hfuel)
  have hmono : ∀ a b, Relation.ReflTransGen (Edge (read_input arcs) (init_redirect n)) a b →
      Reach arcs a b := by
    intro a b h
    exact Relation.ReflTransGen.mono (fun x y hxy => (fer_edge_init valid.arcs_in x y).1 hxy) h
  have hedge : ∀ v, r1.has_edge v = false := by
    intro v
    cases hv : r1.has_edge v with
    | false => rfl
    | true =>
      have := hg.edge_mono v hv
      exact absurd this (by simp [rails_init])
  refine ⟨r1, hr1, ?_, hedge, ?_⟩
  · intro v
    constructor
    · intro hv
      exact hmono s v (hg.reach v rfl hv)
    · intro hv
      induction hv with
      | refl => exact hg.self
      | @tail b c _ hbc ih =>
        exact hg.closed b rfl ih trivial c ((fer_edge_init valid.arcs_in b c).2 hbc)
  · have := (hg.cnt (fer_cntinv_init n)).1
    rw [this]
    have h0 : (List.range' 1 n).countP r1.has_edge = 0 := by
      rw [List.countP_eq_zero]
      intro a _
      rw [hedge a]; decide
    rw [h0]; rfl

theorem fer_sinv_init (adj : Nat → List Nat) (has_rail : Nat → Bool) (n : Nat) :
    SInv adj has_rail n tarj_init := by
  refine ⟨List.Pairwise.nil, ?_, ?_, ?_, ?_, ?_, ?_, ?_, List.nodup_nil, ?_⟩
  · intro v; simp [tarj_init]
  · intro v; simp [tarj_init]
  · intro v hv; simp [tarj_init]
  · intro v hv; exact absurd rfl hv
  · show 0 + twhite n has_rail tarj_init.found ≤ n
    have := fer_twhite_le n has_rail tarj_init.found
    omega
  · intro v hv; exact absurd hv (List.not_mem_nil _)
  · intro c hc; exact absurd hc (List.not_mem_nil _)
  · intro a ha; exact absurd ha (List.not_mem_nil _)

/-- The loop of `get_result` that calls `tarjan`, on the rest `l` of the nodes. -/
theorem fer_tarjan_loop_fold {adj : Nat → List Nat} {has_rail : Nat → Bool} {n : Nat}
    (hrange : ∀ a x, x ∈ adj a → 1 ≤ x ∧ x ≤ n) (hINF : n < INF) (fuel : Nat)
    (hfuel : n ≤ fuel) : ∀ (l : List Nat) (s : Tarj), (∀ i ∈ l, 1 ≤ i ∧ i ≤ n) →
    SInv adj has_rail n s → s.st = [] →
    ∃ s2, l.foldlM (tarjan_loop_step adj has_rail fuel) s = some s2 ∧
      SInv adj has_rail n s2 ∧ s2.st = [] ∧
      (∀ v, s.found v ≠ INF → s2.found v ≠ INF) ∧
      (∀ i ∈ l, has_rail i = false → s2.found i ≠ INF) := by
  intro l
  induction l with
  | nil =>
    intro s _ hs hst
    exact ⟨s, rfl, hs, hst, fun v hv => hv, fun i hi => absurd hi (List.not_mem_nil _)⟩
  | cons i rest ih =>
    intro s hl hs hst
    have hi := hl i (List.mem_cons_self _ _)
    have hstep : ∃ s1, tarjan_loop_step adj has_rail fuel s i = some s1 ∧
        SInv adj has_rail n s1 ∧ s1.st = [] ∧
        (∀ v, s.found v ≠ INF → s1.found v ≠ INF) ∧
        (has_rail i = false → s1.found i ≠ INF) := by
      unfold tarjan_loop_step
      by_cases hc : s.found i = INF ∧ has_rail i = false
      · rw [if_pos hc]
        obtain ⟨s1, hs1, hp⟩ := fer_tarjan_spec hrange hINF fuel i s hs hc.1 hc.2 hi.1 hi.2
          (by intro y hy; rw [hst] at hy; exact absurd hy (List.not_mem_nil _))
          (le_trans (fer_twhite_le n has_rail s.found) hfuel)
        refine ⟨s1, hs1, hp.inv, ?_, ?_, fun _ => hp.vis_u⟩
        · obtain ⟨seg, e1, e2, _, _⟩ := hp.stack
          have : seg = [] := by
            cases seg with
            | nil => rfl
            | cons y t =>
              obtain ⟨_, w, hw, _⟩ := e2 y (List.mem_cons_self _ _)
              rw [hst] at hw
              exact absurd hw (List.not_mem_nil _)
          rw [e1, this, hst]; rfl
        · intro v hv
          rw [(hp.frame v hv).1]; exact hv
      · rw [if_neg hc]
        refine ⟨s, rfl, hs, hst, fun v hv => hv, ?_⟩
        intro hr e
        exact hc ⟨e, hr⟩
    obtain ⟨s1, hs1, hinv1, hst1, hm1, hi1⟩ := hstep
    obtain ⟨s2, hs2, hinv2, hst2, hm2, hall⟩ :=
      ih s1 (fun j hj => hl j (List.mem_cons_of_mem _ hj)) hinv1 hst1
    rw [List.foldlM_cons, hs1]
    refine ⟨s2, hs2, hinv2, hst2, fun v hv => hm2 v (hm1 v hv), ?_⟩
    intro j hj hr
    rcases List.mem_cons.1 hj with e | hj1
    · subst e; exact hm2 j (hi1 hr)
    · exact hall j hj1 hr

/-- After the loop of `get_result` that calls `tarjan`, the lists of `all_sccs` share no
node, their nodes are the nodes of `1..n` without a rail, and each list is a strongly
connected component for the arcs between nodes without a rail. -/
theorem fer_tarjan_loop_spec {adj : Nat → List Nat} {has_rail : Nat → Bool} {n : Nat}
    (hrange : ∀ a x, x ∈ adj a → 1 ≤ x ∧ x ≤ n) (hINF : n < INF) (fuel : Nat)
    (hfuel : n ≤ fuel) :
    ∃ ts, tarjan_loop adj has_rail fuel n = some ts ∧
      ts.all_sccs.flatten.Nodup ∧
      (∀ v, v ∈ ts.all_sccs.flatten ↔ (1 ≤ v ∧ v ≤ n ∧ has_rail v = false)) ∧
      (∀ c ∈ ts.all_sccs, c ≠ [] ∧
        ∀ a ∈ c, ∀ b, b ∈ c ↔ (TReach adj has_rail a b ∧ TReach adj has_rail b a)) := by
  obtain ⟨ts, h1, hinv, hst, _, hall⟩ := fer_tarjan_loop_fold hrange hINF fuel hfuel
    (List.range' 1 n) tarj_init (fun i hi => by rw [List.mem_range'_1] at hi; omega)
    (fer_sinv_init adj has_rail n) rfl
  refine ⟨ts, h1, hinv.nodup, ?_, hinv.scc⟩
  intro v
  constructor
  · intro hv
    have := hinv.ok v ((hinv.vis v).2 (Or.inr hv))
    exact ⟨this.2.1, this.2.2.1, this.1⟩
  · rintro ⟨hv1, hv2, hv3⟩
    have := hall v (by rw [List.mem_range'_1]; omega) hv3
    rcases (hinv.vis v).1 this with h | h
    · rw [hst] at h; exact absurd h (List.not_mem_nil _)
    · exact h

end Ferate

namespace Ferate

/-- Between nodes that `s` does not reach, the arcs that `tarjan` follows give the
reachability of the graph. -/
theorem fer_treach_iff {arcs : List (Nat × Nat)} {s : Nat} {has_rail : Nat → Bool}
    (hR : ∀ v, has_rail v = true ↔ Reach arcs s v) (a b : Nat) (ha : has_rail a = false) :
    TReach (read_input arcs) has_rail a b ↔ (Reach arcs a b ∧ has_rail b = false) := by
  constructor
  · intro h
    induction h with
    | refl => exact ⟨Relation.ReflTransGen.refl, ha⟩
    | tail _ hbc ih =>
      exact ⟨Relation.ReflTransGen.tail ih.1 ((fer_mem_read_input arcs _ _).1 hbc.1), hbc.2⟩
  · rintro ⟨h, hb⟩
    induction h with
    | refl => exact Relation.ReflTransGen.refl
    | @tail c b _ hcb ih =>
      have hc : has_rail c = false := by
        cases hc : has_rail c with
        | false => rfl
        | true =>
          have := (hR b).2 (Relation.ReflTransGen.tail ((hR c).1 hc) hcb)
          rw [hb] at this
          exact absurd this (by decide)
      exact Relation.ReflTransGen.tail (ih hc) ⟨(fer_mem_read_input arcs _ _).2 hcb, hb⟩

theorem fer_mutual_iff {arcs : List (Nat × Nat)} {s : Nat} {has_rail : Nat → Bool}
    (hR : ∀ v, has_rail v = true ↔ Reach arcs s v) (a b : Nat) (ha : has_rail a = false) :
    (TReach (read_input arcs) has_rail a b ∧ TReach (read_input arcs) has_rail b a) ↔
      (Reach arcs a b ∧ Reach arcs b a) := by
  constructor
  · rintro ⟨h1, h2⟩
    have e1 := (fer_treach_iff hR a b ha).1 h1
    exact ⟨e1.1, ((fer_treach_iff hR b a e1.2).1 h2).1⟩
  · rintro ⟨h1, h2⟩
    have hb : has_rail b = false := by
      cases hb : has_rail b with
      | false => rfl
      | true =>
        have := (hR a).2 (((hR b).1 hb).trans h2)
        rw [ha] at this
        exact absurd this (by decide)
    exact ⟨(fer_treach_iff hR a b ha).2 ⟨h1, ha ▸ hb⟩, (fer_treach_iff hR b a hb).2 ⟨h2, ha⟩⟩

theorem fer_adj_range {n : Nat} {arcs : List (Nat × Nat)}
    (hin : ∀ e ∈ arcs, (1 ≤ e.1 ∧ e.1 ≤ n) ∧ (1 ≤ e.2 ∧ e.2 ≤ n)) :
    ∀ a x, x ∈ read_input arcs a → 1 ≤ x ∧ x ≤ n :=
  fun a x hx => (hin _ ((fer_mem_read_input arcs a x).1 hx)).2

/-- The two first phases of `get_result`: the rails of the nodes reachable from `s`, then
the lists of `all_sccs`, which are the strongly connected components of the nodes that `s`
does not reach. -/
theorem fer_sccs_spec {n : Nat} {arcs : List (Nat × Nat)} {s : Nat} (valid : Valid n arcs s)
    (fuel : Nat) (hfuel : n ≤ fuel) :
    ∃ r1 ts, dfs (read_input arcs) (init_redirect n) 0 fuel s rails_init = some r1 ∧
      tarjan_loop (read_input arcs) r1.has_rail fuel n = some ts ∧
      (∀ v, r1.has_rail v = true ↔ Reach arcs s v) ∧
      (∀ v, r1.has_edge v = false) ∧ r1.cnt = 0 ∧
      ts.all_sccs.flatten.Nodup ∧
      (∀ v, v ∈ ts.all_sccs.flatten ↔ (1 ≤ v ∧ v ≤ n ∧ ¬ Reach arcs s v)) ∧
      (∀ c ∈ ts.all_sccs, c ≠ [] ∧
        ∀ a ∈ c, ∀ b, b ∈ c ↔ (Reach arcs a b ∧ Reach arcs b a)) := by
  obtain ⟨r1, hr1, hR, hE, hcnt⟩ := fer_first_dfs valid fuel hfuel
  obtain ⟨ts, hts, hnd, hmem, hscc⟩ := @fer_tarjan_loop_spec (read_input arcs) r1.has_rail n
    (fer_adj_range valid.arcs_in) (fer_INF_gt valid.n_lt) fuel hfuel
  have hnot : ∀ v, r1.has_rail v = false ↔ ¬ Reach arcs s v := by
    intro v
    rw [← hR v]
    cases r1.has_rail v <;> simp
  refine ⟨r1, ts, hr1, hts, hR, hE, hcnt, hnd, ?_, ?_⟩
  · intro v
    rw [hmem v, hnot v]
  · intro c hc
    obtain ⟨h1, h2⟩ := hscc c hc
    refine ⟨h1, ?_⟩
    intro a ha b
    have har : r1.has_rail a = false :=
      ((hmem a).1 (List.mem_flatten.2 ⟨c, hc, ha⟩)).2.2
    rw [h2 a ha b, fer_mutual_iff hR a b har]

/-- C9 (ferate): for every graph with arcs between nodes of `1..n`, `n < NMAX`, and every
source `s` of `1..n`, the loop that calls `tarjan` ends (with any bound on the recursion
depth from `n` on) and leaves in `all_sccs` lists that are pairwise disjoint and without
repetition, whose union is exactly the set of the nodes of `1..n` not reachable from `s`,
and each of which is non-empty and holds, with any of its nodes, exactly the nodes
mutually reachable with it: one strongly connected component of the graph. -/
theorem ferate_all_sccs_are_components (n : Nat) (arcs : List (Nat × Nat)) (s : Nat)
    (valid : Valid n arcs s) (fuel : Nat) (hfuel : n ≤ fuel) :
    ∃ l, all_sccs fuel n arcs s = some l ∧
      l.Pairwise List.Disjoint ∧ (∀ c ∈ l, c.Nodup) ∧
      (∀ v, (∃ c ∈ l, v ∈ c) ↔ (1 ≤ v ∧ v ≤ n ∧ ¬ Reach arcs s v)) ∧
      (∀ c ∈ l, c ≠ [] ∧ ∀ a ∈ c, ∀ b, b ∈ c ↔ (Reach arcs a b ∧ Reach arcs b a)) := by
  obtain ⟨r1, ts, hr1, hts, _, _, _, hnd, hmem, hscc⟩ := fer_sccs_spec valid fuel hfuel
  refine ⟨ts.all_sccs, ?_, ?_, ?_, ?_, hscc⟩
  · unfold all_sccs
    rw [hr1]
    simp only
    rw [hts]
  · exact (List.nodup_flatten.1 hnd).2
  · exact (List.nodup_flatten.1 hnd).1
  · intro v
    rw [← hmem v, List.mem_flatten]

theorem fer_example_valid : Valid 5 [(1, 2), (3, 4), (4, 3), (5, 4), (2, 2)] 1 :=
  ⟨by decide, by decide, by decide⟩

/-- Witness for C9: five nodes, the arcs 1-2, 3-4, 4-3, 5-4 and the loop 2-2, source 1. The
nodes 3, 4, 5 are not reachable from 1, and `all_sccs` is `[[4, 3], [5]]`. -/
theorem ferate_all_sccs_are_components_witness :
    all_sccs 5 5 [(1, 2), (3, 4), (4, 3), (5, 4), (2, 2)] 1 = some [[4, 3], [5]] ∧
    ∃ l, all_sccs 5 5 [(1, 2), (3, 4), (4, 3), (5, 4), (2, 2)] 1 = some l ∧
      l.Pairwise List.Disjoint ∧ (∀ c ∈ l, c.Nodup) ∧
      (∀ v, (∃ c ∈ l, v ∈ c) ↔
        (1 ≤ v ∧ v ≤ 5 ∧ ¬ Reach [(1, 2), (3, 4), (4, 3), (5, 4), (2, 2)] 1 v)) ∧
      (∀ c ∈ l, c ≠ [] ∧ ∀ a ∈ c, ∀ b, b ∈ c ↔
        (Reach [(1, 2), (3, 4), (4, 3), (5, 4), (2, 2)] a b ∧
          Reach [(1, 2), (3, 4), (4, 3), (5, 4), (2, 2)] b a)) :=
  ⟨by decide,
    ferate_all_sccs_are_components 5 [(1, 2), (3, 4), (4, 3), (5, 4), (2, 2)] 1
      fer_example_valid 5 (by decide)⟩

end Ferate

namespace Ferate

/-- The loop that appends the neighbours of a node to the adjacency list of `scc0`. -/
theorem fer_push_all (scc0 : Nat) : ∀ (l : List Nat) (adj : Nat → List Nat),
    l.foldl (fun a neigh => upd a scc0 (a scc0 ++ [neigh])) adj
      = upd adj scc0 (adj scc0 ++ l) := by
  intro l
  induction l with
  | nil =>
    intro adj
    funext j
    by_cases hj : j = scc0
    · subst hj; simp [fer_upd_same]
    · simp [fer_upd_other _ _ _ _ hj]
  | cons x rest ih =>
    intro adj
    rw [List.foldl_cons, ih]
    funext j
    by_cases hj : j = scc0
    · subst hj; simp [fer_upd_same]
    · simp [fer_upd_other _ _ _ _ hj]

/-- The inner loop of the redirection over the nodes `t` of a list other than its first
node `h`. -/
theorem fer_merge_tail (h : Nat) : ∀ (t : List Nat) (m : Merged), h ∉ t →
    (∀ v, v ≠ h → (t.foldl (merge_node h) m).adj v = m.adj v) ∧
    (∀ x, x ∈ (t.foldl (merge_node h) m).adj h ↔ (x ∈ m.adj h ∨ ∃ a ∈ t, x ∈ m.adj a)) ∧
    (∀ v, (t.foldl (merge_node h) m).redirect v = if v ∈ t then h else m.redirect v) ∧
    (∀ v, (t.foldl (merge_node h) m).has_rail v = if v ∈ t then true else m.has_rail v) := by
  intro t
  induction t with
  | nil =>
    intro m _
    simp
  | cons node rest ih =>
    intro m hh
    have hnode : node ≠ h := fun e => hh (e ▸ List.mem_cons_self _ _)
    have hrest : h ∉ rest := fun e => hh (List.mem_cons_of_mem _ e)
    have hm1 : merge_node h m node =
        { adj := upd m.adj h (m.adj h ++ m.adj node)
          redirect := upd m.redirect node h
          has_rail := upd m.has_rail node true } := by
      unfold merge_node
      rw [if_neg hnode, fer_push_all]
    obtain ⟨e1, e2, e3, e4⟩ := ih (merge_node h m node) hrest
    rw [List.foldl_cons]
    refine ⟨?_, ?_, ?_, ?_⟩
    · intro v hv
      rw [e1 v hv, hm1]
      exact fer_upd_other _ _ _ _ hv
    · intro x
      rw [e2 x, hm1]
      simp only [fer_upd_same, List.mem_append, List.mem_cons, exists_eq_or_imp]
      have : (∃ a ∈ rest, x ∈ upd m.adj h (m.adj h ++ m.adj node) a) ↔
          ∃ a ∈ rest, x ∈ m.adj a := by
        constructor
        · rintro ⟨a, ha, hx⟩
          have hah : a ≠ h := fun e => hrest (e ▸ ha)
          rw [fer_upd_other _ _ _ _ hah] at hx
          exact ⟨a, ha, hx⟩
        · rintro ⟨a, ha, hx⟩
          have hah : a ≠ h := fun e => hrest (e ▸ ha)
          exact ⟨a, ha, by rw [fer_upd_other _ _ _ _ hah]; exact hx⟩
      rw [this]
      tauto
    · intro v
      rw [e3 v, hm1]
      by_cases hv : v ∈ rest
      · simp [hv]
      · by_cases hvn : v = node
        · subst hvn; simp [fer_upd_same]
        · simp [hv, hvn, fer_upd_other _ _ _ _ hvn]
    · intro v
      rw [e4 v, hm1]
      by_cases hv : v ∈ rest
      · simp [hv]
      · by_cases hvn : v = node
        · subst hvn; simp [fer_upd_same]
        · simp [hv, hvn, fer_upd_other _ _ _ _ hvn]

/-- The body of the redirection loop for the list `h :: t`. -/
theorem fer_merge_scc (m : Merged) (h : Nat) (t : List Nat) (hh : h ∉ t) :
    (∀ v, v ≠ h → (merge_scc m (h :: t)).adj v = m.adj v) ∧
    (∀ x, x ∈ (merge_scc m (h :: t)).adj h ↔ (x ∈ m.adj h ∨ ∃ a ∈ t, x ∈ m.adj a)) ∧
    (∀ v, (merge_scc m (h :: t)).redirect v = if v ∈ h :: t then h else m.redirect v) ∧
    (∀ v, (merge_scc m (h :: t)).has_rail v = if v ∈ t then true else m.has_rail v) := by
  have hm0 : merge_node h m h = { m with redirect := upd m.redirect h h } := by
    unfold merge_node
    rw [if_pos rfl]
  have hfold : merge_scc m (h :: t) = t.foldl (merge_node h) (merge_node h m h) := by
    unfold merge_scc
    rw [List.foldl_cons]
    rfl
  obtain ⟨e1, e2, e3, e4⟩ := fer_merge_tail h t (merge_node h m h) hh
  rw [hfold]
  refine ⟨?_, ?_, ?_, ?_⟩
  · intro v hv; rw [e1 v hv, hm0]
  · intro x
    rw [e2 x, hm0]
  · intro v
    rw [e3 v, hm0]
    by_cases hv : v ∈ t
    · simp [hv]
    · by_cases hvh : v = h
      · subst hvh; simp [fer_upd_same]
      · simp [hv, hvh, fer_upd_other _ _ _ _ hvh]
  · intro v
    rw [e4 v, hm0]

/-- The body of the redirection loop keeps `MSpec`. -/
theorem fer_mspec_step {adj0 : Nat → List Nat} {red0 : Nat → Nat} {hr0 : Nat → Bool}
    {P : List (List Nat)} {m : Merged} (hm : MSpec adj0 red0 hr0 P m) (c : List Nat)
    (hc : c ≠ []) (hnd : c.Nodup) (hdisj : ∀ c2 ∈ P, ∀ v ∈ c2, v ∉ c)
    (hP : ∀ c2 ∈ P, c2 ≠ []) :
    MSpec adj0 red0 hr0 (P ++ [c]) (merge_scc m c) := by
  cases c with
  | nil => exact absurd rfl hc
  | cons h t =>
    rw [List.nodup_cons] at hnd
    obtain ⟨e1, e2, e3, e4⟩ := fer_merge_scc m h t hnd.1
    have hout : ∀ v ∈ h :: t, ∀ c2 ∈ P, v ∉ c2 := by
      intro v hv c2 hc2 hv2
      exact hdisj c2 hc2 v hv2 hv
    refine ⟨?_, ?_, ?_⟩
    · intro v hv
      have hv1 : ∀ c2 ∈ P, v ∉ c2 := fun c2 hc2 => hv c2 (List.mem_append_left _ hc2)
      have hv2 : v ∉ h :: t := hv (h :: t) (by simp)
      have hvh : v ≠ h := fun e => hv2 (e ▸ List.mem_cons_self _ _)
      have hvt : v ∉ t := fun e => hv2 (List.mem_cons_of_mem _ e)
      obtain ⟨o1, o2, o3⟩ := hm.out v hv1
      refine ⟨by rw [e1 v hvh]; exact o1, by rw [e3 v, if_neg hv2]; exact o2,
        by rw [e4 v, if_neg hvt]; exact o3⟩
    · intro c2 hc2 v hv
      rcases List.mem_append.1 hc2 with hc3 | hc3
      · have hv2 : v ∉ h :: t := hdisj c2 hc3 v hv
        have hvh : v ≠ h := fun e => hv2 (e ▸ List.mem_cons_self _ _)
        have hvt : v ∉ t := fun e => hv2 (List.mem_cons_of_mem _ e)
        obtain ⟨i1, i2, i3⟩ := hm.inn c2 hc3 v hv
        refine ⟨by rw [e3 v, if_neg hv2]; exact i1, by rw [e4 v, if_neg hvt]; exact i2, ?_⟩
        intro hne
        rw [e1 v hvh]; exact i3 hne
      · rw [List.mem_singleton] at hc3
        subst hc3
        obtain ⟨o1, o2, o3⟩ := hm.out h (hout h (List.mem_cons_self _ _))
        refine ⟨by rw [e3 v, if_pos hv]; rfl, ?_, ?_⟩
        · show (merge_scc m (h :: t)).has_rail v = true ↔ (hr0 v = true ∨ v ≠ h)
          rw [e4 v]
          by_cases hvt : v ∈ t
          · have hvh : v ≠ h := fun e => hnd.1 (e ▸ hvt)
            simp [hvt, hvh]
          · have hvh : v = h := by
              rcases List.mem_cons.1 hv with e | e
              · exact e
              · exact absurd e hvt
            rw [if_neg hvt, hvh, o3]
            simp
        · intro hne
          have hne2 : v ≠ h := hne
          obtain ⟨o4, _, _⟩ := hm.out v (hout v hv)
          rw [e1 v hne2]; exact o4
    · intro c2 hc2 x
      rcases List.mem_append.1 hc2 with hc3 | hc3
      · have hhead : c2.headD 0 ∈ c2 := by
          cases c2 with
          | nil => exact absurd rfl (hP [] hc3)
          | cons y _ => simp
        have hv2 : c2.headD 0 ∉ h :: t := hdisj c2 hc3 _ hhead
        have hvh : c2.headD 0 ≠ h := fun e => hv2 (e ▸ List.mem_cons_self _ _)
        rw [e1 _ hvh]
        exact hm.head c2 hc3 x
      · rw [List.mem_singleton] at hc3
        subst hc3
        show x ∈ (merge_scc m (h :: t)).adj h ↔ _
        rw [e2 x]
        obtain ⟨o1, _, _⟩ := hm.out h (hout h (List.mem_cons_self _ _))
        rw [o1]
        have : (∃ a ∈ t, x ∈ m.adj a) ↔ ∃ a ∈ t, x ∈ adj0 a := by
          constructor
          · rintro ⟨a, ha, hx⟩
            obtain ⟨o4, _, _⟩ := hm.out a (hout a (List.mem_cons_of_mem _ ha))
            exact ⟨a, ha, by rw [← o4]; exact hx⟩
          · rintro ⟨a, ha, hx⟩
            obtain ⟨o4, _, _⟩ := hm.out a (hout a (List.mem_cons_of_mem _ ha))
            exact ⟨a, ha, by rw [o4]; exact hx⟩
        rw [this]
        simp only [List.mem_cons, exists_eq_or_imp]

/-- The redirection loop over the lists `rest`, the lists `P` being done. -/
theorem fer_mspec_fold {adj0 : Nat → List Nat} {red0 : Nat → Nat} {hr0 : Nat → Bool} :
    ∀ (rest P : List (List Nat)) (m : Merged), (P ++ rest).flatten.Nodup →
    (∀ c ∈ P ++ rest, c ≠ []) → MSpec adj0 red0 hr0 P m →
    MSpec adj0 red0 hr0 (P ++ rest) (rest.foldl merge_scc m) := by
  intro rest
  induction rest with
  | nil => intro P m _ _ hm; simpa using hm
  | cons c rest ih =>
    intro P m hnd hne hm
    have e : P ++ c :: rest = (P ++ [c]) ++ rest := by simp
    rw [List.foldl_cons, e]
    rw [e] at hnd hne
    apply ih (P ++ [c]) (merge_scc m c) hnd hne
    have hnd2 : (P ++ [c]).flatten.Nodup := by
      rw [List.flatten_append] at hnd
      exact (List.nodup_append.1 hnd).1
    obtain ⟨n1, n2⟩ := List.nodup_flatten.1 hnd2
    apply fer_mspec_step hm c (hne c (by simp)) (n1 c (by simp))
    · intro c2 hc2 v hv hvc
      rw [List.pairwise_append] at n2
      exact n2.2.2 c2 hc2 c (by simp) hv hvc
    · intro c2 hc2
      exact hne c2 (by simp [hc2])

/-- The redirection loop of `get_result` does what `MSpec` says for all lists. -/
theorem fer_redirect_loop (adj0 : Nat → List Nat) (red0 : Nat → Nat) (hr0 : Nat → Bool)
    (L : List (List Nat)) (hnd : L.flatten.Nodup) (hne : ∀ c ∈ L, c ≠ []) :
    MSpec adj0 red0 hr0 L (redirect_loop adj0 red0 hr0 L) := by
  have := @fer_mspec_fold adj0 red0 hr0 L []
    { adj := adj0, redirect := red0, has_rail := hr0 } (by simpa using hnd)
    (by simpa using hne)
    ⟨fun v _ => ⟨rfl, rfl, rfl⟩, fun c hc => absurd hc (List.not_mem_nil _),
      fun c hc => absurd hc (List.not_mem_nil _)⟩
  simpa [redirect_loop] using this

end Ferate

namespace Ferate

theorem fer_white_le (n : Nat) (h : Nat → Bool) : white n h ≤ n := by
  unfold white
  have := List.countP_le_length (fun v => !(h v)) (l := List.range' 1 n)
  simpa using this

/-- The body of the loop that counts the rails keeps `CInv` and gives a rail to `i`. -/
theorem fer_count_step {adj : Nat → List Nat} {redirect : Nat → Nat} {n : Nat}
    {hr1 : Nat → Bool} (hrange : ∀ a x, x ∈ adj a → 1 ≤ redirect x ∧ redirect x ≤ n)
    (hacyc : ∀ i a, hr1 i = false → hr1 a = false → 1 ≤ i ∧ i ≤ n → 1 ≤ a ∧ a ≤ n →
      Relation.ReflTransGen (Edge adj redirect) i a → Edge adj redirect a i → a = i)
    (fuel : Nat) (hfuel : n ≤ fuel) {r : Rails} (h : CInv adj redirect n hr1 r) (i : Nat)
    (hi : 1 ≤ i ∧ i ≤ n) :
    ∃ r2, count_step adj redirect fuel r i = some r2 ∧ CInv adj redirect n hr1 r2 ∧
      r2.has_rail i = true ∧ (∀ v, r.has_rail v = true → r2.has_rail v = true) := by
  unfold count_step
  cases hri : r.has_rail i with
  | true =>
    rw [if_pos rfl]
    exact ⟨r, rfl, h, hri, fun v hv => hv⟩
  | false =>
    rw [if_neg (by decide)]
    have hei : r.has_edge i = false := by
      cases hei : r.has_edge i with
      | false => rfl
      | true =>
        have := ((h.edge i).1 hei).2.1
        rw [hri] at this
        exact absurd this (by decide)
    have hhr1 : hr1 i = false := fer_bool_mono (h.mono i) hri
    obtain ⟨r2, hr2, hg⟩ := @fer_dfs_spec adj redirect i n hrange fuel i
      { r with cnt := r.cnt + 1, has_edge := upd r.has_edge i true } hri hi.1 hi.2
      (le_trans (fer_white_le n _) hfuel)
    have hcnt : CntInv n { r with cnt := r.cnt + 1, has_edge := upd r.has_edge i true } := by
      obtain ⟨c1, c2⟩ := h.cnt
      constructor
      · show r.cnt + 1 = (((List.range' 1 n).countP (upd r.has_edge i true) : Nat) : Int)
        rw [fer_countP_set r.has_edge i (List.range' 1 n) (List.nodup_range' _ _)
          (by rw [List.mem_range'_1]; omega) hei, c1]
        push_cast
        rfl
      · intro b hb
        have hb2 : upd r.has_edge i true b = true := hb
        by_cases hbi : b = i
        · rw [hbi]; exact hi
        · rw [fer_upd_other _ _ _ _ hbi] at hb2
          exact c2 b hb2
    have hmono : ∀ v, r.has_rail v = true → r2.has_rail v = true := fun v hv => hg.mono v hv
    have hnew1 : ∀ a, r2.has_rail a = true → r.has_rail a = false → hr1 a = false :=
      fun a _ ha => fer_bool_mono (h.mono a) ha
    have hedge_i : r2.has_edge i = true := by
      cases he : r2.has_edge i with
      | true => rfl
      | false =>
        have := (hg.cleared i (by show upd r.has_edge i true i = true; exact fer_upd_same _ _ _)
          he).1
        exact absurd rfl this
    have hedge_old : ∀ b, b ≠ i → r2.has_edge b = true → r.has_edge b = true := by
      intro b hbi hb
      have := hg.edge_mono b hb
      have hb2 : upd r.has_edge i true b = true := this
      rw [fer_upd_other _ _ _ _ hbi] at hb2
      exact hb2
    refine ⟨r2, hr2, ⟨hg.cnt hcnt, ?_, ?_, ?_, ?_, ?_⟩, hg.self, hmono⟩
    · intro v hv; exact hmono v (h.mono v hv)
    · intro v hv hv2
      cases hrv : r.has_rail v with
      | true => exact h.in_range v hv hrv
      | false => exact hg.in_range v hrv hv2
    · intro a ha ha2 b hab
      cases hra : r.has_rail a with
      | true => exact hmono b (h.closed a ha hra b hab)
      | false => exact hg.closed a hra ha2 trivial b hab
    · intro v hv hv2
      cases hrv : r.has_rail v with
      | false => exact ⟨i, hedge_i, hg.reach v hrv hv2⟩
      | true =>
        obtain ⟨b, hb, hbv⟩ := h.rooted v hv hrv
        cases hb2 : r2.has_edge b with
        | true => exact ⟨b, hb2, hbv⟩
        | false =>
          have hb1 : upd r.has_edge i true b = true := by
            by_cases hbi : b = i
            · rw [hbi]; exact fer_upd_same _ _ _
            · rw [fer_upd_other _ _ _ _ hbi]; exact hb
          obtain ⟨_, a, ha1, ha2, ha3⟩ := hg.cleared b hb1 hb2
          exact ⟨i, hedge_i, ((hg.reach a ha1 ha2).tail ha3).trans hbv⟩
    · intro b
      constructor
      · intro hb
        by_cases hbi : b = i
        · subst hbi
          refine ⟨hhr1, hg.self, ?_⟩
          intro a ha ha2 hab
          cases hra : r.has_rail a with
          | true =>
            have := h.closed a ha hra b hab
            rw [hri] at this
            exact absurd this (by decide)
          | false =>
            exact hacyc b a hhr1 ha hi (hg.in_range a hra ha2) (hg.reach a hra ha2) hab
        · have hb0 := hedge_old b hbi hb
          obtain ⟨e1, e2, e3⟩ := (h.edge b).1 hb0
          refine ⟨e1, hmono b e2, ?_⟩
          intro a ha ha2 hab
          cases hra : r.has_rail a with
          | true => exact e3 a ha hra hab
          | false =>
            have := hg.clears a b hra ha2 trivial hab e2 hbi
            rw [hb] at this
            exact absurd this (by decide)
      · rintro ⟨e1, e2, e3⟩
        cases hrb : r.has_rail b with
        | true =>
          have hb0 : r.has_edge b = true :=
            (h.edge b).2 ⟨e1, hrb, fun a ha ha2 hab => e3 a ha (hmono a ha2) hab⟩
          have hbi : b ≠ i := by
            intro e
            rw [e, hri] at hrb
            exact absurd hrb (by decide)
          cases hb2 : r2.has_edge b with
          | true => rfl
          | false =>
            obtain ⟨_, a, ha1, ha2, ha3⟩ := hg.cleared b
              (by show upd r.has_edge i true b = true
                  rw [fer_upd_other _ _ _ _ hbi]; exact hb0) hb2
            have := e3 a (hnew1 a ha2 ha1) ha2 ha3
            rw [this, hrb] at ha1
            exact absurd ha1 (by decide)
        | false =>
          rcases hg.entered b hrb e2 with hbi | ⟨a, ha0, ha1, ha2, ha3⟩
          · rw [hbi]; exact hedge_i
          · exact absurd (e3 a (hnew1 a ha2 ha1) ha2 ha3) ha0

/-- The loop that counts the rails, on the rest `l` of the nodes. -/
theorem fer_count_fold {adj : Nat → List Nat} {redirect : Nat → Nat} {n : Nat}
    {hr1 : Nat → Bool} (hrange : ∀ a x, x ∈ adj a → 1 ≤ redirect x ∧ redirect x ≤ n)
    (hacyc : ∀ i a, hr1 i = false → hr1 a = false → 1 ≤ i ∧ i ≤ n → 1 ≤ a ∧ a ≤ n →
      Relation.ReflTransGen (Edge adj redirect) i a → Edge adj redirect a i → a = i)
    (fuel : Nat) (hfuel : n ≤ fuel) : ∀ (l : List Nat) (r : Rails),
    (∀ i ∈ l, 1 ≤ i ∧ i ≤ n) → CInv adj redirect n hr1 r →
    ∃ r2, l.foldlM (count_step adj redirect fuel) r = some r2 ∧ CInv adj redirect n hr1 r2 ∧
      (∀ v, r.has_rail v = true → r2.has_rail v = true) ∧
      (∀ i ∈ l, r2.has_rail i = true) := by
  intro l
  induction l with
  | nil =>
    intro r _ h
    exact ⟨r, rfl, h, fun v hv => hv, fun i hi => absurd hi (List.not_mem_nil _)⟩
  | cons i rest ih =>
    intro r hl h
    obtain ⟨r1, hr1e, h1, hi1, hm1⟩ :=
      fer_count_step hrange hacyc fuel hfuel h i (hl i (List.mem_cons_self _ _))
    obtain ⟨r2, hr2, h2, hm2, hall⟩ := ih r1 (fun j hj => hl j (List.mem_cons_of_mem _ hj)) h1
    rw [List.foldlM_cons, hr1e]
    refine ⟨r2, hr2, h2, fun v hv => hm2 v (hm1 v hv), ?_⟩
    intro j hj
    rcases List.mem_cons.1 hj with e | hj1
    · rw [e]; exact hm2 i hi1
    · exact hall j hj1

/-- At the head of the loop that counts the rails `CInv` holds. -/
theorem fer_cinv_init (adj : Nat → List Nat) (redirect : Nat → Nat) (n : Nat)
    (hr1 : Nat → Bool) (r1 : Rails) (he : ∀ v, r1.has_edge v = false) (hc : r1.cnt = 0) :
    CInv adj redirect n hr1 { r1 with has_rail := hr1 } := by
  refine ⟨⟨?_, ?_⟩, fun v hv => hv, ?_, ?_, ?_, ?_⟩
  · show r1.cnt = (((List.range' 1 n).countP r1.has_edge : Nat) : Int)
    have h0 : (List.range' 1 n).countP r1.has_edge = 0 := by
      rw [List.countP_eq_zero]
      intro a _
      rw [he a]; decide
    rw [h0, hc]; rfl
  · intro b hb
    have : r1.has_edge b = true := hb
    rw [he b] at this
    exact absurd this (by decide)
  · intro v hv hv2
    have : hr1 v = true := hv2
    rw [hv] at this
    exact absurd this (by decide)
  · intro a ha ha2
    have : hr1 a = true := ha2
    rw [ha] at this
    exact absurd this (by decide)
  · intro v hv hv2
    have : hr1 v = true := hv2
    rw [hv] at this
    exact absurd this (by decide)
  · intro b
    constructor
    · intro hb
      have : r1.has_edge b = true := hb
      rw [he b] at this
      exact absurd this (by decide)
    · rintro ⟨e1, e2, _⟩
      have : hr1 b = true := e2
      rw [e1] at this
      exact absurd this (by decide)

end Ferate

namespace Ferate

theorem fer_head_mem {n : Nat} {arcs : List (Nat × Nat)} {s : Nat}
    {hr0 : Nat → Bool} {L : List (List Nat)} {m : Merged} (h : Condensed n arcs s hr0 L m) {c : List Nat} (hc : c ∈ L) :
    c.headD 0 ∈ c := by
  cases c with
  | nil => exact absurd rfl (h.scc [] hc).1
  | cons y _ => simp

/-- A node is in one list only. -/
theorem fer_same_list {n : Nat} {arcs : List (Nat × Nat)} {s : Nat}
    {hr0 : Nat → Bool} {L : List (List Nat)} {m : Merged} (h : Condensed n arcs s hr0 L m) {c c2 : List Nat} (hc : c ∈ L)
    (hc2 : c2 ∈ L) {v : Nat} (hv : v ∈ c) (hv2 : v ∈ c2) : c = c2 := by
  by_contra hne
  have hp := (List.nodup_flatten.1 h.nd).2
  have := List.Pairwise.forall (fun a b hab => List.Disjoint.symm hab) hp hc hc2 hne
  exact this hv hv2

theorem fer_list_of {n : Nat} {arcs : List (Nat × Nat)} {s : Nat}
    {hr0 : Nat → Bool} {L : List (List Nat)} {m : Merged} (h : Condensed n arcs s hr0 L m) {v : Nat} (h1 : 1 ≤ v) (h2 : v ≤ n)
    (hv : ¬ Reach arcs s v) : ∃ c ∈ L, v ∈ c := by
  have := (h.mem v).2 ⟨h1, h2, hv⟩
  obtain ⟨c, hc, hvc⟩ := List.mem_flatten.1 this
  exact ⟨c, hc, hvc⟩

theorem fer_list_facts {n : Nat} {arcs : List (Nat × Nat)} {s : Nat}
    {hr0 : Nat → Bool} {L : List (List Nat)} {m : Merged} (h : Condensed n arcs s hr0 L m) {c : List Nat} (hc : c ∈ L) {v : Nat}
    (hv : v ∈ c) : 1 ≤ v ∧ v ≤ n ∧ ¬ Reach arcs s v ∧ hr0 v = false := by
  have := (h.mem v).1 (List.mem_flatten.2 ⟨c, hc, hv⟩)
  refine ⟨this.1, this.2.1, this.2.2, ?_⟩
  cases hh : hr0 v with
  | false => rfl
  | true => exact absurd ((h.hR v).1 hh) this.2.2

/-- A node of `1..n` without a rail after the redirection is the first node of a list. -/
theorem fer_rep {n : Nat} {arcs : List (Nat × Nat)} {s : Nat}
    {hr0 : Nat → Bool} {L : List (List Nat)} {m : Merged} (h : Condensed n arcs s hr0 L m) {v : Nat} (h1 : 1 ≤ v) (h2 : v ≤ n)
    (hv : m.has_rail v = false) : ∃ c ∈ L, v = c.headD 0 := by
  by_cases hin : ∃ c ∈ L, v ∈ c
  · obtain ⟨c, hc, hvc⟩ := hin
    refine ⟨c, hc, ?_⟩
    by_contra hne
    have := ((h.spec.inn c hc v hvc).2.1).2 (Or.inr hne)
    rw [hv] at this
    exact absurd this (by decide)
  · have hout := (h.spec.out v (fun c hc hvc => hin ⟨c, hc, hvc⟩)).2.2
    rw [hv] at hout
    have hr : ¬ Reach arcs s v := fun hr => by
      rw [(h.hR v).2 hr] at hout
      exact absurd hout (by decide)
    exact absurd (fer_list_of h h1 h2 hr) hin

theorem fer_head_no_rail {n : Nat} {arcs : List (Nat × Nat)} {s : Nat}
    {hr0 : Nat → Bool} {L : List (List Nat)} {m : Merged} (h : Condensed n arcs s hr0 L m) {c : List Nat} (hc : c ∈ L) :
    m.has_rail (c.headD 0) = false := by
  have hm := fer_head_mem h hc
  have hf := (fer_list_facts h hc hm).2.2.2
  cases hh : m.has_rail (c.headD 0) with
  | false => rfl
  | true =>
    rcases ((h.spec.inn c hc _ hm).2.1).1 hh with e | e
    · rw [hf] at e; exact absurd e (by decide)
    · exact absurd rfl e

/-- The redirection of a node of `1..n` is a node of `1..n` mutually reachable with it. -/
theorem fer_redirect_facts {n : Nat} {arcs : List (Nat × Nat)} {s : Nat}
    {hr0 : Nat → Bool} {L : List (List Nat)} {m : Merged} (h : Condensed n arcs s hr0 L m) {z : Nat} (h1 : 1 ≤ z)
    (h2 : z ≤ n) : (1 ≤ m.redirect z ∧ m.redirect z ≤ n) ∧ Reach arcs z (m.redirect z) ∧
      ((∃ c ∈ L, z ∈ c ∧ m.redirect z = c.headD 0) ∨
        ((∀ c ∈ L, z ∉ c) ∧ m.redirect z = z)) := by
  by_cases hin : ∃ c ∈ L, z ∈ c
  · obtain ⟨c, hc, hzc⟩ := hin
    have e := (h.spec.inn c hc z hzc).1
    have hm := fer_head_mem h hc
    have hf := fer_list_facts h hc hm
    rw [e]
    exact ⟨⟨hf.1, hf.2.1⟩, (((h.scc c hc).2 z hzc _).1 hm).1, Or.inl ⟨c, hc, hzc, rfl⟩⟩
  · have hno : ∀ c ∈ L, z ∉ c := fun c hc hzc => hin ⟨c, hc, hzc⟩
    have e := (h.spec.out z hno).2.1
    rw [fer_init_redirect_in n z h1 h2] at e
    rw [e]
    exact ⟨⟨h1, h2⟩, Relation.ReflTransGen.refl, Or.inr ⟨hno, rfl⟩⟩

/-- A neighbour in the adjacency lists after the redirection is a neighbour in the graph of
a node mutually reachable with the owner of the list. -/
theorem fer_adj_facts {n : Nat} {arcs : List (Nat × Nat)} {s : Nat}
    {hr0 : Nat → Bool} {L : List (List Nat)} {m : Merged} (h : Condensed n arcs s hr0 L m) {x z : Nat} (hz : z ∈ m.adj x) :
    ∃ a, Reach arcs x a ∧ Reach arcs a x ∧ Arc arcs a z ∧
      ((∃ c ∈ L, x = c.headD 0 ∧ a ∈ c) ∨ a = x) := by
  by_cases hx : ∃ c ∈ L, x = c.headD 0
  · obtain ⟨c, hc, e⟩ := hx
    rw [e] at hz
    obtain ⟨a, ha, haz⟩ := (h.spec.head c hc z).1 hz
    have hm := fer_head_mem h hc
    have hmut := ((h.scc c hc).2 _ hm a).1 ha
    rw [e]
    exact ⟨a, hmut.1, hmut.2, (fer_mem_read_input arcs a z).1 haz, Or.inl ⟨c, hc, rfl, ha⟩⟩
  · have hadj : m.adj x = read_input arcs x := by
      by_cases hin : ∃ c ∈ L, x ∈ c
      · obtain ⟨c, hc, hxc⟩ := hin
        exact (h.spec.inn c hc x hxc).2.2 (fun e => hx ⟨c, hc, e⟩)
      · exact (h.spec.out x (fun c hc hxc => hin ⟨c, hc, hxc⟩)).1
    rw [hadj] at hz
    exact ⟨x, Relation.ReflTransGen.refl, Relation.ReflTransGen.refl,
      (fer_mem_read_input arcs x z).1 hz, Or.inr rfl⟩

theorem fer_range_merged {n : Nat} {arcs : List (Nat × Nat)} {s : Nat}
    {hr0 : Nat → Bool} {L : List (List Nat)} {m : Merged} (h : Condensed n arcs s hr0 L m) :
    ∀ a x, x ∈ m.adj a → 1 ≤ m.redirect x ∧ m.redirect x ≤ n := by
  intro a x hx
  obtain ⟨a2, _, _, harc, _⟩ := fer_adj_facts h hx
  have hr := (h.valid.arcs_in _ harc).2
  exact (fer_redirect_facts h hr.1 hr.2).1

/-- The arcs that `dfs` follows after the redirection join nodes that the graph joins. -/
theorem fer_edge_reach {n : Nat} {arcs : List (Nat × Nat)} {s : Nat}
    {hr0 : Nat → Bool} {L : List (List Nat)} {m : Merged} (h : Condensed n arcs s hr0 L m) {x y : Nat}
    (hxy : Edge m.adj m.redirect x y) : Reach arcs x y := by
  obtain ⟨z, hz, e⟩ := hxy
  obtain ⟨a, h1, _, harc, _⟩ := fer_adj_facts h hz
  have hr := (h.valid.arcs_in _ harc).2
  have := (fer_redirect_facts h hr.1 hr.2).2.1
  rw [e] at this
  exact (h1.tail harc).trans this

theorem fer_edges_reach {n : Nat} {arcs : List (Nat × Nat)} {s : Nat}
    {hr0 : Nat → Bool} {L : List (List Nat)} {m : Merged} (h : Condensed n arcs s hr0 L m) {x y : Nat}
    (hxy : Relation.ReflTransGen (Edge m.adj m.redirect) x y) : Reach arcs x y := by
  induction hxy with
  | refl => exact Relation.ReflTransGen.refl
  | tail _ hbc ih => exact ih.trans (fer_edge_reach h hbc)

/-- Two first nodes of lists that are mutually reachable are equal. -/
theorem fer_rep_unique {n : Nat} {arcs : List (Nat × Nat)} {s : Nat}
    {hr0 : Nat → Bool} {L : List (List Nat)} {m : Merged} (h : Condensed n arcs s hr0 L m) {c c2 : List Nat} (hc : c ∈ L)
    (hc2 : c2 ∈ L) (h1 : Reach arcs (c.headD 0) (c2.headD 0))
    (h2 : Reach arcs (c2.headD 0) (c.headD 0)) : c = c2 := by
  have hm := fer_head_mem h hc
  have hm2 := fer_head_mem h hc2
  have := ((h.scc c hc).2 _ hm (c2.headD 0)).2 ⟨h1, h2⟩
  exact fer_same_list h hc hc2 this hm2

theorem fer_acyclic {n : Nat} {arcs : List (Nat × Nat)} {s : Nat}
    {hr0 : Nat → Bool} {L : List (List Nat)} {m : Merged} (h : Condensed n arcs s hr0 L m) :
    ∀ i a, m.has_rail i = false → m.has_rail a = false → 1 ≤ i ∧ i ≤ n → 1 ≤ a ∧ a ≤ n →
      Relation.ReflTransGen (Edge m.adj m.redirect) i a → Edge m.adj m.redirect a i →
      a = i := by
  intro i a hi ha hir har hia hai
  obtain ⟨c, hc, e⟩ := fer_rep h hir.1 hir.2 hi
  obtain ⟨c2, hc2, e2⟩ := fer_rep h har.1 har.2 ha
  have h1 := fer_edges_reach h hia
  have h2 := fer_edge_reach h hai
  rw [e, e2] at h1 h2
  rw [e, e2, fer_rep_unique h hc hc2 h1 h2]

end Ferate

namespace Ferate

/-- The whole of `get_result`: the value returned is the length of a list `B` of nodes of
`1..n` that `s` does not reach, one in each strongly connected component that no arc
enters from outside, and every node that `s` does not reach is reached from a node of
`B`. -/
theorem fer_final {n : Nat} {arcs : List (Nat × Nat)} {s : Nat} (valid : Valid n arcs s)
    (fuel : Nat) (hfuel : n ≤ fuel) :
    ∃ B : List Nat, get_result fuel n arcs s = some (B.length : Int) ∧ B.Nodup ∧
      (∀ b ∈ B, 1 ≤ b ∧ b ≤ n ∧ ¬ Reach arcs s b) ∧
      (∀ b ∈ B, ∀ u v, Arc arcs u v → v ∈ SCC arcs b → u ∈ SCC arcs b) ∧
      (∀ b1 ∈ B, ∀ b2 ∈ B, Reach arcs b1 b2 → Reach arcs b2 b1 → b1 = b2) ∧
      (∀ C ∈ SourceComponents n arcs s, ∃ b ∈ B, C = SCC arcs b) ∧
      (∀ v, 1 ≤ v → v ≤ n → ¬ Reach arcs s v → ∃ b ∈ B, Reach arcs b v) := by
  obtain ⟨r1, ts, hr1, hts, hR, hE, hcnt, hnd, hmem, hscc⟩ := fer_sccs_spec valid fuel hfuel
  have h : Condensed n arcs s r1.has_rail ts.all_sccs
      (redirect_loop (read_input arcs) (init_redirect n) r1.has_rail ts.all_sccs) :=
    ⟨valid, hR, hnd, hmem, hscc,
      fer_redirect_loop _ _ _ _ hnd (fun c hc => (hscc c hc).1)⟩
  generalize hm : redirect_loop (read_input arcs) (init_redirect n) r1.has_rail ts.all_sccs
    = m at h
  obtain ⟨r2, hr2, hc2, _, hall0⟩ := fer_count_fold (fer_range_merged h) (fer_acyclic h) fuel
    hfuel (List.range' 1 n) { r1 with has_rail := m.has_rail }
    (fun i hi => by rw [List.mem_range'_1] at hi; omega)
    (fer_cinv_init m.adj m.redirect n m.has_rail r1 hE hcnt)
  have hall : ∀ i, 1 ≤ i → i ≤ n → r2.has_rail i = true :=
    fun i h1 h2 => hall0 i (by rw [List.mem_range'_1]; omega)
  have hres : get_result fuel n arcs s = some r2.cnt := by
    unfold get_result
    rw [hr1]
    simp only
    rw [hts]
    simp only
    rw [hm]
    unfold count_loop
    rw [hr2]
  have hB : ∀ b, b ∈ (List.range' 1 n).filter (fun b => r2.has_edge b) ↔
      ((1 ≤ b ∧ b ≤ n) ∧ r2.has_edge b = true) := by
    intro b
    rw [List.mem_filter, List.mem_range'_1]
    constructor
    · rintro ⟨h1, h2⟩; exact ⟨⟨h1.1, by omega⟩, h2⟩
    · rintro ⟨h1, h2⟩; exact ⟨⟨h1.1, by omega⟩, h2⟩
  -- a node with an edge is the first node of a list
  have hrep : ∀ b, (1 ≤ b ∧ b ≤ n) → r2.has_edge b = true →
      ∃ c ∈ ts.all_sccs, b = c.headD 0 := by
    intro b hb he
    exact fer_rep h hb.1 hb.2 ((hc2.edge b).1 he).1
  refine ⟨(List.range' 1 n).filter (fun b => r2.has_edge b), ?_, ?_, ?_, ?_, ?_, ?_, ?_⟩
  · rw [hres, (hc2.cnt).1, List.countP_eq_length_filter]
  · exact List.Nodup.filter _ (List.nodup_range' _ _)
  · intro b hb
    obtain ⟨hr, he⟩ := (hB b).1 hb
    obtain ⟨c, hc, e⟩ := hrep b hr he
    have := fer_list_facts h hc (fer_head_mem h hc)
    rw [← e] at this
    exact ⟨hr.1, hr.2, this.2.2.1⟩
  · intro b hb u v harc hv
    obtain ⟨hr, he⟩ := (hB b).1 hb
    obtain ⟨c, hc, e⟩ := hrep b hr he
    have hbc : b ∈ c := by rw [e]; exact fer_head_mem h hc
    have hvc : v ∈ c := ((hscc c hc).2 b hbc v).2 hv
    have hvf := fer_list_facts h hc hvc
    have hur := (valid.arcs_in _ harc).1
    have hus : ¬ Reach arcs s u := fun hr => hvf.2.2.1 (hr.tail harc)
    obtain ⟨cu, hcu, huc⟩ := fer_list_of h hur.1 hur.2 hus
    have hau := fer_head_mem h hcu
    have haf := fer_list_facts h hcu hau
    have hedge : Edge m.adj m.redirect (cu.headD 0) b :=
      ⟨v, (h.spec.head cu hcu v).2 ⟨u, huc, (fer_mem_read_input arcs u v).2 harc⟩,
        by rw [(h.spec.inn c hc v hvc).1, e]⟩
    have := ((hc2.edge b).1 he).2.2 (cu.headD 0) (fer_head_no_rail h hcu)
      (hall _ haf.1 haf.2.1) hedge
    have hcc : cu = c := fer_same_list h hcu hc hau (by rw [this]; exact hbc)
    rw [hcc] at huc
    exact ((hscc c hc).2 b hbc u).1 huc
  · intro b1 hb1 b2 hb2 h12 h21
    obtain ⟨hr1b, he1⟩ := (hB b1).1 hb1
    obtain ⟨hr2b, he2⟩ := (hB b2).1 hb2
    obtain ⟨c1, hc1, e1⟩ := hrep b1 hr1b he1
    obtain ⟨c2, hc2b, e2⟩ := hrep b2 hr2b he2
    rw [e1, e2] at h12 h21
    rw [e1, e2, fer_rep_unique h hc1 hc2b h12 h21]
  · rintro C ⟨⟨a, ha1, ha2, hC⟩, hnr, hcl⟩
    subst hC
    have haa : a ∈ SCC arcs a := ⟨Relation.ReflTransGen.refl, Relation.ReflTransGen.refl⟩
    obtain ⟨c, hc, hac⟩ := fer_list_of h ha1 ha2 (hnr a haa)
    have hbc := fer_head_mem h hc
    have hbf := fer_list_facts h hc hbc
    have hab := ((hscc c hc).2 a hac _).1 hbc
    refine ⟨c.headD 0, ?_, ?_⟩
    · rw [hB]
      refine ⟨⟨hbf.1, hbf.2.1⟩, ?_⟩
      rw [hc2.edge]
      refine ⟨fer_head_no_rail h hc, hall _ hbf.1 hbf.2.1, ?_⟩
      intro a2 ha2r ha2v hedge
      have ha2in := hc2.in_range a2 ha2r ha2v
      obtain ⟨c2, hc2m, e2⟩ := fer_rep h ha2in.1 ha2in.2 ha2r
      obtain ⟨z, hz, hzb⟩ := hedge
      obtain ⟨a3, h23, h32, harc, _⟩ := fer_adj_facts h hz
      have hzr : 1 ≤ z ∧ z ≤ n := (valid.arcs_in _ harc).2
      have hzc : z ∈ c := by
        rcases (fer_redirect_facts h hzr.1 hzr.2).2.2 with ⟨c3, hc3, hz3, e3⟩ | ⟨hno, e3⟩
        · rw [hzb] at e3
          have h3 : c3.headD 0 ∈ c3 := fer_head_mem h hc3
          have : c3 = c := fer_same_list h hc3 hc h3 (by rw [← e3]; exact hbc)
          rw [← this]; exact hz3
        · rw [hzb] at e3
          rw [← e3] at hno
          exact absurd hbc (hno c hc)
      have hza : z ∈ SCC arcs a := ((hscc c hc).2 a hac z).1 hzc
      have ha3 := hcl a3 z harc hza
      have h2a : Reach arcs a2 (c.headD 0) := (h23.trans ha3.2).trans hab.1
      have ha2 : Reach arcs (c.headD 0) a2 := (hab.2.trans ha3.1).trans h32
      rw [e2] at h2a ha2 ⊢
      rw [fer_rep_unique h hc2m hc h2a ha2]
    · ext x
      constructor
      · rintro ⟨h1, h2⟩
        exact ⟨hab.2.trans h1, h2.trans hab.1⟩
      · rintro ⟨h1, h2⟩
        exact ⟨hab.1.trans h1, h2.trans hab.2⟩
  · intro v hv1 hv2 hvs
    obtain ⟨c, hc, hvc⟩ := fer_list_of h hv1 hv2 hvs
    have hbc := fer_head_mem h hc
    have hbf := fer_list_facts h hc hbc
    obtain ⟨b, hb, hbh⟩ := hc2.rooted _ (fer_head_no_rail h hc) (hall _ hbf.1 hbf.2.1)
    refine ⟨b, ?_, (fer_edges_reach h hbh).trans (((hscc c hc).2 _ hbc v).1 hvc).1⟩
    rw [hB]
    exact ⟨(hc2.cnt).2 b hb, hb⟩

end Ferate

namespace Ferate

/-- A path that starts outside a set and ends inside it has an arc that enters the set. -/
theorem fer_crossing {R : Nat → Nat → Prop} {S : Set Nat} {a b : Nat}
    (h : Relation.ReflTransGen R a b) (ha : a ∉ S) (hb : b ∈ S) :
    ∃ u v, R u v ∧ u ∉ S ∧ v ∈ S := by
  induction h with
  | refl => exact absurd hb ha
  | @tail c b _ hcb ih =>
    by_cases hc : c ∈ S
    · exact ih hc
    · exact ⟨c, b, hcb, hc, hb⟩

theorem fer_reach_mono {arcs : List (Nat × Nat)} (A : List (Nat × Nat)) {a b : Nat}
    (h : Reach arcs a b) : Reach (arcs ++ A) a b :=
  Relation.ReflTransGen.mono (fun _ _ hxy => List.mem_append_left A hxy) h

/-- C8 (ferate): for every graph with arcs between nodes of `1..n`, `n < NMAX`, and every
source `s` of `1..n`, `get_result` returns (with any bound on the recursion depth from `n`
on) the number of strongly connected components `C` of the graph such that no node of `C`
is reachable from `s` and no arc `(u, v)` has `v` in `C` and `u` outside `C`. -/
theorem ferate_result_counts_source_components (n : Nat) (arcs : List (Nat × Nat)) (s : Nat)
    (valid : Valid n arcs s) (fuel : Nat) (hfuel : n ≤ fuel) :
    get_result fuel n arcs s = some (((SourceComponents n arcs s).ncard : Nat) : Int) := by
  obtain ⟨B, hres, hnd, hB1, hB2, hB3, hB4, _⟩ := fer_final valid fuel hfuel
  have himg : SourceComponents n arcs s = SCC arcs '' {b | b ∈ B} := by
    ext C
    constructor
    · intro hC
      obtain ⟨b, hb, e⟩ := hB4 C hC
      exact ⟨b, hb, e.symm⟩
    · rintro ⟨b, hb, rfl⟩
      have hb1 := hB1 b hb
      refine ⟨⟨b, hb1.1, hb1.2.1, rfl⟩, ?_, hB2 b hb⟩
      intro v hv hsv
      exact hb1.2.2 (hsv.trans hv.2)
  have hinj : Set.InjOn (SCC arcs) {b | b ∈ B} := by
    intro b1 hb1 b2 hb2 e
    have h2 : b2 ∈ SCC arcs b2 := ⟨Relation.ReflTransGen.refl, Relation.ReflTransGen.refl⟩
    rw [← e] at h2
    exact hB3 b1 hb1 b2 hb2 h2.1 h2.2
  have hcard : ({b | b ∈ B} : Set Nat).ncard = B.length := by
    have e : ({b | b ∈ B} : Set Nat) = ↑B.toFinset := by
      ext x; simp
    rw [e, Set.ncard_coe_Finset, List.toFinset_card_of_nodup hnd]
  rw [hres, himg, Set.ncard_image_of_injOn hinj, hcard]

/-- C1 (ferate): for every graph with arcs between nodes of `1..n`, `n < NMAX` (self-loops
and duplicate arcs allowed), and every source `s` of `1..n`, `get_result` returns (with any
bound on the recursion depth from `n` on) a number `k` such that some set of `k` new arcs
between nodes of `1..n` makes every node of `1..n` reachable from `s` when added to the
graph, and every list of arcs that does so has at least `k` different arcs. -/
theorem ferate_result_is_minimum (n : Nat) (arcs : List (Nat × Nat)) (s : Nat)
    (valid : Valid n arcs s) (fuel : Nat) (hfuel : n ≤ fuel) :
    ∃ k : Nat, get_result fuel n arcs s = some (k : Int) ∧
      (∃ A : List (Nat × Nat), A.Nodup ∧ A.length = k ∧
        (∀ e ∈ A, e ∉ arcs ∧ (1 ≤ e.1 ∧ e.1 ≤ n) ∧ (1 ≤ e.2 ∧ e.2 ≤ n)) ∧
        ∀ v, 1 ≤ v → v ≤ n → Reach (arcs ++ A) s v) ∧
      (∀ A : List (Nat × Nat), (∀ v, 1 ≤ v → v ≤ n → Reach (arcs ++ A) s v) →
        k ≤ A.toFinset.card) := by
  obtain ⟨B, hres, hnd, hB1, hB2, hB3, _, hB5⟩ := fer_final valid fuel hfuel
  refine ⟨B.length, hres, ⟨B.map (fun b => (s, b)), ?_, by simp, ?_, ?_⟩, ?_⟩
  · apply List.Nodup.map _ hnd
    intro a b hab
    exact (Prod.mk.inj hab).2
  · intro e he
    obtain ⟨b, hb, rfl⟩ := List.mem_map.1 he
    have hb1 := hB1 b hb
    refine ⟨?_, valid.s_in, hb1.1, hb1.2.1⟩
    intro hin
    exact hb1.2.2 (Relation.ReflTransGen.single hin)
  · intro v hv1 hv2
    by_cases hsv : Reach arcs s v
    · exact fer_reach_mono _ hsv
    · obtain ⟨b, hb, hbv⟩ := hB5 v hv1 hv2 hsv
      have harc : Arc (arcs ++ B.map (fun b => (s, b))) s b :=
        List.mem_append_right _ (List.mem_map.2 ⟨b, hb, rfl⟩)
      exact Relation.ReflTransGen.head harc (fer_reach_mono _ hbv)
  · intro A hA
    have hex : ∀ b, b ∈ B → ∃ e : Nat × Nat, e ∈ A ∧ e.2 ∈ SCC arcs b := by
      intro b hb
      have hb1 := hB1 b hb
      have hs : s ∉ SCC arcs b := fun hs => hb1.2.2 hs.2
      have hbb : b ∈ SCC arcs b := ⟨Relation.ReflTransGen.refl, Relation.ReflTransGen.refl⟩
      obtain ⟨u, v, huv, hu, hv⟩ := fer_crossing (hA b hb1.1 hb1.2.1) hs hbb
      rcases List.mem_append.1 huv with h1 | h1
      · exact absurd (hB2 b hb u v h1 hv) hu
      · exact ⟨(u, v), h1, hv⟩
    choose! f hf using hex
    have hle : B.toFinset.card ≤ A.toFinset.card := by
      apply Finset.card_le_card_of_injOn f
      · intro b hb
        have hb2 : b ∈ B := List.mem_toFinset.1 hb
        exact List.mem_toFinset.2 (hf b hb2).1
      · intro b1 hb1 b2 hb2 e
        have h1 : b1 ∈ B := List.mem_toFinset.1 hb1
        have h2 : b2 ∈ B := List.mem_toFinset.1 hb2
        have m1 := (hf b1 h1).2
        have m2 := (hf b2 h2).2
        rw [e] at m1
        exact hB3 b1 h1 b2 h2 (m1.1.trans m2.2) (m2.1.trans m1.2)
    rw [List.toFinset_card_of_nodup hnd] at hle
    exact hle

/-- Witness for C8: five nodes, the arcs 1-2, 3-4, 4-3, 5-4 and the loop 2-2, source 1. The
components of the nodes that 1 does not reach are {3, 4} and {5}; only {5} has no arc
entering it, and the program returns 1. -/
theorem ferate_result_counts_source_components_witness :
    get_result 5 5 [(1, 2), (3, 4), (4, 3), (5, 4), (2, 2)] 1 = some 1 ∧
    get_result 5 5 [(1, 2), (3, 4), (4, 3), (5, 4), (2, 2)] 1 =
      some (((SourceComponents 5 [(1, 2), (3, 4), (4, 3), (5, 4), (2, 2)] 1).ncard : Nat) :
        Int) :=
  ⟨by decide,
    ferate_result_counts_source_components 5 [(1, 2), (3, 4), (4, 3), (5, 4), (2, 2)] 1
      fer_example_valid 5 (by decide)⟩

/-- Witness for C1: on the same input the program returns 1; the arc 1-5 makes every node
reachable from 1, and no arc at all does not. -/
theorem ferate_result_is_minimum_witness :
    get_result 5 5 [(1, 2), (3, 4), (4, 3), (5, 4), (2, 2)] 1 = some 1 ∧
    ∃ k : Nat, get_result 5 5 [(1, 2), (3, 4), (4, 3), (5, 4), (2, 2)] 1 = some (k : Int) ∧
      (∃ A : List (Nat × Nat), A.Nodup ∧ A.length = k ∧
        (∀ e ∈ A, e ∉ [(1, 2), (3, 4), (4, 3), (5, 4), (2, 2)] ∧
          (1 ≤ e.1 ∧ e.1 ≤ 5) ∧ (1 ≤ e.2 ∧ e.2 ≤ 5)) ∧
        ∀ v, 1 ≤ v → v ≤ 5 → Reach ([(1, 2), (3, 4), (4, 3), (5, 4), (2, 2)] ++ A) 1 v) ∧
      (∀ A : List (Nat × Nat),
        (∀ v, 1 ≤ v → v ≤ 5 → Reach ([(1, 2), (3, 4), (4, 3), (5, 4), (2, 2)] ++ A) 1 v) →
        k ≤ A.toFinset.card) :=
  ⟨by decide,
    ferate_result_is_minimum 5 [(1, 2), (3, 4), (4, 3), (5, 4), (2, 2)] 1
      fer_example_valid 5 (by decide)⟩

end Ferate
